import Mathlib

/-!
# Depth-image flood-fill segmentation and re-seeding (orbbec_hands `SegmentationUtility`)

A shallow embedding of `src/plugins/orbbec_hands/segmentationutility.cpp`.

Modelling conventions.

* `cv::Point` is a pair of integers.
* A `cv::Mat` is its two dimensions together with a total cell function; every claim
  below that depends on an access being inside the buffer states it explicitly.
* `float` values are rationals; infinities and NaN are not modelled. The square root of
  the C library is a parameter `fsqrt` of the flood fill. The subtraction of the search
  budget is exact in `processEntry`, which serves the claims that do not depend on the
  budget's value, and is a parameter `fsub` with a bounded relative error in
  `processEntryRounded`, which serves the bounds on the budget; with the exact `fsub` the
  two agree (`floodLoopRounded_exact`).
* `char` cells are natural numbers.
* `std::queue` is a list: `push` appends at the end, `front`/`pop` take the head.
* The `while` loop of the flood fill runs on fuel `cols * rows`; that this fuel empties
  the queue is proved (`floodLoop_queue_empty`).
* Reading the depth buffer at a seed outside the buffer has no defined result; the
  flood fill returns `none` there.
* The conversion `CoordinateConversion::convertDepthToRealWorld` and the OpenCV calls
  `cv::norm`, `cv::erode` and `cv::dilate` are parameters of the functions that call them.
* The lists `dequeued`, `enqueued`, `ConvergeRun.calls` and `EdgeRun.rounds` record what a
  run does; they are not variables of the program.
-/

namespace Astra

/-- A pixel position, `cv::Point`. -/
structure Point where
  x : Int
  y : Int
deriving DecidableEq, Repr

/-- The "not found" position `(-1, -1)`. -/
def sentinel : Point := ⟨-1, -1⟩

/-- A matrix `cv::Mat` with cells of type `α`: `cols`, `rows`, and the cell at a point. -/
structure Mat (α : Type) where
  cols : Nat
  rows : Nat
  cell : Point → α

/-- The access `m.at<T>(p) = v`: the same matrix with the cell at `p` replaced. -/
def Mat.set {α : Type} (m : Mat α) (p : Point) (v : α) : Mat α :=
  { m with cell := fun q => if q = p then v else m.cell q }

/-- The matrix `cv::Mat::zeros(size, type)`. -/
def Mat.zeros {α : Type} [Zero α] (cols rows : Nat) : Mat α :=
  { cols := cols, rows := rows, cell := fun _ => 0 }

/-- Whether `p` is a pixel of a `cols` by `rows` buffer. -/
def inBounds (cols rows : Nat) (p : Point) : Bool :=
  decide (0 ≤ p.x) && decide (p.x < (cols : Int)) && decide (0 ≤ p.y) && decide (p.y < (rows : Int))

/-- Modelled from the spec: the `PixelType` enumeration of `trackingdata.h` (not among the
sources). The spec's data model lists the cell states Unvisited, Foreground and Searched of
the small-integer pixel-state buffer; the codes are the positions in that list. -/
def PixelType.Unvisited : Nat := 0

/-- Modelled from the spec: the `PixelType::Foreground` enumerator of `trackingdata.h`. -/
def PixelType.Foreground : Nat := 1

/-- Modelled from the spec: the `PixelType::Searched` enumerator of `trackingdata.h`. -/
def PixelType.Searched : Nat := 2

/-- Modelled from the spec: the `TrackedPointType` tag of `trackingdata.h`, which tells an
"active" tracked point from a passive one. -/
inductive TrackedPointType where
  | CandidatePoint
  | ActivePoint
deriving DecidableEq, Repr

/-- Modelled from the spec: the tracking context `TrackingData` of `trackingdata.h`, with the
members that `segmentationutility.cpp` reads and writes. -/
structure TrackingData where
  matDepth : Mat ℚ
  matArea : Mat ℚ
  matGlobalSegmentation : Mat Nat
  matScore : Mat ℚ
  matForegroundSearched : Mat Nat
  matLayerSegmentation : Mat Nat
  seedPosition : Point
  referenceDepth : ℚ
  bandwidthDepth : ℚ
  pointType : TrackedPointType
  iterationMax : Int

/-- The queue entry `PointTTL`. -/
structure PointTTL where
  m_point : Point
  m_ttl : ℚ
  m_pathInRange : Bool

/-- The constant `maxTTL` of `segmentForeground` (millimetres). -/
def maxTTL : ℚ := 250

/-- The bound `maxDepth = referenceDepth + bandwidthDepth` of `segmentForeground`. -/
def maxDepth (data : TrackingData) : ℚ := data.referenceDepth + data.bandwidthDepth

/-- The test `depth != 0 && depth < maxDepth` applied to the depth at `p`. -/
def pointInRange (data : TrackingData) (p : Point) : Bool :=
  decide (data.matDepth.cell p ≠ 0) && decide (data.matDepth.cell p < maxDepth data)

/-- The variables of `segmentForeground` that its loop changes. -/
structure FillState where
  pointQueue : List PointTTL
  matVisited : Mat Nat
  matForeground : Mat Nat
  matSegmentation : Mat Nat
  anyInRange : Bool

/-- One of the four neighbour blocks of the loop body: when the bound test `inside` holds and
the neighbour is not visited, mark it visited and push it. -/
def pushNeighbour (inside : Bool) (q : Point) (ttl : ℚ) (pathInRange : Bool)
    (s : FillState) : FillState :=
  if inside && decide (s.matVisited.cell q = 0) then
    { s with matVisited := s.matVisited.set q 1
             pointQueue := s.pointQueue ++ [⟨q, ttl, pathInRange⟩] }
  else s

/-- The body of the `while` loop of `segmentForeground` for the dequeued entry `pt`; `s` is
the state after `pop`. -/
def processEntry (fsqrt : ℚ → ℚ) (data : TrackingData) (pt : PointTTL) (s : FillState) :
    FillState :=
  let p := pt.m_point
  let width : Int := data.matDepth.cols
  let height : Int := data.matDepth.rows
  let ttl := if s.matForeground.cell p = PixelType.Foreground then maxTTL else pt.m_ttl
  if ttl > 0 then
    let s1 := { s with matForeground := s.matForeground.set p PixelType.Searched }
    let inRange := pointInRange data p
    if decide (ttl > 0) && (!pt.m_pathInRange || inRange) then
      let ttl1 :=
        if data.pointType ≠ TrackedPointType.ActivePoint ∨ s1.anyInRange = true then
          ttl - fsqrt (data.matArea.cell p)
        else ttl
      let pathInRange := if inRange then true else pt.m_pathInRange
      let s2 :=
        if inRange then
          { s1 with anyInRange := true
                    matSegmentation := s1.matSegmentation.set p PixelType.Foreground }
        else s1
      let s3 := pushNeighbour (decide (p.x + 1 < width)) ⟨p.x + 1, p.y⟩ ttl1 pathInRange s2
      let s4 := pushNeighbour (decide (p.x - 1 ≥ 0)) ⟨p.x - 1, p.y⟩ ttl1 pathInRange s3
      let s5 := pushNeighbour (decide (p.y + 1 < height)) ⟨p.x, p.y + 1⟩ ttl1 pathInRange s4
      pushNeighbour (decide (p.y - 1 ≥ 0)) ⟨p.x, p.y - 1⟩ ttl1 pathInRange s5
    else s1
  else s

/-- The `while (!pointQueue.empty())` loop, on fuel. -/
def floodLoop (fsqrt : ℚ → ℚ) (data : TrackingData) : Nat → FillState → FillState
  | 0, s => s
  | fuel + 1, s =>
    match s.pointQueue with
    | [] => s
    | pt :: rest => floodLoop fsqrt data fuel (processEntry fsqrt data pt { s with pointQueue := rest })

/-- The state of `segmentForeground` when its loop is entered. -/
def initFill (data : TrackingData) : FillState :=
  { pointQueue := [⟨data.seedPosition, maxTTL, pointInRange data data.seedPosition⟩]
    matVisited := (Mat.zeros data.matDepth.cols data.matDepth.rows).set data.seedPosition 1
    matForeground := data.matForegroundSearched
    matSegmentation := data.matGlobalSegmentation
    anyInRange := pointInRange data data.seedPosition }

/-- The state of `segmentForeground` when its loop is left. -/
def fillResult (fsqrt : ℚ → ℚ) (data : TrackingData) : FillState :=
  floodLoop fsqrt data (data.matDepth.cols * data.matDepth.rows) (initFill data)

/-- The function `SegmentationUtility::segmentForeground`. The matrices are shared with the
caller, so the result is the context with the pixel-state buffer and the global mask as the
loop left them. A seed outside the depth buffer gives `none`. -/
def segmentForeground (fsqrt : ℚ → ℚ) (data : TrackingData) : Option TrackingData :=
  if inBounds data.matDepth.cols data.matDepth.rows data.seedPosition then
    some { data with
      matForegroundSearched := (fillResult fsqrt data).matForeground
      matGlobalSegmentation := (fillResult fsqrt data).matSegmentation }
  else none

/-- A context on a `w` by `h` frame with the given depth function, seed and tag; reference
depth 400, bandwidth 200, zero area and score, empty pixel-state buffer and masks. -/
def sampleData (w h : Nat) (depth : Point → ℚ) (seed : Point) (ty : TrackedPointType) :
    TrackingData :=
  { matDepth := ⟨w, h, depth⟩
    matArea := Mat.zeros w h
    matGlobalSegmentation := Mat.zeros w h
    matScore := Mat.zeros w h
    matForegroundSearched := Mat.zeros w h
    matLayerSegmentation := Mat.zeros w h
    seedPosition := seed
    referenceDepth := 400
    bandwidthDepth := 200
    pointType := ty
    iterationMax := 5 }

/-! ## Row-major pixel lists -/

/-- The pixels `(x, y), (x + 1, y), ...`, `n` of them: the order of a walk along row `y`. -/
def rowPixels (y : Nat) : Nat → Nat → List Point
  | 0, _ => []
  | n + 1, x => ⟨(x : Int), (y : Int)⟩ :: rowPixels y n (x + 1)

/-- The pixels of `n` rows of width `cols` from row `y` on, row after row. -/
def gridPixels (cols : Nat) : Nat → Nat → List Point
  | 0, _ => []
  | n + 1, y => rowPixels y cols 0 ++ gridPixels cols n (y + 1)

/-- All pixels of a `cols` by `rows` buffer in row-major order. -/
def allPixels (cols rows : Nat) : List Point := gridPixels cols rows 0

/-- The row-major order on pixels: smaller `y` first, then smaller `x`. -/
def rowMajorLt (p q : Point) : Prop := p.y < q.y ∨ (p.y = q.y ∧ p.x < q.x)

/-- The number of pixels of the frame that the visited buffer does not mark yet. -/
def unvisitedCount (data : TrackingData) (v : Mat Nat) : Nat :=
  (allPixels data.matDepth.cols data.matDepth.rows).countP (fun p => decide (v.cell p = 0))

/-- The depth function of a frame whose only reading is 500 at pixel `(0, 0)`. -/
def cornerDepth : Point → ℚ := fun p => if p = ⟨0, 0⟩ then 500 else 0

/-- The four axis-aligned neighbours of a pixel: right, left, down, up. -/
def neighbours (p : Point) : List Point :=
  [⟨p.x + 1, p.y⟩, ⟨p.x - 1, p.y⟩, ⟨p.x, p.y + 1⟩, ⟨p.x, p.y - 1⟩]

/-- The 4-connected component of in-range pixels of the frame that contains the seed: the
seed when it is an in-range pixel of the frame, and every in-range pixel of the frame next to
a pixel of the component. -/
inductive Connected (data : TrackingData) : Point → Prop
  | seed : inBounds data.matDepth.cols data.matDepth.rows data.seedPosition = true →
      pointInRange data data.seedPosition = true → Connected data data.seedPosition
  | step (p q : Point) : Connected data p → q ∈ neighbours p →
      inBounds data.matDepth.cols data.matDepth.rows q = true →
      pointInRange data q = true → Connected data q

/-- The loop invariant of the flood fill when the budget never decays and the seed is in
range: queued entries carry the full budget and a set flag; visited in-range pixels belong to
the component of the seed; a visited in-range pixel that has left the queue is marked and has
all its neighbours in the frame visited; marked pixels are visited in-range pixels. -/
structure FillInv (data : TrackingData) (s : FillState) : Prop where
  queue : ∀ e ∈ s.pointQueue, e.m_ttl = maxTTL ∧ e.m_pathInRange = true ∧
    s.matVisited.cell e.m_point ≠ 0
  visited : ∀ p, s.matVisited.cell p ≠ 0 →
    inBounds data.matDepth.cols data.matDepth.rows p = true ∧
      (pointInRange data p = true → Connected data p)
  done : ∀ p, s.matVisited.cell p ≠ 0 → (∀ e ∈ s.pointQueue, e.m_point ≠ p) →
    pointInRange data p = true →
    s.matSegmentation.cell p = PixelType.Foreground ∧
      ∀ q ∈ neighbours p, inBounds data.matDepth.cols data.matDepth.rows q = true →
        s.matVisited.cell q ≠ 0
  marked : ∀ p, inBounds data.matDepth.cols data.matDepth.rows p = true →
    s.matSegmentation.cell p = PixelType.Foreground →
    pointInRange data p = true ∧ s.matVisited.cell p ≠ 0
  seed : s.matVisited.cell data.seedPosition ≠ 0

/-! ## Point tracker and convergence loop -/

/-- The OpenCV call `cv::bitwise_or(src1, src2, dst, mask)`: where the mask is non-zero the
destination cell becomes the bitwise disjunction of the two source cells; elsewhere the
destination keeps its value. -/
def bitwise_or (src1 src2 dst mask : Mat Nat) : Mat Nat :=
  { dst with cell := fun p => if mask.cell p ≠ 0 then src1.cell p ||| src2.cell p else dst.cell p }

/-- The `maxLoc` output of the OpenCV call `cv::minMaxLoc(src, ..., mask)`: the first position
in row-major order, among those where the mask is non-zero, at which `src` is largest; the
position `(-1, -1)` when the mask is zero everywhere. -/
def maxLoc (src : Mat ℚ) (mask : Mat Nat) : Point :=
  match (allPixels src.cols src.rows).filter (fun p => decide (mask.cell p ≠ 0)) with
  | [] => sentinel
  | p :: ps => ps.foldl (fun best q => if src.cell q > src.cell best then q else best) p

/-- The function `SegmentationUtility::trackPointFromSeed`: the returned point, together with
the context as it stands at the `return` (the fresh layer mask included). -/
def trackPointFromSeed (fsqrt : ℚ → ℚ) (data : TrackingData) : Option (Point × TrackingData) :=
  let data1 := { data with
    matLayerSegmentation :=
      Mat.zeros data.matGlobalSegmentation.cols data.matGlobalSegmentation.rows }
  match segmentForeground fsqrt data1 with
  | none => none
  | some data2 =>
    let data3 := { data2 with
      matGlobalSegmentation :=
        bitwise_or data2.matLayerSegmentation data2.matGlobalSegmentation
          data2.matGlobalSegmentation data2.matLayerSegmentation }
    some (maxLoc data3.matScore data3.matLayerSegmentation, data3)

/-- The outcome of `convergeTrackPointFromSeed`: the returned point, the counter `iterations`,
the context with the buffers as the calls left them, and a record of the tracker invocations
in order, each with the seed it was given and the point it returned. -/
structure ConvergeRun where
  point : Point
  iterations : Int
  data : TrackingData
  calls : List (Point × Point)

/-- The `do ... while` loop of `convergeTrackPointFromSeed`, on fuel. The arguments after the
fuel are the variables `point`, `iterations`, the record of invocations so far, and `data`. -/
def convergeLoop (fsqrt : ℚ → ℚ) :
    Nat → Point → Int → List (Point × Point) → TrackingData → Option ConvergeRun
  | 0, _, _, _, _ => none
  | fuel + 1, point, iterations, calls, data =>
    let lastPoint := point
    match trackPointFromSeed fsqrt data with
    | none => none
    | some (point1, data1) =>
      let iterations1 := iterations + 1
      let calls1 := calls ++ [(data.seedPosition, point1)]
      if point1 ≠ lastPoint ∧ iterations1 < data1.iterationMax ∧ point1.x ≠ -1 ∧
          point1.y ≠ -1 then
        convergeLoop fsqrt fuel point1 iterations1 calls1 data1
      else some ⟨point1, iterations1, data1, calls1⟩

/-- The function `SegmentationUtility::convergeTrackPointFromSeed`. The loop body runs at most
`max 1 iterationMax` times, which is the fuel. -/
def convergeTrackPointFromSeed (fsqrt : ℚ → ℚ) (data : TrackingData) : Option ConvergeRun :=
  convergeLoop fsqrt (max 1 data.iterationMax).toNat data.seedPosition 0 [] data

/-- The context that one tracker pass leaves behind. -/
def trackContext (fsqrt : ℚ → ℚ) (data : TrackingData) : TrackingData :=
  { data with
    matLayerSegmentation :=
      Mat.zeros data.matGlobalSegmentation.cols data.matGlobalSegmentation.rows
    matForegroundSearched := (fillResult fsqrt data).matForeground
    matGlobalSegmentation := (fillResult fsqrt data).matSegmentation }

/-- The context of the all-500 example: a 5 by 5 frame, seed `(2, 2)`, reference 400,
bandwidth 200. -/
def flatData : TrackingData := sampleData 5 5 (fun _ => 500) ⟨2, 2⟩ .CandidatePoint

/-- The value of `lastPoint` during invocation number `k` (from 0) of a run with the given
record of invocations: the context's seed at first, later the point returned by the
invocation before. -/
def lastPointAt (seed : Point) (calls : List (Point × Point)) : Nat → Point
  | 0 => seed
  | k + 1 => ((calls[k]?).map Prod.snd).getD seed

/-! ## Foreground scanner -/

/-- The inner `for` loop of `findForegroundPixel` on row `y`: `n` cells remain, the walk is at
column `x`. The result is the position at which the loop returns, if it does. -/
def findInRow (m : Mat Nat) (y : Nat) : Nat → Nat → Option Point
  | 0, _ => none
  | n + 1, x =>
    if m.cell ⟨(x : Int), (y : Int)⟩ = PixelType.Foreground then some ⟨(x : Int), (y : Int)⟩
    else findInRow m y n (x + 1)

/-- The outer `for` loop of `findForegroundPixel`: `n` rows remain, the scan is at row `y`. -/
def findInRows (m : Mat Nat) : Nat → Nat → Option Point
  | 0, _ => none
  | n + 1, y =>
    match findInRow m y m.cols 0 with
    | some p => some p
    | none => findInRows m n (y + 1)

/-- What `findForegroundPixel` hands back: the returned flag, the position written through
the reference parameter, and the pixel-state buffer. -/
structure ScanResult where
  found : Bool
  foregroundPosition : Point
  matForeground : Mat Nat

/-- The function `SegmentationUtility::findForegroundPixel`. -/
def findForegroundPixel (matForeground : Mat Nat) : ScanResult :=
  match findInRows matForeground matForeground.rows 0 with
  | some p => ⟨true, p, matForeground.set p PixelType.Searched⟩
  | none => ⟨false, sentinel, matForeground⟩

/-- The flags and positions returned by `n` successive calls of `findForegroundPixel` on one
buffer. -/
def repeatScan : Nat → Mat Nat → List (Bool × Point)
  | 0, _ => []
  | n + 1, m =>
    ((findForegroundPixel m).found, (findForegroundPixel m).foregroundPosition) ::
      repeatScan n (findForegroundPixel m).matForeground

/-- The Foreground pixels of a pixel-state buffer in row-major order. -/
def foregroundPixels (m : Mat Nat) : List Point :=
  (allPixels m.cols m.rows).filter (fun p => decide (m.cell p = PixelType.Foreground))

/-- A 3 by 2 pixel-state buffer that is Foreground at `(2, 0)`, `(0, 1)` and `(1, 1)`. -/
def sampleStates : Mat Nat :=
  ⟨3, 2, fun p => if p = ⟨2, 0⟩ ∨ p = ⟨0, 1⟩ ∨ p = ⟨1, 1⟩ then PixelType.Foreground
    else PixelType.Unvisited⟩

/-! ## Names for the parts of the loop body -/

/-- The four neighbour tests of the loop body, in source order: right, left, down, up. -/
def neighbourTests (data : TrackingData) (p : Point) : List (Bool × Point) :=
  [(decide (p.x + 1 < (data.matDepth.cols : Int)), ⟨p.x + 1, p.y⟩),
   (decide (p.x - 1 ≥ 0), ⟨p.x - 1, p.y⟩),
   (decide (p.y + 1 < (data.matDepth.rows : Int)), ⟨p.x, p.y + 1⟩),
   (decide (p.y - 1 ≥ 0), ⟨p.x, p.y - 1⟩)]

/-- A run of neighbour blocks. -/
def pushAll (cands : List (Bool × Point)) (ttl : ℚ) (pathInRange : Bool) (s : FillState) :
    FillState :=
  cands.foldl (fun st c => pushNeighbour c.1 c.2 ttl pathInRange st) s

/-- The budget an entry is processed with, after the reset for a Foreground pixel state. -/
def entryTtl (pt : PointTTL) (s : FillState) : ℚ :=
  if s.matForeground.cell pt.m_point = PixelType.Foreground then maxTTL else pt.m_ttl

/-- The budget handed to the neighbours of a processed entry. -/
def childTtl (fsqrt : ℚ → ℚ) (data : TrackingData) (pt : PointTTL) (s : FillState) : ℚ :=
  if data.pointType ≠ TrackedPointType.ActivePoint ∨ s.anyInRange = true then
    entryTtl pt s - fsqrt (data.matArea.cell pt.m_point)
  else entryTtl pt s

/-- The state after the pixel-state write of the loop body. -/
def markSearched (pt : PointTTL) (s : FillState) : FillState :=
  { s with matForeground := s.matForeground.set pt.m_point PixelType.Searched }

/-- The state after the in-range block of the loop body. -/
def markInRange (data : TrackingData) (pt : PointTTL) (s : FillState) : FillState :=
  if pointInRange data pt.m_point then
    { s with anyInRange := true
             matSegmentation := s.matSegmentation.set pt.m_point PixelType.Foreground }
  else s

/-! ## Ghost records of a flood-fill run -/

/-- The pixels dequeued by the first `n` iterations of the loop started in state `s`, in
order. -/
def dequeued (fsqrt : ℚ → ℚ) (data : TrackingData) : Nat → FillState → List Point
  | 0, _ => []
  | n + 1, s =>
    match s.pointQueue with
    | [] => []
    | pt :: rest =>
      pt.m_point :: dequeued fsqrt data n (processEntry fsqrt data pt { s with pointQueue := rest })

/-- The entries pushed by the first `n` iterations of the loop started in state `s`, in
order: each iteration appends its pushes behind the entries that were left after `pop`. -/
def enqueued (fsqrt : ℚ → ℚ) (data : TrackingData) : Nat → FillState → List PointTTL
  | 0, _ => []
  | n + 1, s =>
    match s.pointQueue with
    | [] => []
    | pt :: rest =>
      ((processEntry fsqrt data pt { s with pointQueue := rest }).pointQueue.drop rest.length) ++
        enqueued fsqrt data n (processEntry fsqrt data pt { s with pointQueue := rest })

/-- The pixels at which one loop iteration for the dequeued pixel indexes the buffers: the
pixel itself (pixel-state, depth, area and global-mask accesses) and each neighbour whose
bound test passes (visited-buffer accesses). -/
def accessedPixels (data : TrackingData) (p : Point) : List Point :=
  p :: ((neighbourTests data p).filter (fun c => c.1)).map (fun c => c.2)

/-- The entry `child` is pushed by the loop iteration that processes `parent` in some state. -/
def EnqueuedBy (fsqrt : ℚ → ℚ) (data : TrackingData) (parent child : PointTTL) : Prop :=
  ∃ (s : FillState) (added : List PointTTL),
    (processEntry fsqrt data parent s).pointQueue = s.pointQueue ++ added ∧ child ∈ added

/-! ## Area field, score field -/

/-- A 3D sample, `cv::Point3f`. -/
structure Point3f where
  x : ℚ
  y : ℚ
  z : ℚ

/-- The difference of two 3D points. -/
def Point3f.sub (a b : Point3f) : Point3f := ⟨a.x - b.x, a.y - b.y, a.z - b.z⟩

/-- The cross product `a.cross(b)`. -/
def Point3f.cross (a b : Point3f) : Point3f :=
  ⟨a.y * b.z - a.z * b.y, a.z * b.x - a.x * b.z, a.x * b.y - a.y * b.x⟩

/-- The function `SegmentationUtility::getDepthArea`. The conversion
`CoordinateConversion::convertDepthToRealWorld` (declared in `coordinateconversion.h`, not
among the sources) is the parameter `toWorld`; the OpenCV norm `cv::norm` is the parameter
`fnorm`. -/
def getDepthArea (toWorld : Point3f → ℚ → Point3f) (fnorm : Point3f → ℚ)
    (p1 p2 p3 : Point3f) (resizeFactor : ℚ) : ℚ :=
  let world1 := toWorld p1 resizeFactor
  let world2 := toWorld p2 resizeFactor
  let world3 := toWorld p3 resizeFactor
  let v1 := world2.sub world1
  let v2 := world3.sub world1
  (1 / 2) * fnorm (v1.cross v2)

/-- A row walk `for (x = ...; ...; x++) { *row = f(x, y); ++row; }`: `n` cells remain, the
walk is at column `x`. -/
def writeRow {α : Type} (f : Nat → Nat → α) (y : Nat) : Nat → Nat → Mat α → Mat α
  | 0, _, m => m
  | n + 1, x, m => writeRow f y n (x + 1) (m.set ⟨(x : Int), (y : Int)⟩ (f x y))

/-- The loop over rows around a row walk of `width` cells: `n` rows remain, the loop is at
row `y`. -/
def writeRows {α : Type} (f : Nat → Nat → α) (width : Nat) : Nat → Nat → Mat α → Mat α
  | 0, _, m => m
  | n + 1, y, m => writeRows f width n (y + 1) (writeRow f y width 0 m)

/-- The value that the inner loop body of `calculateSegmentArea` stores for pixel `(x, y)`. -/
def segmentAreaAt (toWorld : Point3f → ℚ → Point3f) (fnorm : Point3f → ℚ) (matDepth : Mat ℚ)
    (resizeFactor : ℚ) (x y : Nat) : ℚ :=
  let depth1 := matDepth.cell ⟨(x : Int), (y : Int)⟩
  if depth1 ≠ 0 then
    let p1 : Point3f := ⟨x, y, depth1⟩
    let p2 : Point3f := ⟨x + 1, y, depth1⟩
    let p3 : Point3f := ⟨x, y + 1, depth1⟩
    let p4 : Point3f := ⟨x + 1, y + 1, depth1⟩
    0 + getDepthArea toWorld fnorm p1 p2 p3 resizeFactor +
      getDepthArea toWorld fnorm p2 p3 p4 resizeFactor
  else 0

/-- The function `SegmentationUtility::calculateSegmentArea`: the area buffer it produces. -/
def calculateSegmentArea (toWorld : Point3f → ℚ → Point3f) (fnorm : Point3f → ℚ)
    (matDepth : Mat ℚ) (resizeFactor : ℚ) : Mat ℚ :=
  writeRows (segmentAreaAt toWorld fnorm matDepth resizeFactor) (matDepth.cols - 1)
    (matDepth.rows - 1) 0 (Mat.zeros matDepth.cols matDepth.rows)

/-- The constant `MAX_DEPTH`. -/
def MAX_DEPTH : ℚ := 10000

/-- The value that the inner loop body of `calculateBasicScore` stores for pixel `(x, y)`. -/
def basicScoreAt (toWorld : Point3f → ℚ → Point3f) (matDepth : Mat ℚ)
    (heightFactor depthFactor resizeFactor : ℚ) (x y : Nat) : ℚ :=
  let depth := matDepth.cell ⟨(x : Int), (y : Int)⟩
  if depth ≠ 0 then
    let worldPosition := toWorld ⟨x, y, depth⟩ resizeFactor
    let score := worldPosition.y * heightFactor
    score + (MAX_DEPTH - worldPosition.z) * depthFactor
  else 0

/-- The function `SegmentationUtility::calculateBasicScore`: the score buffer after the
call. -/
def calculateBasicScore (toWorld : Point3f → ℚ → Point3f) (matDepth : Mat ℚ)
    (matScore : Mat ℚ) (heightFactor depthFactor resizeFactor : ℚ) : Mat ℚ :=
  writeRows (basicScoreAt toWorld matDepth heightFactor depthFactor resizeFactor)
    matDepth.cols matDepth.rows 0 matScore

/-- The loop invariant that ties the flag `anyInRange` of an active point to the run so far:
the flag is set exactly when the seed is in range or an in-range pixel was dequeued (`hist`
lists the dequeued pixels), and while it is not set every queued entry carries the full
budget. -/
def FlagInv (data : TrackingData) (s : FillState) (hist : List Point) : Prop :=
  (s.anyInRange = true ↔
      (pointInRange data data.seedPosition = true ∨ ∃ q ∈ hist, pointInRange data q = true)) ∧
    (s.anyInRange = false → ∀ e ∈ s.pointQueue, e.m_ttl = maxTTL)

/-- The all-500 example for an active point, with area 1 at every pixel. -/
def activeData : TrackingData :=
  { flatData with pointType := TrackedPointType.ActivePoint, matArea := ⟨5, 5, fun _ => 1⟩ }

/-- The Manhattan distance between two pixels. -/
def manhattan (a b : Point) : Nat := (a.x - b.x).natAbs + (a.y - b.y).natAbs

/-! ## The flood fill with a rounded budget subtraction -/

/-- The body of the `while` loop of `segmentForeground` as `processEntry`, with the `float`
subtraction `ttl -= sqrt(...)` of line 74 as the parameter `fsub`: `fsub x s` is the value the
machine stores for `x - s`. -/
def processEntryRounded (fsub : ℚ → ℚ → ℚ) (fsqrt : ℚ → ℚ) (data : TrackingData)
    (pt : PointTTL) (s : FillState) : FillState :=
  let p := pt.m_point
  let width : Int := data.matDepth.cols
  let height : Int := data.matDepth.rows
  let ttl := if s.matForeground.cell p = PixelType.Foreground then maxTTL else pt.m_ttl
  if ttl > 0 then
    let s1 := { s with matForeground := s.matForeground.set p PixelType.Searched }
    let inRange := pointInRange data p
    if decide (ttl > 0) && (!pt.m_pathInRange || inRange) then
      let ttl1 :=
        if data.pointType ≠ TrackedPointType.ActivePoint ∨ s1.anyInRange = true then
          fsub ttl (fsqrt (data.matArea.cell p))
        else ttl
      let pathInRange := if inRange then true else pt.m_pathInRange
      let s2 :=
        if inRange then
          { s1 with anyInRange := true
                    matSegmentation := s1.matSegmentation.set p PixelType.Foreground }
        else s1
      let s3 := pushNeighbour (decide (p.x + 1 < width)) ⟨p.x + 1, p.y⟩ ttl1 pathInRange s2
      let s4 := pushNeighbour (decide (p.x - 1 ≥ 0)) ⟨p.x - 1, p.y⟩ ttl1 pathInRange s3
      let s5 := pushNeighbour (decide (p.y + 1 < height)) ⟨p.x, p.y + 1⟩ ttl1 pathInRange s4
      pushNeighbour (decide (p.y - 1 ≥ 0)) ⟨p.x, p.y - 1⟩ ttl1 pathInRange s5
    else s1
  else s

/-- The `while (!pointQueue.empty())` loop with the rounded subtraction, on fuel. -/
def floodLoopRounded (fsub : ℚ → ℚ → ℚ) (fsqrt : ℚ → ℚ) (data : TrackingData) :
    Nat → FillState → FillState
  | 0, s => s
  | fuel + 1, s =>
    match s.pointQueue with
    | [] => s
    | pt :: rest =>
      floodLoopRounded fsub fsqrt data fuel
        (processEntryRounded fsub fsqrt data pt { s with pointQueue := rest })

/-- The pixels dequeued by the first `n` iterations of the loop with the rounded
subtraction. -/
def dequeuedRounded (fsub : ℚ → ℚ → ℚ) (fsqrt : ℚ → ℚ) (data : TrackingData) :
    Nat → FillState → List Point
  | 0, _ => []
  | n + 1, s =>
    match s.pointQueue with
    | [] => []
    | pt :: rest =>
      pt.m_point :: dequeuedRounded fsub fsqrt data n
        (processEntryRounded fsub fsqrt data pt { s with pointQueue := rest })

/-- The entries pushed by the first `n` iterations of the loop with the rounded
subtraction. -/
def enqueuedRounded (fsub : ℚ → ℚ → ℚ) (fsqrt : ℚ → ℚ) (data : TrackingData) :
    Nat → FillState → List PointTTL
  | 0, _ => []
  | n + 1, s =>
    match s.pointQueue with
    | [] => []
    | pt :: rest =>
      ((processEntryRounded fsub fsqrt data pt { s with pointQueue := rest }).pointQueue.drop
          rest.length) ++
        enqueuedRounded fsub fsqrt data n
          (processEntryRounded fsub fsqrt data pt { s with pointQueue := rest })

/-- The budget handed to the neighbours of a processed entry, with the rounded
subtraction. -/
def childTtlRounded (fsub : ℚ → ℚ → ℚ) (fsqrt : ℚ → ℚ) (data : TrackingData) (pt : PointTTL)
    (s : FillState) : ℚ :=
  if data.pointType ≠ TrackedPointType.ActivePoint ∨ s.anyInRange = true then
    fsub (entryTtl pt s) (fsqrt (data.matArea.cell pt.m_point))
  else entryTtl pt s

/-- The loop invariant of a search whose budget drops by at least `mu` at every pixel and is
never reset: every queued pixel lies in the frame, its budget is not positive or its budget
plus `mu` times its distance from the seed is at most 250, and no pixel state on the frame is
Foreground. -/
def DecayInv (data : TrackingData) (mu : ℚ) (s : FillState) : Prop :=
  (∀ e ∈ s.pointQueue, inBounds data.matDepth.cols data.matDepth.rows e.m_point = true ∧
      (e.m_ttl ≤ 0 ∨ e.m_ttl + mu * (manhattan data.seedPosition e.m_point : ℚ) ≤ maxTTL)) ∧
    (∀ p, inBounds data.matDepth.cols data.matDepth.rows p = true →
      s.matForeground.cell p ≠ PixelType.Foreground)

/-- A passive point on a 5 by 5 frame without depth readings and with area 0 everywhere. -/
def blankData : TrackingData := sampleData 5 5 (fun _ => 0) ⟨2, 2⟩ .CandidatePoint

/-- A passive point on a 5 by 5 frame without depth readings, with area 1 everywhere and the
pixel state Foreground at `(3, 2)`. -/
def resetData : TrackingData :=
  { blankData with
    matArea := ⟨5, 5, fun _ => 1⟩
    matForegroundSearched :=
      ⟨5, 5, fun p => if p = ⟨3, 2⟩ then PixelType.Foreground else PixelType.Unvisited⟩ }

/-- A passive point on a 5 by 5 frame without depth readings, with area 1 everywhere and no
Foreground pixel state. -/
def decayData : TrackingData := { blankData with matArea := ⟨5, 5, fun _ => 1⟩ }

/-! ## Edge-distance field -/

/-- The OpenCV call `cv::countNonZero(m)`. -/
def countNonZero (m : Mat Nat) : Nat :=
  (allPixels m.cols m.rows).countP (fun p => decide (m.cell p ≠ 0))

/-- The OpenCV call `cv::add(src1, src2, dst, mask)`: where the mask is non-zero the
destination cell becomes the sum of the two source cells; elsewhere it keeps its value. -/
def maskedAdd (src1 src2 dst : Mat ℚ) (mask : Mat Nat) : Mat ℚ :=
  { dst with cell := fun p => if mask.cell p ≠ 0 then src1.cell p + src2.cell p else dst.cell p }

/-- The cells of the 3 by 3 cross-shaped structuring element placed at `p`. -/
def crossPixels (p : Point) : List Point :=
  [⟨p.x, p.y - 1⟩, ⟨p.x - 1, p.y⟩, p, ⟨p.x + 1, p.y⟩, ⟨p.x, p.y + 1⟩]

/-- The cells of the cross at `p` that lie in the image. -/
def crossInside (m : Mat Nat) (p : Point) : List Point :=
  (crossPixels p).filter (inBounds m.cols m.rows)

/-- The OpenCV call `cv::erode(m, m, crossElement)` with the default border: the minimum over
the cells of the cross that lie in the image. -/
def crossErode (m : Mat Nat) : Mat Nat :=
  { m with cell := fun p => (crossInside m p).foldl (fun a q => min a (m.cell q)) (m.cell p) }

/-- The OpenCV call `cv::dilate(m, m, crossElement)` with the default border: the maximum
over the cells of the cross that lie in the image. -/
def crossDilate (m : Mat Nat) : Mat Nat :=
  { m with cell := fun p => (crossInside m p).foldl (fun a q => max a (m.cell q)) (m.cell p) }

/-- The outcome of `calculateEdgeDistance`: the buffer `matEdgeDistance`, the counter
`iterations`, and a record of the eroded image after each round of the loop. -/
structure EdgeRun where
  matEdgeDistance : Mat ℚ
  iterations : Int
  rounds : List (Mat Nat)

/-- The `do ... while` loop of `calculateEdgeDistance`, on fuel. The arguments after the fuel
are the variables `eroded`, `matEdgeDistance`, `iterations` and the record of rounds so
far. The increment `++iterations` is evaluated only when the two tests before it hold. -/
def edgeLoop (erode : Mat Nat → Mat Nat) (matArea : Mat ℚ) (imageLength maxIterations : Int) :
    Nat → Mat Nat → Mat ℚ → Int → List (Mat Nat) → Option EdgeRun
  | 0, _, _, _, _ => none
  | fuel + 1, eroded, matEdgeDistance, iterations, rounds =>
    let eroded1 := erode eroded
    let edge1 := maskedAdd matArea matEdgeDistance matEdgeDistance eroded1
    let nonZeroCount : Int := countNonZero eroded1
    let done := decide (nonZeroCount = 0)
    let rounds1 := rounds ++ [eroded1]
    if (!done && decide (nonZeroCount < imageLength)) = true then
      if iterations + 1 < maxIterations then
        edgeLoop erode matArea imageLength maxIterations fuel eroded1 edge1 (iterations + 1)
          rounds1
      else some ⟨edge1, iterations + 1, rounds1⟩
    else some ⟨edge1, iterations, rounds1⟩

/-- The function `SegmentationUtility::calculateEdgeDistance`. The OpenCV morphology calls
`cv::erode` and `cv::dilate` with the cross element are the parameters `erode` and `dilate`.
The loop body runs at most `max 1 maxIterations` times, which is the fuel. -/
def calculateEdgeDistance (erode dilate : Mat Nat → Mat Nat) (matSegmentation : Mat Nat)
    (matArea : Mat ℚ) : Option EdgeRun :=
  let matEdgeDistance : Mat ℚ := Mat.zeros matSegmentation.cols matSegmentation.rows
  let eroded := dilate matSegmentation
  let imageLength : Int := eroded.cols * eroded.rows
  let maxIterations : Int := (matSegmentation.cols : Int) / 2
  edgeLoop erode matArea imageLength maxIterations (max 1 maxIterations).toNat eroded
    matEdgeDistance 0 []

/-- A 6 by 3 mask that is set on the whole frame except at pixel `(0, 0)`. -/
def sampleMask : Mat Nat := ⟨6, 3, fun p => if p = ⟨0, 0⟩ then 0 else 1⟩

/-- A subtraction that rounds every difference upwards by the relative error `2 ^ (-24)` of a
single-precision operation. -/
def sampleSub (x s : ℚ) : ℚ := (x - s) + (x - s) / 16777216

/-- The `do ... while` loop of `convergeTrackPointFromSeed` as `convergeLoop`, with the callee
of line 142 as the parameter `track` in the place of `trackPointFromSeed`. -/
def convergeLoopWith (track : TrackingData → Option (Point × TrackingData)) :
    Nat → Point → Int → List (Point × Point) → TrackingData → Option ConvergeRun
  | 0, _, _, _, _ => none
  | fuel + 1, point, iterations, calls, data =>
    let lastPoint := point
    match track data with
    | none => none
    | some (point1, data1) =>
      let iterations1 := iterations + 1
      let calls1 := calls ++ [(data.seedPosition, point1)]
      if point1 ≠ lastPoint ∧ iterations1 < data1.iterationMax ∧ point1.x ≠ -1 ∧
          point1.y ≠ -1 then
        convergeLoopWith track fuel point1 iterations1 calls1 data1
      else some ⟨point1, iterations1, data1, calls1⟩

/-- The function `convergeTrackPointFromSeed` with the callee `track` in the place of
`trackPointFromSeed`. -/
def convergeTrackPointFromSeedWith (track : TrackingData → Option (Point × TrackingData))
    (data : TrackingData) : Option ConvergeRun :=
  convergeLoopWith track (max 1 data.iterationMax).toNat data.seedPosition 0 [] data

/-- A tracker that returns the left neighbour of the seed of its context and leaves the
context as it is. -/
def stepTrack (data : TrackingData) : Option (Point × TrackingData) :=
  some (⟨data.seedPosition.x - 1, data.seedPosition.y⟩, data)

/-! ## Theorems: basic facts about the flood fill -/

theorem processEntry_eq (fsqrt : ℚ → ℚ) (data : TrackingData) (pt : PointTTL) (s : FillState) :
    processEntry fsqrt data pt s =
      if entryTtl pt s > 0 then
        if (!pt.m_pathInRange || pointInRange data pt.m_point) = true then
          pushAll (neighbourTests data pt.m_point) (childTtl fsqrt data pt s)
            (if pointInRange data pt.m_point then true else pt.m_pathInRange)
            (markInRange data pt (markSearched pt s))
        else markSearched pt s
      else s := by
  unfold processEntry entryTtl
  by_cases h : (if s.matForeground.cell pt.m_point = PixelType.Foreground then maxTTL
      else pt.m_ttl) > 0
  · simp only [h, if_true, decide_True, Bool.true_and]
    by_cases h2 : (!pt.m_pathInRange || pointInRange data pt.m_point) = true
    · simp only [h2, if_true]
      by_cases h3 : pointInRange data pt.m_point = true <;>
        simp [h3, pushAll, neighbourTests, childTtl, entryTtl, markInRange, markSearched]
    · simp only [h2, markSearched]
      simp
  · simp only [h, if_false]

@[simp] theorem pushNeighbour_matForeground (b : Bool) (q : Point) (t : ℚ) (r : Bool)
    (s : FillState) : (pushNeighbour b q t r s).matForeground = s.matForeground := by
  unfold pushNeighbour; split <;> rfl

@[simp] theorem pushNeighbour_matSegmentation (b : Bool) (q : Point) (t : ℚ) (r : Bool)
    (s : FillState) : (pushNeighbour b q t r s).matSegmentation = s.matSegmentation := by
  unfold pushNeighbour; split <;> rfl

@[simp] theorem pushNeighbour_anyInRange (b : Bool) (q : Point) (t : ℚ) (r : Bool)
    (s : FillState) : (pushNeighbour b q t r s).anyInRange = s.anyInRange := by
  unfold pushNeighbour; split <;> rfl

@[simp] theorem pushAll_matSegmentation (cands : List (Bool × Point)) (t : ℚ) (r : Bool)
    (s : FillState) : (pushAll cands t r s).matSegmentation = s.matSegmentation := by
  induction cands generalizing s with
  | nil => rfl
  | cons c cs ih => simp [pushAll, List.foldl_cons] at ih ⊢; rw [ih]; simp

@[simp] theorem pushAll_matForeground (cands : List (Bool × Point)) (t : ℚ) (r : Bool)
    (s : FillState) : (pushAll cands t r s).matForeground = s.matForeground := by
  induction cands generalizing s with
  | nil => rfl
  | cons c cs ih => simp [pushAll, List.foldl_cons] at ih ⊢; rw [ih]; simp

@[simp] theorem pushAll_anyInRange (cands : List (Bool × Point)) (t : ℚ) (r : Bool)
    (s : FillState) : (pushAll cands t r s).anyInRange = s.anyInRange := by
  induction cands generalizing s with
  | nil => rfl
  | cons c cs ih => simp [pushAll, List.foldl_cons] at ih ⊢; rw [ih]; simp

theorem pushAll_cons (c : Bool × Point) (cs : List (Bool × Point)) (t : ℚ) (r : Bool)
    (s : FillState) :
    pushAll (c :: cs) t r s = pushAll cs t r (pushNeighbour c.1 c.2 t r s) := rfl

/-- A loop-invariant principle: a property kept by every loop iteration holds when the loop
is left. -/
theorem floodLoop_induct (fsqrt : ℚ → ℚ) (data : TrackingData) (P : FillState → Prop)
    (hstep : ∀ (s : FillState) (pt : PointTTL) (rest : List PointTTL), P s →
      s.pointQueue = pt :: rest → P (processEntry fsqrt data pt { s with pointQueue := rest }))
    (fuel : Nat) (s : FillState) (h : P s) : P (floodLoop fsqrt data fuel s) := by
  induction fuel generalizing s with
  | zero => exact h
  | succ n ih =>
    unfold floodLoop
    split
    · exact h
    · rename_i pt rest hq
      exact ih _ (hstep s pt rest h hq)

/-- One loop iteration changes the global mask at most at the processed pixel, and only
when that pixel is in range, to Foreground. -/
theorem processEntry_segmentation (fsqrt : ℚ → ℚ) (data : TrackingData) (pt : PointTTL)
    (s : FillState) (q : Point) :
    (processEntry fsqrt data pt s).matSegmentation.cell q = s.matSegmentation.cell q ∨
      (q = pt.m_point ∧ pointInRange data q = true ∧
        (processEntry fsqrt data pt s).matSegmentation.cell q = PixelType.Foreground) := by
  rw [processEntry_eq]
  split
  · split
    · rw [pushAll_matSegmentation]
      unfold markInRange
      split
      · rename_i hr
        by_cases hq : q = pt.m_point
        · right; subst hq; simp [Mat.set, hr]
        · left; simp [Mat.set, hq, markSearched]
      · left; rfl
    · left; rfl
  · left; rfl

/-! ## Pixel lists -/

theorem mem_rowPixels (y : Nat) (n x : Nat) (p : Point) :
    p ∈ rowPixels y n x ↔ p.y = (y : Int) ∧ (x : Int) ≤ p.x ∧ p.x < (x : Int) + n := by
  induction n generalizing x with
  | zero => simp [rowPixels]
  | succ n ih =>
    simp only [rowPixels, List.mem_cons, ih]
    constructor
    · rintro (h | ⟨h1, h2, h3⟩)
      · subst h; simp
      · refine ⟨h1, by push_cast at h2 ⊢; omega, by push_cast at h3 ⊢; omega⟩
    · rintro ⟨h1, h2, h3⟩
      by_cases hx : p.x = x
      · left; cases p; simp_all
      · right; refine ⟨h1, by push_cast at h3 ⊢; omega, by push_cast at h3 ⊢; omega⟩

theorem mem_gridPixels (cols n y : Nat) (p : Point) :
    p ∈ gridPixels cols n y ↔
      (0 ≤ p.x ∧ p.x < (cols : Int)) ∧ (y : Int) ≤ p.y ∧ p.y < (y : Int) + n := by
  induction n generalizing y with
  | zero => simp [gridPixels]
  | succ n ih =>
    simp only [gridPixels, List.mem_append, mem_rowPixels, ih]
    push_cast
    constructor
    · rintro (⟨h1, h2, h3⟩ | ⟨h1, h2, h3⟩)
      · exact ⟨⟨by simpa using h2, by simpa using h3⟩, by omega, by omega⟩
      · exact ⟨h1, by omega, by omega⟩
    · rintro ⟨⟨h1, h2⟩, h3, h4⟩
      by_cases hy : p.y = y
      · left; exact ⟨hy, by simpa using h1, by simpa using h2⟩
      · right; exact ⟨⟨h1, h2⟩, by omega, by omega⟩

theorem mem_allPixels (cols rows : Nat) (p : Point) :
    p ∈ allPixels cols rows ↔ inBounds cols rows p = true := by
  unfold allPixels inBounds
  rw [mem_gridPixels]
  simp only [Bool.and_eq_true, decide_eq_true_eq]
  push_cast
  constructor
  · rintro ⟨⟨h1, h2⟩, h3, h4⟩; exact ⟨⟨⟨h1, h2⟩, h3⟩, by omega⟩
  · rintro ⟨⟨⟨h1, h2⟩, h3⟩, h4⟩; exact ⟨⟨h1, h2⟩, h3, by omega⟩

theorem length_rowPixels (y n x : Nat) : (rowPixels y n x).length = n := by
  induction n generalizing x with
  | zero => rfl
  | succ n ih => simp [rowPixels, ih]

theorem length_gridPixels (cols n y : Nat) : (gridPixels cols n y).length = cols * n := by
  induction n generalizing y with
  | zero => rfl
  | succ n ih => simp [gridPixels, ih, length_rowPixels]; ring

theorem length_allPixels (cols rows : Nat) : (allPixels cols rows).length = cols * rows :=
  length_gridPixels cols rows 0

theorem pairwise_rowPixels (y n x : Nat) : (rowPixels y n x).Pairwise rowMajorLt := by
  induction n generalizing x with
  | zero => simp [rowPixels]
  | succ n ih =>
    simp only [rowPixels, List.pairwise_cons]
    refine ⟨?_, ih _⟩
    intro q hq
    rw [mem_rowPixels] at hq
    right
    refine ⟨hq.1.symm, ?_⟩
    have := hq.2.1
    push_cast at this
    show (x : Int) < q.x
    omega

theorem pairwise_gridPixels (cols n y : Nat) : (gridPixels cols n y).Pairwise rowMajorLt := by
  induction n generalizing y with
  | zero => simp [gridPixels]
  | succ n ih =>
    simp only [gridPixels, List.pairwise_append]
    refine ⟨pairwise_rowPixels _ _ _, ih _, ?_⟩
    intro a ha b hb
    rw [mem_rowPixels] at ha
    rw [mem_gridPixels] at hb
    left
    have := hb.2.1
    push_cast at this
    omega

theorem pairwise_allPixels (cols rows : Nat) : (allPixels cols rows).Pairwise rowMajorLt :=
  pairwise_gridPixels cols rows 0

theorem rowMajorLt_irrefl (p : Point) : ¬ rowMajorLt p p := by
  unfold rowMajorLt; omega

theorem nodup_allPixels (cols rows : Nat) : (allPixels cols rows).Nodup := by
  have h := pairwise_allPixels cols rows
  unfold List.Nodup
  refine h.imp ?_
  intro a b hab heq
  subst heq
  exact rowMajorLt_irrefl a hab

/-! ## Termination of the flood fill -/

theorem pushNeighbour_visited_cell (b : Bool) (q : Point) (t : ℚ) (r : Bool) (s : FillState)
    (x : Point) :
    (pushNeighbour b q t r s).matVisited.cell x =
      if b = true ∧ s.matVisited.cell q = 0 ∧ x = q then 1 else s.matVisited.cell x := by
  unfold pushNeighbour
  by_cases hb : b = true <;> by_cases hv : s.matVisited.cell q = 0 <;>
    by_cases hx : x = q <;> simp [hb, hv, hx, Mat.set]

theorem pushNeighbour_queue (b : Bool) (q : Point) (t : ℚ) (r : Bool) (s : FillState) :
    (pushNeighbour b q t r s).pointQueue =
      s.pointQueue ++ (if b = true ∧ s.matVisited.cell q = 0 then [⟨q, t, r⟩] else []) := by
  unfold pushNeighbour
  by_cases hb : b = true <;> by_cases hv : s.matVisited.cell q = 0 <;> simp [hb, hv]

theorem countP_set_lt (L : List Point) (v : Mat Nat) (q : Point) (hq : q ∈ L)
    (hv : v.cell q = 0) :
    L.countP (fun p => decide ((v.set q 1).cell p = 0)) + 1 ≤
      L.countP (fun p => decide (v.cell p = 0)) := by
  have hmono : ∀ M : List Point, M.countP (fun p => decide ((v.set q 1).cell p = 0)) ≤
      M.countP (fun p => decide (v.cell p = 0)) := by
    intro M
    apply List.countP_mono_left
    intro p _ hp
    by_cases hpq : p = q
    · subst hpq; simpa using hv
    · simpa [Mat.set, hpq] using hp
  induction L with
  | nil => simp at hq
  | cons a L ih =>
    by_cases haq : a = q
    · subst haq
      have h1 : decide ((v.set a 1).cell a = 0) = false := by simp [Mat.set]
      have h2 : decide (v.cell a = 0) = true := by simp [hv]
      have := hmono L
      simp only [List.countP_cons, h1, h2]
      simp only [if_true, Bool.false_eq_true, if_false]
      omega
    · have hq2 : q ∈ L := by
        rcases List.mem_cons.mp hq with h | h
        · exact absurd h.symm haq
        · exact h
      have := ih hq2
      have hc : decide ((v.set q 1).cell a = 0) = decide (v.cell a = 0) := by
        simp [Mat.set, haq]
      simp only [List.countP_cons, hc]
      omega

theorem pushNeighbour_measure (data : TrackingData) (b : Bool) (q : Point) (t : ℚ) (r : Bool)
    (s : FillState)
    (hb : b = true → inBounds data.matDepth.cols data.matDepth.rows q = true) :
    (pushNeighbour b q t r s).pointQueue.length +
        unvisitedCount data (pushNeighbour b q t r s).matVisited ≤
      s.pointQueue.length + unvisitedCount data s.matVisited := by
  unfold pushNeighbour
  by_cases h : (b && decide (s.matVisited.cell q = 0)) = true
  · simp only [h, if_true]
    simp only [Bool.and_eq_true, decide_eq_true_eq] at h
    have hq := (mem_allPixels _ _ _).mpr (hb h.1)
    have := countP_set_lt _ s.matVisited q hq h.2
    simp only [unvisitedCount, List.length_append, List.length_singleton]
    omega
  · simp [h]

theorem pushAll_measure (data : TrackingData) (cands : List (Bool × Point)) (t : ℚ) (r : Bool)
    (s : FillState)
    (hc : ∀ c ∈ cands, c.1 = true → inBounds data.matDepth.cols data.matDepth.rows c.2 = true) :
    (pushAll cands t r s).pointQueue.length +
        unvisitedCount data (pushAll cands t r s).matVisited ≤
      s.pointQueue.length + unvisitedCount data s.matVisited := by
  induction cands generalizing s with
  | nil => exact le_refl _
  | cons c cs ih =>
    rw [pushAll_cons]
    have h1 := ih (pushNeighbour c.1 c.2 t r s) (fun c' hc' => hc c' (List.mem_cons_of_mem _ hc'))
    have h2 := pushNeighbour_measure data c.1 c.2 t r s (hc c (List.mem_cons_self _ _))
    omega

/-- Every entry of the queue after a run of neighbour blocks was there before or is one of
the tested neighbours, pushed with the given budget and flag while unvisited. -/
theorem pushAll_queue_mem (cands : List (Bool × Point)) (t : ℚ) (r : Bool) (s : FillState)
    (e : PointTTL) (he : e ∈ (pushAll cands t r s).pointQueue) :
    e ∈ s.pointQueue ∨
      ((true, e.m_point) ∈ cands ∧ e.m_ttl = t ∧ e.m_pathInRange = r ∧
        s.matVisited.cell e.m_point = 0) := by
  induction cands generalizing s with
  | nil => left; exact he
  | cons c cs ih =>
    rw [pushAll_cons] at he
    rcases ih _ he with h | ⟨h1, h2, h3, h4⟩
    · rw [pushNeighbour_queue] at h
      rcases List.mem_append.mp h with h | h
      · left; exact h
      · right
        by_cases hcond : c.1 = true ∧ s.matVisited.cell c.2 = 0
        · simp only [hcond, and_self, if_true, List.mem_singleton] at h
          subst h
          refine ⟨?_, rfl, rfl, hcond.2⟩
          simp [← hcond.1]
        · simp [hcond] at h
    · right
      refine ⟨List.mem_cons_of_mem _ h1, h2, h3, ?_⟩
      rw [pushNeighbour_visited_cell] at h4
      by_cases hcond : c.1 = true ∧ s.matVisited.cell c.2 = 0 ∧ e.m_point = c.2
      · simp [hcond] at h4
      · simpa [hcond] using h4

theorem pushAll_queue_sub (cands : List (Bool × Point)) (t : ℚ) (r : Bool) (s : FillState)
    (e : PointTTL) (he : e ∈ s.pointQueue) : e ∈ (pushAll cands t r s).pointQueue := by
  induction cands generalizing s with
  | nil => exact he
  | cons c cs ih =>
    rw [pushAll_cons]
    apply ih
    rw [pushNeighbour_queue]
    exact List.mem_append_left _ he

/-- A neighbour whose bound test passes is a pixel of the frame, when the processed pixel
is one. -/
theorem neighbourTests_inBounds (data : TrackingData) (p : Point)
    (hp : inBounds data.matDepth.cols data.matDepth.rows p = true) :
    ∀ c ∈ neighbourTests data p, c.1 = true →
      inBounds data.matDepth.cols data.matDepth.rows c.2 = true := by
  intro c hc hb
  simp only [inBounds, Bool.and_eq_true, decide_eq_true_eq] at hp ⊢
  simp only [neighbourTests, List.mem_cons, List.mem_singleton, List.not_mem_nil, or_false] at hc
  rcases hc with h | h | h | h <;> subst h <;> simp only [decide_eq_true_eq] at hb <;>
    simp only <;> omega

@[simp] theorem markSearched_pointQueue (pt : PointTTL) (s : FillState) :
    (markSearched pt s).pointQueue = s.pointQueue := rfl

@[simp] theorem markSearched_matVisited (pt : PointTTL) (s : FillState) :
    (markSearched pt s).matVisited = s.matVisited := rfl

@[simp] theorem markSearched_matSegmentation (pt : PointTTL) (s : FillState) :
    (markSearched pt s).matSegmentation = s.matSegmentation := rfl

@[simp] theorem markSearched_anyInRange (pt : PointTTL) (s : FillState) :
    (markSearched pt s).anyInRange = s.anyInRange := rfl

@[simp] theorem markInRange_pointQueue (data : TrackingData) (pt : PointTTL) (s : FillState) :
    (markInRange data pt s).pointQueue = s.pointQueue := by
  unfold markInRange; split <;> rfl

@[simp] theorem markInRange_matVisited (data : TrackingData) (pt : PointTTL) (s : FillState) :
    (markInRange data pt s).matVisited = s.matVisited := by
  unfold markInRange; split <;> rfl

@[simp] theorem markInRange_matForeground (data : TrackingData) (pt : PointTTL)
    (s : FillState) : (markInRange data pt s).matForeground = s.matForeground := by
  unfold markInRange; split <;> rfl

theorem processEntry_measure (fsqrt : ℚ → ℚ) (data : TrackingData) (pt : PointTTL)
    (s : FillState) (hp : inBounds data.matDepth.cols data.matDepth.rows pt.m_point = true) :
    (processEntry fsqrt data pt s).pointQueue.length +
        unvisitedCount data (processEntry fsqrt data pt s).matVisited ≤
      s.pointQueue.length + unvisitedCount data s.matVisited := by
  rw [processEntry_eq]
  split
  · split
    · have := pushAll_measure data (neighbourTests data pt.m_point) (childTtl fsqrt data pt s)
        (if pointInRange data pt.m_point then true else pt.m_pathInRange)
        (markInRange data pt (markSearched pt s)) (neighbourTests_inBounds data pt.m_point hp)
      simpa using this
    · simp
  · exact le_refl _

theorem processEntry_queue_inBounds (fsqrt : ℚ → ℚ) (data : TrackingData) (pt : PointTTL)
    (s : FillState) (hp : inBounds data.matDepth.cols data.matDepth.rows pt.m_point = true)
    (hq : ∀ e ∈ s.pointQueue, inBounds data.matDepth.cols data.matDepth.rows e.m_point = true) :
    ∀ e ∈ (processEntry fsqrt data pt s).pointQueue,
      inBounds data.matDepth.cols data.matDepth.rows e.m_point = true := by
  rw [processEntry_eq]
  split
  · split
    · intro e he
      rcases pushAll_queue_mem _ _ _ _ e he with h | ⟨h, -⟩
      · exact hq e (by simpa using h)
      · exact neighbourTests_inBounds data pt.m_point hp _ h rfl
    · simpa using hq
  · exact hq

/-- The loop empties the queue within its fuel: when every queued pixel lies in the frame
and the queue length plus the number of unvisited pixels is at most the fuel. -/
theorem floodLoop_queue_empty (fsqrt : ℚ → ℚ) (data : TrackingData) (fuel : Nat)
    (s : FillState)
    (hq : ∀ e ∈ s.pointQueue, inBounds data.matDepth.cols data.matDepth.rows e.m_point = true)
    (hm : s.pointQueue.length + unvisitedCount data s.matVisited ≤ fuel) :
    (floodLoop fsqrt data fuel s).pointQueue = [] := by
  induction fuel generalizing s with
  | zero =>
    unfold floodLoop
    exact List.eq_nil_of_length_eq_zero (by omega)
  | succ n ih =>
    unfold floodLoop
    split
    · assumption
    · rename_i pt rest hs
      have hpt : inBounds data.matDepth.cols data.matDepth.rows pt.m_point = true :=
        hq pt (by rw [hs]; exact List.mem_cons_self _ _)
      have hrest : ∀ e ∈ rest,
          inBounds data.matDepth.cols data.matDepth.rows e.m_point = true :=
        fun e he => hq e (by rw [hs]; exact List.mem_cons_of_mem _ he)
      apply ih
      · exact processEntry_queue_inBounds fsqrt data pt _ hpt hrest
      · have := processEntry_measure fsqrt data pt { s with pointQueue := rest } hpt
        rw [hs] at hm
        simp only [List.length_cons] at hm this ⊢
        omega

theorem initFill_measure (data : TrackingData)
    (hseed : inBounds data.matDepth.cols data.matDepth.rows data.seedPosition = true) :
    (initFill data).pointQueue.length + unvisitedCount data (initFill data).matVisited ≤
      data.matDepth.cols * data.matDepth.rows := by
  have h1 := countP_set_lt (allPixels data.matDepth.cols data.matDepth.rows)
    (Mat.zeros data.matDepth.cols data.matDepth.rows) data.seedPosition
    ((mem_allPixels _ _ _).mpr hseed) rfl
  have h2 := List.countP_le_length (fun p : Point =>
    decide ((Mat.zeros data.matDepth.cols data.matDepth.rows : Mat Nat).cell p = 0))
    (l := allPixels data.matDepth.cols data.matDepth.rows)
  rw [length_allPixels] at h2
  simp only [initFill, unvisitedCount, List.length_singleton]
  omega

/-- With the seed inside the frame, the flood-fill loop ends with an empty queue. -/
theorem fillResult_queue_empty (fsqrt : ℚ → ℚ) (data : TrackingData)
    (hseed : inBounds data.matDepth.cols data.matDepth.rows data.seedPosition = true) :
    (fillResult fsqrt data).pointQueue = [] := by
  unfold fillResult
  apply floodLoop_queue_empty
  · intro e he
    simp only [initFill, List.mem_singleton] at he
    subst he
    exact hseed
  · exact initFill_measure data hseed

/-! ## The global mask after the flood fill -/

/-- The loop changes a cell of the global mask only when the pixel is in range, and then
to Foreground. -/
theorem floodLoop_segmentation (fsqrt : ℚ → ℚ) (data : TrackingData) (fuel : Nat)
    (s : FillState) (q : Point) :
    (floodLoop fsqrt data fuel s).matSegmentation.cell q = s.matSegmentation.cell q ∨
      (pointInRange data q = true ∧
        (floodLoop fsqrt data fuel s).matSegmentation.cell q = PixelType.Foreground) := by
  apply floodLoop_induct fsqrt data
    (fun s' => s'.matSegmentation.cell q = s.matSegmentation.cell q ∨
      (pointInRange data q = true ∧ s'.matSegmentation.cell q = PixelType.Foreground))
  · intro s' pt rest h _
    rcases processEntry_segmentation fsqrt data pt { s' with pointQueue := rest } q with
      h1 | ⟨_, h2, h3⟩
    · rcases h with h | ⟨h4, h5⟩
      · left; rw [h1]; exact h
      · right; exact ⟨h4, by rw [h1]; exact h5⟩
    · right; exact ⟨h2, h3⟩
  · left; rfl

/-- An entry processed with a positive budget at an in-range pixel marks that pixel. -/
theorem processEntry_marks (fsqrt : ℚ → ℚ) (data : TrackingData) (pt : PointTTL)
    (s : FillState) (httl : entryTtl pt s > 0)
    (hr : pointInRange data pt.m_point = true) :
    (processEntry fsqrt data pt s).matSegmentation.cell pt.m_point = PixelType.Foreground := by
  rw [processEntry_eq]
  simp [httl, hr, markInRange, Mat.set]

theorem frame_pos_of_inBounds (cols rows : Nat) (p : Point)
    (h : inBounds cols rows p = true) : ∃ n, cols * rows = n + 1 := by
  simp only [inBounds, Bool.and_eq_true, decide_eq_true_eq] at h
  have hc : 0 < cols := by omega
  have hr : 0 < rows := by omega
  exact Nat.exists_eq_succ_of_ne_zero (Nat.pos_iff_ne_zero.mp (Nat.mul_pos hc hr))

theorem entryTtl_seed (data : TrackingData) (s : FillState) :
    entryTtl ⟨data.seedPosition, maxTTL, pointInRange data data.seedPosition⟩ s = maxTTL := by
  unfold entryTtl; split <;> rfl

theorem maxTTL_pos : maxTTL > 0 := by unfold maxTTL; norm_num

/-- An in-range seed inside the frame is Foreground in the global mask when the loop is
left. -/
theorem fillResult_seed_foreground (fsqrt : ℚ → ℚ) (data : TrackingData)
    (hseed : inBounds data.matDepth.cols data.matDepth.rows data.seedPosition = true)
    (hr : pointInRange data data.seedPosition = true) :
    (fillResult fsqrt data).matSegmentation.cell data.seedPosition = PixelType.Foreground := by
  obtain ⟨n, hn⟩ := frame_pos_of_inBounds _ _ _ hseed
  unfold fillResult
  rw [hn]
  have hstep : floodLoop fsqrt data (n + 1) (initFill data) =
      floodLoop fsqrt data n (processEntry fsqrt data
        ⟨data.seedPosition, maxTTL, pointInRange data data.seedPosition⟩
        { initFill data with pointQueue := [] }) := rfl
  rw [hstep]
  have hm := processEntry_marks fsqrt data
    ⟨data.seedPosition, maxTTL, pointInRange data data.seedPosition⟩
    { initFill data with pointQueue := [] }
    (by rw [entryTtl_seed]; exact maxTTL_pos) hr
  rcases floodLoop_segmentation fsqrt data n (processEntry fsqrt data
    ⟨data.seedPosition, maxTTL, pointInRange data data.seedPosition⟩
    { initFill data with pointQueue := [] }) data.seedPosition with h | ⟨_, h⟩
  · rw [h]; exact hm
  · exact h

theorem segmentForeground_eq_some (fsqrt : ℚ → ℚ) (data : TrackingData)
    (hseed : inBounds data.matDepth.cols data.matDepth.rows data.seedPosition = true) :
    segmentForeground fsqrt data = some { data with
      matForegroundSearched := (fillResult fsqrt data).matForeground
      matGlobalSegmentation := (fillResult fsqrt data).matSegmentation } := by
  unfold segmentForeground; simp [hseed]

/-- Claim C1: when the seed pixel lies inside the buffers and is in range (depth non-zero and
below `referenceDepth + bandwidthDepth`), `segmentForeground` returns with the global mask
holding Foreground at the seed, for every area buffer, pixel-state buffer, square-root
function and point type. -/
theorem segmentForeground_marks_seed (fsqrt : ℚ → ℚ) (data : TrackingData)
    (hseed : inBounds data.matDepth.cols data.matDepth.rows data.seedPosition = true)
    (hr : pointInRange data data.seedPosition = true) :
    ∃ out, segmentForeground fsqrt data = some out ∧
      out.matGlobalSegmentation.cell data.seedPosition = PixelType.Foreground :=
  ⟨_, segmentForeground_eq_some fsqrt data hseed, fillResult_seed_foreground fsqrt data hseed hr⟩

theorem segmentForeground_marks_seed_witness :
    inBounds 5 5 ⟨2, 2⟩ = true ∧
    pointInRange (sampleData 5 5 (fun _ => 500) ⟨2, 2⟩ .ActivePoint) ⟨2, 2⟩ = true ∧
    ∃ out, segmentForeground (fun _ => 0)
        (sampleData 5 5 (fun _ => 500) ⟨2, 2⟩ .ActivePoint) = some out ∧
      out.matGlobalSegmentation.cell ⟨2, 2⟩ = PixelType.Foreground :=
  ⟨by decide, by norm_num [pointInRange, maxDepth, sampleData],
    segmentForeground_marks_seed (fun _ => 0)
      (sampleData 5 5 (fun _ => 500) ⟨2, 2⟩ .ActivePoint) (by decide)
      (by norm_num [pointInRange, maxDepth, sampleData])⟩

theorem pointInRange_cornerDepth (data : TrackingData)
    (hd : data.matDepth = ⟨5, 5, cornerDepth⟩) (href : data.referenceDepth = 400)
    (hbw : data.bandwidthDepth = 200) (p : Point) :
    pointInRange data p = true ↔ p = ⟨0, 0⟩ := by
  unfold pointInRange maxDepth
  rw [hd, href, hbw]
  by_cases hp : p = ⟨0, 0⟩
  · simp only [cornerDepth, hp, if_true]; norm_num
  · simp [cornerDepth, hp]

/-- Claim C2: with the seed in bounds, `segmentForeground` returns, and each cell of the
global mask either keeps the value it had before the call or belongs to an in-range pixel and
holds Foreground. In particular, on a 5 by 5 depth buffer whose only reading is 500 at pixel
`(0, 0)`, with seed `(0, 0)`, reference 400, bandwidth 200 and an empty global mask, exactly
pixel `(0, 0)` is Foreground afterwards. -/
theorem segmentForeground_frame (fsqrt : ℚ → ℚ) (data : TrackingData)
    (hseed : inBounds data.matDepth.cols data.matDepth.rows data.seedPosition = true) :
    ∃ out, segmentForeground fsqrt data = some out ∧
      (∀ p, out.matGlobalSegmentation.cell p = data.matGlobalSegmentation.cell p ∨
        (pointInRange data p = true ∧
          out.matGlobalSegmentation.cell p = PixelType.Foreground)) ∧
      (data.matDepth = ⟨5, 5, cornerDepth⟩ → data.seedPosition = ⟨0, 0⟩ →
        data.referenceDepth = 400 → data.bandwidthDepth = 200 →
        (∀ p, data.matGlobalSegmentation.cell p = 0) →
        ∀ p, out.matGlobalSegmentation.cell p = PixelType.Foreground ↔ p = ⟨0, 0⟩) := by
  refine ⟨_, segmentForeground_eq_some fsqrt data hseed, ?_, ?_⟩
  · intro p
    exact floodLoop_segmentation fsqrt data _ (initFill data) p
  · intro hd hs href hbw hempty p
    have hrange := pointInRange_cornerDepth data hd href hbw
    constructor
    · intro hp
      rcases floodLoop_segmentation fsqrt data (data.matDepth.cols * data.matDepth.rows)
        (initFill data) p with h | ⟨h, _⟩
      · exfalso
        have h0 : (fillResult fsqrt data).matSegmentation.cell p = 0 := by
          unfold fillResult; rw [h]; exact hempty p
        have h1 : (fillResult fsqrt data).matSegmentation.cell p = PixelType.Foreground := hp
        rw [h0] at h1
        exact absurd h1 (by decide)
      · exact (hrange p).mp h
    · intro hp
      subst hp
      have := fillResult_seed_foreground fsqrt data hseed (by rw [hs]; exact (hrange _).mpr rfl)
      rw [hs] at this
      exact this

theorem segmentForeground_frame_witness :
    inBounds 5 5 ⟨0, 0⟩ = true ∧
    ∃ out, segmentForeground (fun _ => 1)
        (sampleData 5 5 cornerDepth ⟨0, 0⟩ .CandidatePoint) = some out ∧
      (∀ p, out.matGlobalSegmentation.cell p = 0 ∨
        (pointInRange (sampleData 5 5 cornerDepth ⟨0, 0⟩ .CandidatePoint) p = true ∧
          out.matGlobalSegmentation.cell p = PixelType.Foreground)) ∧
      (∀ p, out.matGlobalSegmentation.cell p = PixelType.Foreground ↔ p = ⟨0, 0⟩) := by
  refine ⟨by decide, ?_⟩
  obtain ⟨out, h1, h2, h3⟩ := segmentForeground_frame (fun _ => 1)
    (sampleData 5 5 cornerDepth ⟨0, 0⟩ .CandidatePoint) (by decide)
  exact ⟨out, h1, h2, h3 rfl rfl rfl rfl (fun _ => rfl)⟩

/-! ## The flood fill as a search of the component of the seed -/

theorem pushAll_visited_mono (cands : List (Bool × Point)) (t : ℚ) (r : Bool) (s : FillState)
    (x : Point) (h : s.matVisited.cell x ≠ 0) : (pushAll cands t r s).matVisited.cell x ≠ 0 := by
  induction cands generalizing s with
  | nil => exact h
  | cons c cs ih =>
    rw [pushAll_cons]
    apply ih
    rw [pushNeighbour_visited_cell]
    split
    · exact one_ne_zero
    · exact h

theorem pushAll_visited_of_mem (cands : List (Bool × Point)) (t : ℚ) (r : Bool)
    (s : FillState) (x : Point) (h : (true, x) ∈ cands) :
    (pushAll cands t r s).matVisited.cell x ≠ 0 := by
  induction cands generalizing s with
  | nil => simp at h
  | cons c cs ih =>
    rw [pushAll_cons]
    rcases List.mem_cons.mp h with h | h
    · apply pushAll_visited_mono
      rw [pushNeighbour_visited_cell, ← h]
      by_cases hv : s.matVisited.cell x = 0
      · simp [hv]
      · simp [hv]
    · exact ih _ h

theorem pushAll_visited_origin (cands : List (Bool × Point)) (t : ℚ) (r : Bool)
    (s : FillState) (x : Point) (h : (pushAll cands t r s).matVisited.cell x ≠ 0) :
    s.matVisited.cell x ≠ 0 ∨
      ((true, x) ∈ cands ∧ ∃ e ∈ (pushAll cands t r s).pointQueue, e.m_point = x) := by
  induction cands generalizing s with
  | nil => left; exact h
  | cons c cs ih =>
    rw [pushAll_cons] at h ⊢
    rcases ih _ h with h1 | ⟨h1, h2⟩
    · rw [pushNeighbour_visited_cell] at h1
      by_cases hcond : c.1 = true ∧ s.matVisited.cell c.2 = 0 ∧ x = c.2
      · right
        obtain ⟨hc1, hc2, hc3⟩ := hcond
        refine ⟨?_, ⟨x, t, r⟩, ?_, rfl⟩
        · rw [hc3, ← hc1]; exact List.mem_cons_self _ _
        · apply pushAll_queue_sub
          rw [pushNeighbour_queue]
          simp [hc1, hc2, hc3]
      · left; simpa [hcond] using h1
    · right; exact ⟨List.mem_cons_of_mem _ h1, h2⟩

theorem neighbour_of_mem_neighbourTests (data : TrackingData) (p q : Point) (b : Bool)
    (h : (b, q) ∈ neighbourTests data p) : q ∈ neighbours p := by
  simp only [neighbourTests, List.mem_cons, List.mem_singleton, List.not_mem_nil, or_false,
    Prod.mk.injEq] at h
  simp only [neighbours, List.mem_cons, List.mem_singleton, List.not_mem_nil, or_false]
  rcases h with h | h | h | h
  · exact Or.inl h.2
  · exact Or.inr (Or.inl h.2)
  · exact Or.inr (Or.inr (Or.inl h.2))
  · exact Or.inr (Or.inr (Or.inr h.2))

/-- A neighbour inside the frame passes its bound test. -/
theorem mem_neighbourTests_of_neighbour (data : TrackingData) (p q : Point)
    (hq : q ∈ neighbours p)
    (hin : inBounds data.matDepth.cols data.matDepth.rows q = true) :
    (true, q) ∈ neighbourTests data p := by
  simp only [neighbours, List.mem_cons, List.mem_singleton, List.not_mem_nil, or_false] at hq
  simp only [inBounds, Bool.and_eq_true, decide_eq_true_eq] at hin
  simp only [neighbourTests, List.mem_cons, List.mem_singleton, List.not_mem_nil, or_false,
    Prod.mk.injEq]
  rcases hq with h | h | h | h
  · subst h
    exact Or.inl ⟨by simpa using hin.1.1.2, rfl⟩
  · subst h
    exact Or.inr (Or.inl ⟨by simpa using hin.1.1.1, rfl⟩)
  · subst h
    exact Or.inr (Or.inr (Or.inl ⟨by simpa using hin.2, rfl⟩))
  · subst h
    exact Or.inr (Or.inr (Or.inr ⟨by simpa using hin.1.2, rfl⟩))

theorem fillInv_init (data : TrackingData)
    (hseed : inBounds data.matDepth.cols data.matDepth.rows data.seedPosition = true)
    (hr : pointInRange data data.seedPosition = true)
    (hempty : ∀ p, inBounds data.matDepth.cols data.matDepth.rows p = true →
      data.matGlobalSegmentation.cell p = 0) :
    FillInv data (initFill data) := by
  have hvis : ∀ p, (initFill data).matVisited.cell p ≠ 0 → p = data.seedPosition := by
    intro p hp
    by_contra hne
    exact hp (by simp [initFill, Mat.set, Mat.zeros, hne])
  refine ⟨?_, ?_, ?_, ?_, ?_⟩
  · intro e he
    simp only [initFill, List.mem_singleton] at he
    subst he
    exact ⟨rfl, hr, by simp [initFill, Mat.set]⟩
  · intro p hp
    rw [hvis p hp]
    exact ⟨hseed, fun _ => Connected.seed hseed hr⟩
  · intro p hp hq _
    exfalso
    exact hq ⟨data.seedPosition, maxTTL, pointInRange data data.seedPosition⟩
      (by simp [initFill]) (hvis p hp).symm
  · intro p hp hfg
    exfalso
    have h0 : (initFill data).matSegmentation.cell p = 0 := hempty p hp
    rw [h0] at hfg
    exact absurd hfg (by decide)
  · simp [initFill, Mat.set]

theorem fillInv_step (fsqrt : ℚ → ℚ) (data : TrackingData) (hsqrt : fsqrt 0 = 0)
    (harea : ∀ p, inBounds data.matDepth.cols data.matDepth.rows p = true →
      data.matArea.cell p = 0)
    (s : FillState) (pt : PointTTL) (rest : List PointTTL) (inv : FillInv data s)
    (hs : s.pointQueue = pt :: rest) :
    FillInv data (processEntry fsqrt data pt { s with pointQueue := rest }) := by
  obtain ⟨hq, hvis, hdone, hmarked, hsd⟩ := inv
  have hpt := hq pt (by rw [hs]; exact List.mem_cons_self _ _)
  have hrest : ∀ e ∈ rest, e ∈ s.pointQueue := fun e he => by
    rw [hs]; exact List.mem_cons_of_mem _ he
  have hpin := (hvis pt.m_point hpt.2.2).1
  have httl : entryTtl pt { s with pointQueue := rest } = maxTTL := by
    unfold entryTtl; split
    · rfl
    · exact hpt.1
  have hchild : childTtl fsqrt data pt { s with pointQueue := rest } = maxTTL := by
    unfold childTtl
    rw [httl, harea _ hpin, hsqrt]
    split <;> simp
  rw [processEntry_eq, httl, if_pos maxTTL_pos, hchild, hpt.2.1]
  by_cases hr : pointInRange data pt.m_point = true
  · simp only [hr, Bool.not_true, Bool.or_true, if_true]
    have hbase : markInRange data pt (markSearched pt { s with pointQueue := rest }) =
        { pointQueue := rest, matVisited := s.matVisited,
          matForeground := s.matForeground.set pt.m_point PixelType.Searched,
          matSegmentation := s.matSegmentation.set pt.m_point PixelType.Foreground,
          anyInRange := true } := by
      simp [markInRange, markSearched, hr]
    rw [hbase]
    set base : FillState := ⟨rest, s.matVisited,
      s.matForeground.set pt.m_point PixelType.Searched,
      s.matSegmentation.set pt.m_point PixelType.Foreground, true⟩ with hbdef
    set R := pushAll (neighbourTests data pt.m_point) maxTTL true base with hR
    have hmono : ∀ x, s.matVisited.cell x ≠ 0 → R.matVisited.cell x ≠ 0 := fun x hx =>
      pushAll_visited_mono _ _ _ base x hx
    have hSeg : ∀ x, R.matSegmentation.cell x =
        if x = pt.m_point then PixelType.Foreground else s.matSegmentation.cell x := by
      intro x; rw [hR, pushAll_matSegmentation]; rfl
    refine ⟨?_, ?_, ?_, ?_, hmono _ hsd⟩
    · intro e he
      rcases pushAll_queue_mem _ _ _ base e he with h | ⟨h1, h2, h3, -⟩
      · obtain ⟨a, b, c⟩ := hq e (hrest e h)
        exact ⟨a, b, hmono _ c⟩
      · exact ⟨h2, h3, pushAll_visited_of_mem _ _ _ base _ h1⟩
    · intro x hx
      rcases pushAll_visited_origin _ _ _ base x hx with h | ⟨h, -⟩
      · exact hvis x h
      · refine ⟨neighbourTests_inBounds data pt.m_point hpin _ h rfl, fun hxr => ?_⟩
        exact Connected.step pt.m_point x ((hvis _ hpt.2.2).2 hr)
          (neighbour_of_mem_neighbourTests data _ _ _ h)
          (neighbourTests_inBounds data pt.m_point hpin _ h rfl) hxr
    · intro x hx hnq hxr
      by_cases hxp : x = pt.m_point
      · subst hxp
        refine ⟨by rw [hSeg]; simp, fun q hqn hqin => ?_⟩
        exact pushAll_visited_of_mem _ _ _ base _
          (mem_neighbourTests_of_neighbour data _ q hqn hqin)
      · have hxv : s.matVisited.cell x ≠ 0 := by
          rcases pushAll_visited_origin _ _ _ base x hx with h | ⟨-, e, he, hex⟩
          · exact h
          · exact absurd hex (hnq e he)
        have hnq2 : ∀ e ∈ s.pointQueue, e.m_point ≠ x := by
          intro e he
          rw [hs] at he
          rcases List.mem_cons.mp he with h | h
          · rw [h]; exact fun h' => hxp h'.symm
          · exact hnq e (pushAll_queue_sub _ _ _ base e h)
        obtain ⟨h1, h2⟩ := hdone x hxv hnq2 hxr
        refine ⟨by rw [hSeg]; simp [hxp, h1], fun q hqn hqin => hmono _ (h2 q hqn hqin)⟩
    · intro x hxin hxf
      by_cases hxp : x = pt.m_point
      · subst hxp
        exact ⟨hr, hmono _ hpt.2.2⟩
      · rw [hSeg] at hxf
        simp only [hxp, if_false] at hxf
        obtain ⟨h1, h2⟩ := hmarked x hxin hxf
        exact ⟨h1, hmono _ h2⟩
  · simp only [hr, Bool.not_true, Bool.or_self, Bool.false_eq_true, if_false]
    refine ⟨?_, ?_, ?_, ?_, ?_⟩
    · intro e he
      exact hq e (hrest e he)
    · exact hvis
    · intro x hx hnq hxr
      have hxp : x ≠ pt.m_point := fun h => hr (h ▸ hxr)
      apply hdone x hx _ hxr
      intro e he
      rw [hs] at he
      rcases List.mem_cons.mp he with h | h
      · rw [h]; exact fun h' => hxp h'.symm
      · exact hnq e h
    · exact hmarked
    · exact hsd

theorem fillInv_result (fsqrt : ℚ → ℚ) (data : TrackingData) (hsqrt : fsqrt 0 = 0)
    (harea : ∀ p, inBounds data.matDepth.cols data.matDepth.rows p = true →
      data.matArea.cell p = 0)
    (hseed : inBounds data.matDepth.cols data.matDepth.rows data.seedPosition = true)
    (hr : pointInRange data data.seedPosition = true)
    (hempty : ∀ p, inBounds data.matDepth.cols data.matDepth.rows p = true →
      data.matGlobalSegmentation.cell p = 0) :
    FillInv data (fillResult fsqrt data) :=
  floodLoop_induct fsqrt data (FillInv data)
    (fun s pt rest inv hs => fillInv_step fsqrt data hsqrt harea s pt rest inv hs) _ _
    (fillInv_init data hseed hr hempty)

/-- With a budget that never decays, an in-range seed and an empty global mask, the pixels of
the frame that the loop leaves Foreground are those of the component of the seed. -/
theorem fillResult_component (fsqrt : ℚ → ℚ) (data : TrackingData) (hsqrt : fsqrt 0 = 0)
    (harea : ∀ p, inBounds data.matDepth.cols data.matDepth.rows p = true →
      data.matArea.cell p = 0)
    (hseed : inBounds data.matDepth.cols data.matDepth.rows data.seedPosition = true)
    (hr : pointInRange data data.seedPosition = true)
    (hempty : ∀ p, inBounds data.matDepth.cols data.matDepth.rows p = true →
      data.matGlobalSegmentation.cell p = 0)
    (p : Point) (hp : inBounds data.matDepth.cols data.matDepth.rows p = true) :
    (fillResult fsqrt data).matSegmentation.cell p = PixelType.Foreground ↔
      Connected data p := by
  have inv := fillInv_result fsqrt data hsqrt harea hseed hr hempty
  have hqe := fillResult_queue_empty fsqrt data hseed
  constructor
  · intro hfg
    obtain ⟨h1, h2⟩ := inv.marked p hp hfg
    exact (inv.visited p h2).2 h1
  · intro hc
    have key : ∀ q, Connected data q →
        (fillResult fsqrt data).matVisited.cell q ≠ 0 ∧ pointInRange data q = true := by
      intro q hq
      induction hq with
      | seed _ h => exact ⟨inv.seed, h⟩
      | step a b _ hab hbin hbr ih =>
        refine ⟨?_, hbr⟩
        exact (inv.done a ih.1 (by rw [hqe]; simp) ih.2).2 b hab hbin
    obtain ⟨h1, h2⟩ := key p hc
    exact (inv.done p h1 (by rw [hqe]; simp) h2).1

/-- When every pixel of the frame is in range, the component of the seed is the frame. -/
theorem connected_of_all_inRange (data : TrackingData)
    (hall : ∀ p, inBounds data.matDepth.cols data.matDepth.rows p = true →
      pointInRange data p = true)
    (hseed : inBounds data.matDepth.cols data.matDepth.rows data.seedPosition = true)
    (p : Point) (hp : inBounds data.matDepth.cols data.matDepth.rows p = true) :
    Connected data p := by
  have key : ∀ (n : Nat) (q : Point),
      inBounds data.matDepth.cols data.matDepth.rows q = true →
      (q.x - data.seedPosition.x).natAbs + (q.y - data.seedPosition.y).natAbs = n →
      Connected data q := by
    intro n
    induction n with
    | zero =>
      intro q _ hq
      have hx : q.x = data.seedPosition.x := by omega
      have hy : q.y = data.seedPosition.y := by omega
      have : q = data.seedPosition := by
        cases q; cases hsp : data.seedPosition; simp_all
      rw [this]
      exact Connected.seed hseed (hall _ hseed)
    | succ n ih =>
      intro q hq hd
      have hq' := hq
      have hs' := hseed
      simp only [inBounds, Bool.and_eq_true, decide_eq_true_eq] at hq' hs'
      by_cases hx : q.x = data.seedPosition.x
      · by_cases hlt : q.y < data.seedPosition.y
        · have hin : inBounds data.matDepth.cols data.matDepth.rows ⟨q.x, q.y + 1⟩ = true := by
            simp only [inBounds, Bool.and_eq_true, decide_eq_true_eq]; omega
          refine Connected.step ⟨q.x, q.y + 1⟩ q (ih _ hin (by simp only; omega)) ?_ hq
            (hall _ hq)
          simp [neighbours]
        · have hin : inBounds data.matDepth.cols data.matDepth.rows ⟨q.x, q.y - 1⟩ = true := by
            simp only [inBounds, Bool.and_eq_true, decide_eq_true_eq]; omega
          refine Connected.step ⟨q.x, q.y - 1⟩ q (ih _ hin (by simp only; omega)) ?_ hq
            (hall _ hq)
          simp [neighbours]
      · by_cases hlt : q.x < data.seedPosition.x
        · have hin : inBounds data.matDepth.cols data.matDepth.rows ⟨q.x + 1, q.y⟩ = true := by
            simp only [inBounds, Bool.and_eq_true, decide_eq_true_eq]; omega
          refine Connected.step ⟨q.x + 1, q.y⟩ q (ih _ hin (by simp only; omega)) ?_ hq
            (hall _ hq)
          simp [neighbours]
        · have hin : inBounds data.matDepth.cols data.matDepth.rows ⟨q.x - 1, q.y⟩ = true := by
            simp only [inBounds, Bool.and_eq_true, decide_eq_true_eq]; omega
          refine Connected.step ⟨q.x - 1, q.y⟩ q (ih _ hin (by simp only; omega)) ?_ hq
            (hall _ hq)
          simp [neighbours]
  exact key _ p hp rfl

/-- Claim C3: for every depth buffer, every in-bounds in-range seed, every pixel-state buffer
and point type, an empty global mask and an area buffer that is 0 on the frame (with a square
root that maps 0 to 0, so the budget of 250 never decays), `segmentForeground` returns and the
pixels of the frame that are Foreground in the global mask are exactly those of the
4-connected component of in-range pixels containing the seed. On the 5 by 5 buffer with all
depths 500, reference 400 and bandwidth 200, all 25 pixels are Foreground. -/
theorem segmentForeground_component (fsqrt : ℚ → ℚ) (data : TrackingData)
    (hsqrt : fsqrt 0 = 0)
    (harea : ∀ p, inBounds data.matDepth.cols data.matDepth.rows p = true →
      data.matArea.cell p = 0)
    (hseed : inBounds data.matDepth.cols data.matDepth.rows data.seedPosition = true)
    (hr : pointInRange data data.seedPosition = true)
    (hempty : ∀ p, inBounds data.matDepth.cols data.matDepth.rows p = true →
      data.matGlobalSegmentation.cell p = 0) :
    ∃ out, segmentForeground fsqrt data = some out ∧
      (∀ p, inBounds data.matDepth.cols data.matDepth.rows p = true →
        (out.matGlobalSegmentation.cell p = PixelType.Foreground ↔ Connected data p)) ∧
      (data.matDepth = ⟨5, 5, fun _ => 500⟩ → data.referenceDepth = 400 →
        data.bandwidthDepth = 200 →
        ∀ p, inBounds 5 5 p = true →
          out.matGlobalSegmentation.cell p = PixelType.Foreground) := by
  refine ⟨_, segmentForeground_eq_some fsqrt data hseed, ?_, ?_⟩
  · intro p hp
    exact fillResult_component fsqrt data hsqrt harea hseed hr hempty p hp
  · intro hd href hbw p hp
    have hp' : inBounds data.matDepth.cols data.matDepth.rows p = true := by rw [hd]; exact hp
    apply (fillResult_component fsqrt data hsqrt harea hseed hr hempty p hp').mpr
    apply connected_of_all_inRange data _ hseed p hp'
    intro q _
    unfold pointInRange maxDepth
    rw [hd, href, hbw]
    norm_num

theorem segmentForeground_component_witness :
    inBounds 5 5 ⟨2, 2⟩ = true ∧
    pointInRange (sampleData 5 5 (fun _ => 500) ⟨2, 2⟩ .CandidatePoint) ⟨2, 2⟩ = true ∧
    ∃ out, segmentForeground (fun a => a * a)
        (sampleData 5 5 (fun _ => 500) ⟨2, 2⟩ .CandidatePoint) = some out ∧
      (∀ p, inBounds 5 5 p = true →
        (out.matGlobalSegmentation.cell p = PixelType.Foreground ↔
          Connected (sampleData 5 5 (fun _ => 500) ⟨2, 2⟩ .CandidatePoint) p)) ∧
      (∀ p, inBounds 5 5 p = true →
        out.matGlobalSegmentation.cell p = PixelType.Foreground) := by
  refine ⟨by decide, by norm_num [pointInRange, maxDepth, sampleData], ?_⟩
  obtain ⟨out, h1, h2, h3⟩ := segmentForeground_component (fun a => a * a)
    (sampleData 5 5 (fun _ => 500) ⟨2, 2⟩ .CandidatePoint) (by norm_num)
    (fun _ _ => rfl) (by decide) (by norm_num [pointInRange, maxDepth, sampleData])
    (fun _ _ => rfl)
  exact ⟨out, h1, h2, h3 rfl rfl rfl⟩

/-! ## Foreground scanner -/

theorem find_eq_head_filter {α : Type} (f : α → Bool) (l : List α) :
    l.find? f = (l.filter f).head? := by
  induction l with
  | nil => rfl
  | cons a l ih =>
    by_cases h : f a = true
    · rw [List.find?_cons_of_pos _ h, List.filter_cons_of_pos h]; rfl
    · rw [List.find?_cons_of_neg _ h, List.filter_cons_of_neg h]; exact ih

theorem findInRow_eq (m : Mat Nat) (y n x : Nat) :
    findInRow m y n x =
      (rowPixels y n x).find? (fun p => decide (m.cell p = PixelType.Foreground)) := by
  induction n generalizing x with
  | zero => rfl
  | succ n ih =>
    unfold findInRow rowPixels
    by_cases h : m.cell ⟨(x : Int), (y : Int)⟩ = PixelType.Foreground
    · simp [h]
    · simp [h, ih]

theorem findInRows_eq (m : Mat Nat) (n y : Nat) :
    findInRows m n y =
      (gridPixels m.cols n y).find? (fun p => decide (m.cell p = PixelType.Foreground)) := by
  induction n generalizing y with
  | zero => rfl
  | succ n ih =>
    unfold findInRows gridPixels
    rw [List.find?_append, ← findInRow_eq, ih]
    cases findInRow m y m.cols 0 <;> rfl

theorem findInRows_head (m : Mat Nat) :
    findInRows m m.rows 0 = (foregroundPixels m).head? := by
  rw [findInRows_eq, find_eq_head_filter]; rfl

/-- Downgrading the first Foreground pixel removes it, and only it, from the list of
Foreground pixels. -/
theorem filter_set_head (m : Mat Nat) (L : List Point) (hnd : L.Nodup) (p : Point)
    (t : List Point)
    (h : L.filter (fun q => decide (m.cell q = PixelType.Foreground)) = p :: t) :
    L.filter (fun q => decide ((m.set p PixelType.Searched).cell q = PixelType.Foreground))
      = t := by
  induction L with
  | nil => simp at h
  | cons a L ih =>
    have hnd' := (List.nodup_cons.mp hnd)
    by_cases ha : m.cell a = PixelType.Foreground
    · rw [List.filter_cons_of_pos (by simpa using ha)] at h
      obtain ⟨h1, h2⟩ := List.cons.inj h
      subst h1
      rw [List.filter_cons_of_neg (by simp [Mat.set, PixelType.Searched, PixelType.Foreground])]
      rw [← h2]
      apply List.filter_congr
      intro q hq
      have hqa : q ≠ a := fun hc => hnd'.1 (hc ▸ hq)
      simp [Mat.set, hqa]
    · rw [List.filter_cons_of_neg (by simpa using ha)] at h
      have hp : m.cell p = PixelType.Foreground := by
        have : p ∈ L.filter (fun q => decide (m.cell q = PixelType.Foreground)) := by
          rw [h]; exact List.mem_cons_self _ _
        simpa using (List.mem_filter.mp this).2
      have hap : a ≠ p := fun hc => ha (hc ▸ hp)
      rw [List.filter_cons_of_neg (by simp [Mat.set, hap, ha])]
      exact ih hnd'.2 h

theorem findForegroundPixel_nil (m : Mat Nat) (h : foregroundPixels m = []) :
    findForegroundPixel m = ⟨false, sentinel, m⟩ := by
  unfold findForegroundPixel
  rw [findInRows_head, h]
  rfl

theorem findForegroundPixel_cons (m : Mat Nat) (p : Point) (t : List Point)
    (h : foregroundPixels m = p :: t) :
    findForegroundPixel m = ⟨true, p, m.set p PixelType.Searched⟩ ∧
      foregroundPixels (m.set p PixelType.Searched) = t := by
  constructor
  · unfold findForegroundPixel
    rw [findInRows_head, h]
    rfl
  · exact filter_set_head m _ (nodup_allPixels _ _) p t h

theorem mem_foregroundPixels (m : Mat Nat) (p : Point) :
    p ∈ foregroundPixels m ↔
      (inBounds m.cols m.rows p = true ∧ m.cell p = PixelType.Foreground) := by
  unfold foregroundPixels
  rw [List.mem_filter, mem_allPixels]
  simp

theorem pairwise_foregroundPixels (m : Mat Nat) :
    (foregroundPixels m).Pairwise rowMajorLt :=
  (pairwise_allPixels _ _).sublist (List.filter_sublist _)

theorem repeatScan_nil (m : Mat Nat) (h : foregroundPixels m = []) (k : Nat) :
    repeatScan k m = List.replicate k (false, sentinel) := by
  induction k with
  | zero => rfl
  | succ k ih =>
    unfold repeatScan
    rw [findForegroundPixel_nil m h, ih]
    rfl

theorem repeatScan_eq (fg : List Point) (m : Mat Nat) (h : foregroundPixels m = fg)
    (k : Nat) :
    repeatScan (fg.length + k) m =
      fg.map (fun p => (true, p)) ++ List.replicate k (false, sentinel) := by
  induction fg generalizing m with
  | nil => simpa using repeatScan_nil m h k
  | cons p t ih =>
    obtain ⟨h1, h2⟩ := findForegroundPixel_cons m p t h
    have hlen : (p :: t).length + k = (t.length + k) + 1 := by simp; omega
    rw [hlen]
    unfold repeatScan
    rw [h1]
    simp only [List.map_cons, List.cons_append]
    rw [ih _ h2]

/-- Claim C9: repeated calls of `findForegroundPixel` on one pixel-state buffer return, each
with `found = true`, the pixels that were Foreground in the initial buffer, each exactly once
and in row-major order (increasing `y`, then increasing `x`); after as many calls as there
were Foreground pixels every further call returns `found = false` with position `(-1, -1)`. -/
theorem findForegroundPixel_enumerates (m : Mat Nat) (k : Nat) :
    repeatScan ((foregroundPixels m).length + k) m =
        (foregroundPixels m).map (fun p => (true, p)) ++ List.replicate k (false, ⟨-1, -1⟩) ∧
      (∀ p, p ∈ foregroundPixels m ↔
        (inBounds m.cols m.rows p = true ∧ m.cell p = PixelType.Foreground)) ∧
      (foregroundPixels m).Pairwise rowMajorLt ∧ (foregroundPixels m).Nodup :=
  ⟨repeatScan_eq _ m rfl k, mem_foregroundPixels m, pairwise_foregroundPixels m,
    (nodup_allPixels _ _).sublist (List.filter_sublist _)⟩

/-- Claim C10: on a pixel-state buffer with at least one Foreground pixel,
`findForegroundPixel` returns `found = true` with the position of the first Foreground pixel
in row-major order, sets that one cell to Searched and leaves every other cell unchanged. -/
theorem findForegroundPixel_first (m : Mat Nat) (p0 : Point)
    (hin : inBounds m.cols m.rows p0 = true) (hfg : m.cell p0 = PixelType.Foreground) :
    (findForegroundPixel m).found = true ∧
      inBounds m.cols m.rows (findForegroundPixel m).foregroundPosition = true ∧
      m.cell (findForegroundPixel m).foregroundPosition = PixelType.Foreground ∧
      (∀ q, inBounds m.cols m.rows q = true → m.cell q = PixelType.Foreground →
        q = (findForegroundPixel m).foregroundPosition ∨
          rowMajorLt (findForegroundPixel m).foregroundPosition q) ∧
      (findForegroundPixel m).matForeground.cell (findForegroundPixel m).foregroundPosition =
        PixelType.Searched ∧
      (∀ q, q ≠ (findForegroundPixel m).foregroundPosition →
        (findForegroundPixel m).matForeground.cell q = m.cell q) := by
  have hmem : p0 ∈ foregroundPixels m := (mem_foregroundPixels m p0).mpr ⟨hin, hfg⟩
  cases hfgs : foregroundPixels m with
  | nil => rw [hfgs] at hmem; simp at hmem
  | cons p t =>
    obtain ⟨h1, -⟩ := findForegroundPixel_cons m p t hfgs
    have hp : p ∈ foregroundPixels m := by rw [hfgs]; exact List.mem_cons_self _ _
    have hp' := (mem_foregroundPixels m p).mp hp
    have hpw := pairwise_foregroundPixels m
    rw [hfgs, List.pairwise_cons] at hpw
    rw [h1]
    refine ⟨rfl, hp'.1, hp'.2, ?_, by simp [Mat.set], ?_⟩
    · intro q hq1 hq2
      have hq : q ∈ foregroundPixels m := (mem_foregroundPixels m q).mpr ⟨hq1, hq2⟩
      rw [hfgs] at hq
      rcases List.mem_cons.mp hq with h | h
      · exact Or.inl h
      · exact Or.inr (hpw.1 q h)
    · intro q hq
      simp only at hq
      simp [Mat.set, hq]

theorem findForegroundPixel_first_witness :
    inBounds 3 2 ⟨1, 1⟩ = true ∧ sampleStates.cell ⟨1, 1⟩ = PixelType.Foreground ∧
      (findForegroundPixel sampleStates).found = true ∧
      inBounds 3 2 (findForegroundPixel sampleStates).foregroundPosition = true ∧
      sampleStates.cell (findForegroundPixel sampleStates).foregroundPosition =
        PixelType.Foreground ∧
      (∀ q, inBounds 3 2 q = true → sampleStates.cell q = PixelType.Foreground →
        q = (findForegroundPixel sampleStates).foregroundPosition ∨
          rowMajorLt (findForegroundPixel sampleStates).foregroundPosition q) ∧
      (findForegroundPixel sampleStates).matForeground.cell
        (findForegroundPixel sampleStates).foregroundPosition = PixelType.Searched ∧
      (∀ q, q ≠ (findForegroundPixel sampleStates).foregroundPosition →
        (findForegroundPixel sampleStates).matForeground.cell q = sampleStates.cell q) :=
  ⟨by decide, by decide, findForegroundPixel_first sampleStates ⟨1, 1⟩ (by decide) (by decide)⟩


/-! ## Point tracker -/

theorem maxLoc_zeros (src : Mat ℚ) (cols rows : Nat) :
    maxLoc src (Mat.zeros cols rows) = sentinel := by
  unfold maxLoc
  have : (allPixels src.cols src.rows).filter
      (fun p => decide ((Mat.zeros cols rows : Mat Nat).cell p ≠ 0)) = [] := by
    apply List.filter_eq_nil_iff.mpr
    intro p _
    simp [Mat.zeros]
  rw [this]

theorem bitwise_or_zeros (src2 dst : Mat Nat) (cols rows : Nat) :
    bitwise_or (Mat.zeros cols rows) src2 dst (Mat.zeros cols rows) = dst := by
  cases dst
  simp [bitwise_or, Mat.zeros]

/-- The flood fill does not read the layer mask. -/
theorem fillResult_layer (fsqrt : ℚ → ℚ) (data : TrackingData) (layer : Mat Nat) :
    fillResult fsqrt { data with matLayerSegmentation := layer } = fillResult fsqrt data := by
  have hpe : processEntry fsqrt { data with matLayerSegmentation := layer } =
      processEntry fsqrt data := rfl
  have hloop : ∀ n s, floodLoop fsqrt { data with matLayerSegmentation := layer } n s =
      floodLoop fsqrt data n s := by
    intro n
    induction n with
    | zero => intro s; rfl
    | succ n ih =>
      intro s
      unfold floodLoop
      split
      · rfl
      · rw [hpe, ih]
  unfold fillResult
  rw [hloop]
  rfl

/-- With the seed inside the frame, one tracker pass returns the position `(-1, -1)`: the
flood fill writes its marks into the global mask, the fresh layer mask stays zero, so the
merge changes nothing and the masked maximum search finds no pixel. -/
theorem trackPointFromSeed_eq (fsqrt : ℚ → ℚ) (data : TrackingData)
    (hseed : inBounds data.matDepth.cols data.matDepth.rows data.seedPosition = true) :
    trackPointFromSeed fsqrt data = some (sentinel, trackContext fsqrt data) := by
  have h := segmentForeground_eq_some fsqrt { data with
    matLayerSegmentation :=
      Mat.zeros data.matGlobalSegmentation.cols data.matGlobalSegmentation.rows } hseed
  unfold trackPointFromSeed
  simp only [h, maxLoc_zeros, bitwise_or_zeros, fillResult_layer]
  rfl

theorem trackPointFromSeed_none (fsqrt : ℚ → ℚ) (data : TrackingData)
    (hseed : inBounds data.matDepth.cols data.matDepth.rows data.seedPosition = false) :
    trackPointFromSeed fsqrt data = none := by
  unfold trackPointFromSeed segmentForeground
  simp [hseed]

theorem convergeTrackPointFromSeed_eq (fsqrt : ℚ → ℚ) (data : TrackingData)
    (hseed : inBounds data.matDepth.cols data.matDepth.rows data.seedPosition = true) :
    convergeTrackPointFromSeed fsqrt data =
      some ⟨sentinel, 1, trackContext fsqrt data, [(data.seedPosition, sentinel)]⟩ := by
  unfold convergeTrackPointFromSeed
  obtain ⟨n, hn⟩ : ∃ n, (max 1 data.iterationMax).toNat = n + 1 :=
    Nat.exists_eq_succ_of_ne_zero (by omega)
  rw [hn]
  unfold convergeLoop
  simp only [trackPointFromSeed_eq fsqrt data hseed]
  simp [sentinel]

/-- On a frame whose pixels are all in range, with a budget that never decays and an empty
global mask, the flood fill leaves every pixel of the frame Foreground. -/
theorem fillResult_all_inRange (fsqrt : ℚ → ℚ) (data : TrackingData) (hsqrt : fsqrt 0 = 0)
    (harea : ∀ p, inBounds data.matDepth.cols data.matDepth.rows p = true →
      data.matArea.cell p = 0)
    (hseed : inBounds data.matDepth.cols data.matDepth.rows data.seedPosition = true)
    (hall : ∀ p, inBounds data.matDepth.cols data.matDepth.rows p = true →
      pointInRange data p = true)
    (hempty : ∀ p, inBounds data.matDepth.cols data.matDepth.rows p = true →
      data.matGlobalSegmentation.cell p = 0)
    (p : Point) (hp : inBounds data.matDepth.cols data.matDepth.rows p = true) :
    (fillResult fsqrt data).matSegmentation.cell p = PixelType.Foreground :=
  (fillResult_component fsqrt data hsqrt harea hseed (hall _ hseed) hempty p hp).mpr
    (connected_of_all_inRange data hall hseed p hp)

theorem flatData_inRange (p : Point) : pointInRange flatData p = true := by
  norm_num [pointInRange, maxDepth, flatData, sampleData]

theorem flatData_fill (p : Point) (hp : inBounds 5 5 p = true) :
    (fillResult (fun _ => 0) flatData).matSegmentation.cell p = PixelType.Foreground :=
  fillResult_all_inRange (fun _ => 0) flatData rfl (fun _ _ => rfl) (by decide)
    (fun q _ => flatData_inRange q) (fun _ _ => rfl) p hp

/-- Claim C4, evaluated on the 5 by 5 all-500 example (seed `(2, 2)`, reference 400, bandwidth
200, empty global mask; the area is 0, so only the square root of 0 is taken): after one
pass of `trackPointFromSeed` the global mask is Foreground on the entire frame, while the
layer mask is 0 at every pixel. The claim expects the layer mask to be non-zero at exactly
the marked pixels and equal to the global mask. -/
theorem trackPointFromSeed_layer_stays_zero :
    ∃ r, trackPointFromSeed (fun _ => 0) flatData = some r ∧
      (∀ p, inBounds 5 5 p = true →
        r.2.matGlobalSegmentation.cell p = PixelType.Foreground) ∧
      (∀ p, r.2.matLayerSegmentation.cell p = 0) :=
  ⟨_, trackPointFromSeed_eq (fun _ => 0) flatData (by decide),
    fun p hp => flatData_fill p hp, fun _ => rfl⟩

/-- Claim C5, evaluated on the 5 by 5 all-500 example: the seed `(2, 2)` is in bounds and in
range and this pass marks it Foreground, yet `trackPointFromSeed` returns `(-1, -1)`. The
claim expects a marked pixel of maximum score, and `(-1, -1)` only when nothing was marked. -/
theorem trackPointFromSeed_returns_sentinel :
    inBounds 5 5 ⟨2, 2⟩ = true ∧ pointInRange flatData ⟨2, 2⟩ = true ∧
    ∃ r, trackPointFromSeed (fun _ => 0) flatData = some r ∧
      r.2.matGlobalSegmentation.cell ⟨2, 2⟩ = PixelType.Foreground ∧
      r.1 = ⟨-1, -1⟩ :=
  ⟨by decide, flatData_inRange _, _, trackPointFromSeed_eq (fun _ => 0) flatData (by decide),
    flatData_fill _ (by decide), rfl⟩

/-- The loop with the tracker as a parameter is the loop of the program when the parameter is
`trackPointFromSeed`. -/
theorem convergeLoop_eq_with (fsqrt : ℚ → ℚ) :
    ∀ (fuel : Nat) (point : Point) (iterations : Int) (calls : List (Point × Point))
      (data : TrackingData),
      convergeLoop fsqrt fuel point iterations calls data =
        convergeLoopWith (trackPointFromSeed fsqrt) fuel point iterations calls data := by
  intro fuel
  induction fuel with
  | zero => intro _ _ _ _; rfl
  | succ fuel ih =>
    intro point iterations calls data
    unfold convergeLoop convergeLoopWith
    cases h : trackPointFromSeed fsqrt data with
    | none => rfl
    | some r =>
      obtain ⟨point1, data1⟩ := r
      simp only
      split
      · exact ih _ _ _ _
      · rfl

/-- With any tracker that returns a result and, its context being passed by value, leaves the
seed and the iteration cap of the caller in place, the loop returns, and each of its
invocations is seeded at the seed of the context the loop was entered with. -/
theorem convergeLoopWith_seeds (track : TrackingData → Option (Point × TrackingData))
    (htrack : ∀ d, ∃ p d1, track d = some (p, d1) ∧ d1.seedPosition = d.seedPosition ∧
      d1.iterationMax = d.iterationMax) :
    ∀ (fuel : Nat) (point : Point) (iterations : Int) (calls : List (Point × Point))
      (data : TrackingData),
      1 ≤ fuel → max 1 data.iterationMax ≤ iterations + fuel →
      (iterations = 0 ∨ iterations < data.iterationMax) →
      ∃ run new, convergeLoopWith track fuel point iterations calls data = some run ∧
        run.calls = calls ++ new ∧ new ≠ [] ∧ ∀ c ∈ new, c.1 = data.seedPosition := by
  intro fuel
  induction fuel with
  | zero => intro _ _ _ _ h; omega
  | succ fuel ih =>
    intro point iterations calls data _ hfuel hit
    obtain ⟨p, d1, ht, hs, hi⟩ := htrack data
    unfold convergeLoopWith
    simp only [ht]
    split
    · rename_i hc
      obtain ⟨run, new, hrun, hcalls, -, hnew⟩ :=
        ih p (iterations + 1) (calls ++ [(data.seedPosition, p)]) d1
          (by rw [hi] at hc; push_cast at hfuel; omega)
          (by rw [hi]; push_cast at hfuel; omega) (Or.inr hc.2.1)
      refine ⟨run, (data.seedPosition, p) :: new, hrun, ?_, by simp, ?_⟩
      · rw [hcalls]; simp
      · intro c hc
        rcases List.mem_cons.mp hc with h | h
        · rw [h]
        · rw [hnew c h, hs]
    · exact ⟨_, [(data.seedPosition, p)], rfl, rfl, by simp, by simp⟩

/-- One round of the loop of the program on the all-500 example, entered with `(1, 2)` as the
current point. -/
theorem convergeLoop_round :
    convergeLoop (fun _ => 0) 1 ⟨1, 2⟩ 1 [] flatData =
      some ⟨sentinel, 2, trackContext (fun _ => 0) flatData,
        [(flatData.seedPosition, sentinel)]⟩ := by
  unfold convergeLoop
  simp only [trackPointFromSeed_eq (fun _ => 0) flatData (by decide)]
  simp [sentinel, convergeLoop]

/-- Claim C8, evaluated on the 5 by 5 all-500 example: `convergeTrackPointFromSeed` returns
the point `(-1, -1)`, and the tracker invoked once more with that point as seed on the
resulting buffers has no result, because the seed lies outside the buffers. The claim expects
the tracker to return the same point again. -/
theorem convergeTrackPointFromSeed_not_idempotent :
    ∃ run, convergeTrackPointFromSeed (fun _ => 0) flatData = some run ∧
      run.point = ⟨-1, -1⟩ ∧
      trackPointFromSeed (fun _ => 0) { run.data with seedPosition := run.point } = none :=
  ⟨_, convergeTrackPointFromSeed_eq (fun _ => 0) flatData (by decide), rfl,
    trackPointFromSeed_none _ _ (by decide)⟩

/-! ## The scanner on a buffer without Foreground pixels -/

/-- Claim C11: `findForegroundPixel` returns `found = false` if and only if the pixel-state
buffer has no Foreground pixel, and then the returned position is `(-1, -1)` and the buffer
is unchanged; in particular on an all-Unvisited buffer. -/
theorem findForegroundPixel_not_found (m : Mat Nat) :
    ((findForegroundPixel m).found = false ↔
        ∀ p, inBounds m.cols m.rows p = true → m.cell p ≠ PixelType.Foreground) ∧
      ((findForegroundPixel m).found = false →
        (findForegroundPixel m).foregroundPosition = ⟨-1, -1⟩ ∧
          (findForegroundPixel m).matForeground = m) ∧
      (∀ cols rows : Nat,
        findForegroundPixel ⟨cols, rows, fun _ => PixelType.Unvisited⟩ =
          ⟨false, ⟨-1, -1⟩, ⟨cols, rows, fun _ => PixelType.Unvisited⟩⟩) := by
  have key : ∀ m : Mat Nat, (findForegroundPixel m).found = false →
      foregroundPixels m = [] := by
    intro m h
    cases hfg : foregroundPixels m with
    | nil => rfl
    | cons p t =>
      rw [(findForegroundPixel_cons m p t hfg).1] at h
      simp at h
  have hnil : ∀ m : Mat Nat, foregroundPixels m = [] ↔
      ∀ p, inBounds m.cols m.rows p = true → m.cell p ≠ PixelType.Foreground := by
    intro m
    constructor
    · intro h p hp hc
      have := (mem_foregroundPixels m p).mpr ⟨hp, hc⟩
      rw [h] at this
      simp at this
    · intro h
      apply List.eq_nil_iff_forall_not_mem.mpr
      intro p hp
      obtain ⟨h1, h2⟩ := (mem_foregroundPixels m p).mp hp
      exact h p h1 h2
  refine ⟨⟨fun h => (hnil m).mp (key m h), fun h => ?_⟩, fun h => ?_, fun cols rows => ?_⟩
  · rw [findForegroundPixel_nil m ((hnil m).mpr h)]
  · rw [findForegroundPixel_nil m (key m h)]
    exact ⟨rfl, rfl⟩
  · apply findForegroundPixel_nil
    apply (hnil _).mpr
    intro p _
    simp [PixelType.Unvisited, PixelType.Foreground]

/-! ## Every access of the flood fill is inside the frame -/

theorem processEntry_visited_origin (fsqrt : ℚ → ℚ) (data : TrackingData) (pt : PointTTL)
    (s : FillState) (x : Point)
    (h : (processEntry fsqrt data pt s).matVisited.cell x ≠ 0) :
    s.matVisited.cell x ≠ 0 ∨ (true, x) ∈ neighbourTests data pt.m_point := by
  rw [processEntry_eq] at h
  split at h
  · split at h
    · rcases pushAll_visited_origin _ _ _ _ x h with h1 | ⟨h1, -⟩
      · left; simpa using h1
      · right; exact h1
    · left; simpa using h
  · left; exact h

/-- The frame invariant of the loop: queued pixels and visited pixels lie in the frame. -/
theorem frameInv_step (fsqrt : ℚ → ℚ) (data : TrackingData) (s : FillState) (pt : PointTTL)
    (rest : List PointTTL)
    (h : (∀ e ∈ s.pointQueue, inBounds data.matDepth.cols data.matDepth.rows e.m_point = true) ∧
      (∀ p, s.matVisited.cell p ≠ 0 → inBounds data.matDepth.cols data.matDepth.rows p = true))
    (hs : s.pointQueue = pt :: rest) :
    (∀ e ∈ (processEntry fsqrt data pt { s with pointQueue := rest }).pointQueue,
        inBounds data.matDepth.cols data.matDepth.rows e.m_point = true) ∧
      (∀ p, (processEntry fsqrt data pt { s with pointQueue := rest }).matVisited.cell p ≠ 0 →
        inBounds data.matDepth.cols data.matDepth.rows p = true) := by
  have hpt := h.1 pt (by rw [hs]; exact List.mem_cons_self _ _)
  have hrest : ∀ e ∈ rest,
      inBounds data.matDepth.cols data.matDepth.rows e.m_point = true :=
    fun e he => h.1 e (by rw [hs]; exact List.mem_cons_of_mem _ he)
  refine ⟨processEntry_queue_inBounds fsqrt data pt _ hpt hrest, fun p hp => ?_⟩
  rcases processEntry_visited_origin fsqrt data pt _ p hp with h1 | h1
  · exact h.2 p h1
  · exact neighbourTests_inBounds data pt.m_point hpt _ h1 rfl

theorem initFill_frameInv (data : TrackingData)
    (hseed : inBounds data.matDepth.cols data.matDepth.rows data.seedPosition = true) :
    (∀ e ∈ (initFill data).pointQueue,
        inBounds data.matDepth.cols data.matDepth.rows e.m_point = true) ∧
      (∀ p, (initFill data).matVisited.cell p ≠ 0 →
        inBounds data.matDepth.cols data.matDepth.rows p = true) := by
  constructor
  · intro e he
    simp only [initFill, List.mem_singleton] at he
    subst he
    exact hseed
  · intro p hp
    by_cases hps : p = data.seedPosition
    · rw [hps]; exact hseed
    · exact absurd (by simp [initFill, Mat.set, Mat.zeros, hps]) hp

theorem dequeued_inBounds (fsqrt : ℚ → ℚ) (data : TrackingData) (n : Nat) (s : FillState)
    (h : (∀ e ∈ s.pointQueue, inBounds data.matDepth.cols data.matDepth.rows e.m_point = true) ∧
      (∀ p, s.matVisited.cell p ≠ 0 → inBounds data.matDepth.cols data.matDepth.rows p = true)) :
    ∀ p ∈ dequeued fsqrt data n s,
      inBounds data.matDepth.cols data.matDepth.rows p = true := by
  induction n generalizing s with
  | zero => intro p hp; simp [dequeued] at hp
  | succ n ih =>
    intro p hp
    unfold dequeued at hp
    split at hp
    · simp at hp
    · rename_i pt rest hs
      rcases List.mem_cons.mp hp with h1 | h1
      · rw [h1]; exact h.1 pt (by rw [hs]; exact List.mem_cons_self _ _)
      · exact ih _ (frameInv_step fsqrt data s pt rest h hs) p h1

theorem enqueued_inBounds (fsqrt : ℚ → ℚ) (data : TrackingData) (n : Nat) (s : FillState)
    (h : (∀ e ∈ s.pointQueue, inBounds data.matDepth.cols data.matDepth.rows e.m_point = true) ∧
      (∀ p, s.matVisited.cell p ≠ 0 → inBounds data.matDepth.cols data.matDepth.rows p = true)) :
    ∀ e ∈ enqueued fsqrt data n s,
      inBounds data.matDepth.cols data.matDepth.rows e.m_point = true := by
  induction n generalizing s with
  | zero => intro e he; simp [enqueued] at he
  | succ n ih =>
    intro e he
    unfold enqueued at he
    split at he
    · simp at he
    · rename_i pt rest hs
      have hstep := frameInv_step fsqrt data s pt rest h hs
      rcases List.mem_append.mp he with h1 | h1
      · exact hstep.1 e (List.mem_of_mem_drop h1)
      · exact ih _ hstep e h1

theorem accessedPixels_inBounds (data : TrackingData) (p : Point)
    (hp : inBounds data.matDepth.cols data.matDepth.rows p = true) :
    ∀ q ∈ accessedPixels data p, inBounds data.matDepth.cols data.matDepth.rows q = true := by
  intro q hq
  unfold accessedPixels at hq
  rcases List.mem_cons.mp hq with h | h
  · rw [h]; exact hp
  · obtain ⟨c, hc, hcq⟩ := List.mem_map.mp h
    obtain ⟨hc1, hc2⟩ := List.mem_filter.mp hc
    rw [← hcq]
    exact neighbourTests_inBounds data p hp c hc1 hc2

/-- Claim C12: with the seed inside the frame, after any number `n` of loop iterations of
`segmentForeground` every entry in the queue, every entry pushed so far and every pixel
dequeued so far lies in the frame (`0 <= x < width`, `0 <= y < height`); every pixel at which
an iteration indexes a buffer (the dequeued pixel, and for the visited buffer each neighbour
that passed its bound test) lies in the frame; and the visited buffer is set only there. -/
theorem segmentForeground_accesses_inBounds (fsqrt : ℚ → ℚ) (data : TrackingData)
    (hseed : inBounds data.matDepth.cols data.matDepth.rows data.seedPosition = true)
    (n : Nat) :
    (∀ e ∈ (floodLoop fsqrt data n (initFill data)).pointQueue,
        inBounds data.matDepth.cols data.matDepth.rows e.m_point = true) ∧
      (∀ e ∈ enqueued fsqrt data n (initFill data),
        inBounds data.matDepth.cols data.matDepth.rows e.m_point = true) ∧
      (∀ p ∈ dequeued fsqrt data n (initFill data), ∀ q ∈ accessedPixels data p,
        inBounds data.matDepth.cols data.matDepth.rows q = true) ∧
      (∀ p, (floodLoop fsqrt data n (initFill data)).matVisited.cell p ≠ 0 →
        inBounds data.matDepth.cols data.matDepth.rows p = true) := by
  have h0 := initFill_frameInv data hseed
  have hfin := floodLoop_induct fsqrt data
    (fun s => (∀ e ∈ s.pointQueue,
        inBounds data.matDepth.cols data.matDepth.rows e.m_point = true) ∧
      (∀ p, s.matVisited.cell p ≠ 0 →
        inBounds data.matDepth.cols data.matDepth.rows p = true))
    (fun s pt rest h hs => frameInv_step fsqrt data s pt rest h hs) n _ h0
  refine ⟨hfin.1, enqueued_inBounds fsqrt data n _ h0, fun p hp => ?_, hfin.2⟩
  exact accessedPixels_inBounds data p (dequeued_inBounds fsqrt data n _ h0 p hp)

theorem segmentForeground_accesses_inBounds_witness :
    inBounds 5 5 ⟨2, 2⟩ = true ∧
    (∀ e ∈ (floodLoop (fun _ => 0) flatData 7 (initFill flatData)).pointQueue,
        inBounds 5 5 e.m_point = true) ∧
      (∀ e ∈ enqueued (fun _ => 0) flatData 7 (initFill flatData),
        inBounds 5 5 e.m_point = true) ∧
      (∀ p ∈ dequeued (fun _ => 0) flatData 7 (initFill flatData),
        ∀ q ∈ accessedPixels flatData p, inBounds 5 5 q = true) ∧
      (∀ p, (floodLoop (fun _ => 0) flatData 7 (initFill flatData)).matVisited.cell p ≠ 0 →
        inBounds 5 5 p = true) :=
  ⟨by decide, segmentForeground_accesses_inBounds (fun _ => 0) flatData (by decide) 7⟩

/-! ## Every pixel is enqueued at most once -/

theorem pushNeighbour_visited_change (b : Bool) (q : Point) (t : ℚ) (r : Bool) (s : FillState)
    (x : Point) :
    (pushNeighbour b q t r s).matVisited.cell x = s.matVisited.cell x ∨
      (s.matVisited.cell x = 0 ∧ (pushNeighbour b q t r s).matVisited.cell x = 1) := by
  rw [pushNeighbour_visited_cell]
  by_cases h : b = true ∧ s.matVisited.cell q = 0 ∧ x = q
  · right
    obtain ⟨_, h2, h3⟩ := h
    subst h3
    simp [*]
  · left; simp [h]

/-- A run of neighbour blocks appends its pushes to the queue; each pushed pixel was
unvisited before and is visited after, no pixel is pushed twice, and the visited buffer
changes from 0 to 1 only. -/
theorem pushAll_added (cands : List (Bool × Point)) (t : ℚ) (r : Bool) (s : FillState) :
    (∀ x, (pushAll cands t r s).matVisited.cell x = s.matVisited.cell x ∨
        (s.matVisited.cell x = 0 ∧ (pushAll cands t r s).matVisited.cell x = 1)) ∧
      ∃ added, (pushAll cands t r s).pointQueue = s.pointQueue ++ added ∧
        (added.map (fun e => e.m_point)).Nodup ∧
        ∀ e ∈ added, e.m_ttl = t ∧ e.m_pathInRange = r ∧ (true, e.m_point) ∈ cands ∧
          s.matVisited.cell e.m_point = 0 ∧
          (pushAll cands t r s).matVisited.cell e.m_point = 1 := by
  induction cands generalizing s with
  | nil => exact ⟨fun _ => Or.inl rfl, [], by simp [pushAll], by simp, by simp⟩
  | cons c cs ih =>
    rw [pushAll_cons]
    obtain ⟨hV, added, hQ, hnd, hadd⟩ := ih (pushNeighbour c.1 c.2 t r s)
    have hV1 := pushNeighbour_visited_change c.1 c.2 t r s
    have hVt : ∀ x, (pushAll cs t r (pushNeighbour c.1 c.2 t r s)).matVisited.cell x =
        s.matVisited.cell x ∨ (s.matVisited.cell x = 0 ∧
          (pushAll cs t r (pushNeighbour c.1 c.2 t r s)).matVisited.cell x = 1) := by
      intro x
      rcases hV x with h | ⟨h1, h2⟩
      · rcases hV1 x with h' | ⟨h1', h2'⟩
        · left; rw [h, h']
        · right; exact ⟨h1', by rw [h, h2']⟩
      · rcases hV1 x with h' | ⟨h1', h2'⟩
        · right; exact ⟨by rw [← h']; exact h1, h2⟩
        · rw [h2'] at h1; exact absurd h1 one_ne_zero
    refine ⟨hVt, ?_⟩
    by_cases hcond : c.1 = true ∧ s.matVisited.cell c.2 = 0
    · refine ⟨⟨c.2, t, r⟩ :: added, ?_, ?_, ?_⟩
      · rw [hQ, pushNeighbour_queue]; simp [hcond]
      · rw [List.map_cons, List.nodup_cons]
        refine ⟨?_, hnd⟩
        intro hmem
        obtain ⟨e, he, hep⟩ := List.mem_map.mp hmem
        have h0 := (hadd e he).2.2.2.1
        rw [pushNeighbour_visited_cell] at h0
        simp only at hep
        rw [hep] at h0
        simp [hcond] at h0
      · intro e he
        rcases List.mem_cons.mp he with h | h
        · subst h
          refine ⟨rfl, rfl, ?_, hcond.2, ?_⟩
          · rw [← hcond.1]; exact List.mem_cons_self _ _
          · rcases hV c.2 with h | ⟨h1, _⟩
            · rw [h, pushNeighbour_visited_cell]; simp [hcond]
            · rw [pushNeighbour_visited_cell] at h1; simp [hcond] at h1
        · obtain ⟨a, b, c', d, e'⟩ := hadd e h
          refine ⟨a, b, List.mem_cons_of_mem _ c', ?_, e'⟩
          rcases hV1 e.m_point with h' | ⟨h1', _⟩
          · rw [← h']; exact d
          · exact h1'
    · refine ⟨added, ?_, hnd, ?_⟩
      · rw [hQ, pushNeighbour_queue]; simp [hcond]
      · intro e he
        obtain ⟨a, b, c', d, e'⟩ := hadd e he
        refine ⟨a, b, List.mem_cons_of_mem _ c', ?_, e'⟩
        rcases hV1 e.m_point with h' | ⟨h1', _⟩
        · rw [← h']; exact d
        · exact h1'

/-- One loop iteration appends its pushes to the queue left after `pop`; each pushed pixel
is a neighbour that was unvisited before and is visited after, no pixel is pushed twice, and
the visited buffer changes from 0 to 1 only. -/
theorem processEntry_added (fsqrt : ℚ → ℚ) (data : TrackingData) (pt : PointTTL)
    (s : FillState) :
    (∀ x, (processEntry fsqrt data pt s).matVisited.cell x = s.matVisited.cell x ∨
        (s.matVisited.cell x = 0 ∧ (processEntry fsqrt data pt s).matVisited.cell x = 1)) ∧
      ∃ added, (processEntry fsqrt data pt s).pointQueue = s.pointQueue ++ added ∧
        (added.map (fun e => e.m_point)).Nodup ∧
        ∀ e ∈ added, e.m_ttl = childTtl fsqrt data pt s ∧
          e.m_pathInRange = (if pointInRange data pt.m_point then true else pt.m_pathInRange) ∧
          (true, e.m_point) ∈ neighbourTests data pt.m_point ∧
          s.matVisited.cell e.m_point = 0 ∧
          (processEntry fsqrt data pt s).matVisited.cell e.m_point = 1 := by
  rw [processEntry_eq]
  split
  · split
    · have h := pushAll_added (neighbourTests data pt.m_point) (childTtl fsqrt data pt s)
        (if pointInRange data pt.m_point then true else pt.m_pathInRange)
        (markInRange data pt (markSearched pt s))
      simpa using h
    · exact ⟨fun _ => Or.inl rfl, [], by simp, by simp, by simp⟩
  · exact ⟨fun _ => Or.inl rfl, [], by simp, by simp, by simp⟩

theorem enqueued_nodup (fsqrt : ℚ → ℚ) (data : TrackingData) (n : Nat) (s : FillState)
    (hist : List Point) (hvis : ∀ p ∈ hist, s.matVisited.cell p ≠ 0) (hnd : hist.Nodup) :
    (hist ++ (enqueued fsqrt data n s).map (fun e => e.m_point)).Nodup := by
  induction n generalizing s hist with
  | zero => simpa [enqueued] using hnd
  | succ n ih =>
    unfold enqueued
    split
    · simpa using hnd
    · rename_i pt rest hs
      obtain ⟨hV, added, hQ, hndA, hadd⟩ :=
        processEntry_added fsqrt data pt { s with pointQueue := rest }
      simp only at hQ
      rw [hQ, List.drop_left, List.map_append, ← List.append_assoc]
      apply ih
      · intro p hp
        rcases List.mem_append.mp hp with h | h
        · rcases hV p with h1 | ⟨_, h1⟩
          · rw [h1]; exact hvis p h
          · rw [h1]; exact one_ne_zero
        · obtain ⟨e, he, hep⟩ := List.mem_map.mp h
          rw [← hep, (hadd e he).2.2.2.2]
          exact one_ne_zero
      · rw [List.nodup_append]
        refine ⟨hnd, hndA, ?_⟩
        intro p hp1 hp2
        obtain ⟨e, he, hep⟩ := List.mem_map.mp hp2
        have h0 := (hadd e he).2.2.2.1
        simp only at hep h0
        rw [hep] at h0
        exact hvis p hp1 h0

/-- Claim C15: in every run of `segmentForeground` each pixel is enqueued at most once. The
seed is marked visited when it is enqueued; one loop iteration, in any state, changes the
visited buffer from 0 to 1 only, pushes only pixels whose visited cell is 0 and leaves the
cell of each pushed pixel at 1; and the seed followed by the pixels pushed during any number
of iterations is a list without repetition. -/
theorem segmentForeground_enqueues_once (fsqrt : ℚ → ℚ) (data : TrackingData) (n : Nat) :
    ((initFill data).pointQueue.map (fun e => e.m_point) = [data.seedPosition] ∧
        (initFill data).matVisited.cell data.seedPosition = 1) ∧
      (∀ (s : FillState) (pt : PointTTL),
        (∀ x, (processEntry fsqrt data pt s).matVisited.cell x = s.matVisited.cell x ∨
          (s.matVisited.cell x = 0 ∧ (processEntry fsqrt data pt s).matVisited.cell x = 1)) ∧
        ∃ added, (processEntry fsqrt data pt s).pointQueue = s.pointQueue ++ added ∧
          ∀ e ∈ added, s.matVisited.cell e.m_point = 0 ∧
            (processEntry fsqrt data pt s).matVisited.cell e.m_point = 1) ∧
      (data.seedPosition ::
        (enqueued fsqrt data n (initFill data)).map (fun e => e.m_point)).Nodup := by
  refine ⟨⟨rfl, by simp [initFill, Mat.set]⟩, fun s pt => ?_, ?_⟩
  · obtain ⟨hV, added, hQ, -, hadd⟩ := processEntry_added fsqrt data pt s
    exact ⟨hV, added, hQ, fun e he => ⟨(hadd e he).2.2.2.1, (hadd e he).2.2.2.2⟩⟩
  · have := enqueued_nodup fsqrt data n (initFill data) [data.seedPosition]
      (by intro p hp; simp only [List.mem_singleton] at hp; subst hp
          simp [initFill, Mat.set]) (by simp)
    simpa using this

/-! ## The path-in-range flag -/

theorem processEntry_added_flag (fsqrt : ℚ → ℚ) (data : TrackingData) (pt : PointTTL)
    (s : FillState) (added : List PointTTL)
    (h : (processEntry fsqrt data pt s).pointQueue = s.pointQueue ++ added)
    (e : PointTTL) (he : e ∈ added) :
    e.m_pathInRange = (if pointInRange data pt.m_point then true else pt.m_pathInRange) ∧
      e.m_ttl = childTtl fsqrt data pt s ∧ e.m_point ∈ neighbours pt.m_point := by
  obtain ⟨-, added1, hQ, -, hadd⟩ := processEntry_added fsqrt data pt s
  have : added = added1 := List.append_cancel_left (h.symm.trans hQ)
  subst this
  obtain ⟨h1, h2, h3, -, -⟩ := hadd e he
  exact ⟨h2, h1, neighbour_of_mem_neighbourTests data _ _ _ h3⟩

/-- Claim C18: the path-in-range flag never reverts. An entry pushed while an entry with a set
flag is processed has its flag set; an entry pushed while an in-range pixel is processed has
its flag set; hence along every chain of parent-to-child entries a set flag stays set. -/
theorem pathInRange_never_reverts (fsqrt : ℚ → ℚ) (data : TrackingData) :
    (∀ (s : FillState) (pt : PointTTL) (added : List PointTTL),
        (processEntry fsqrt data pt s).pointQueue = s.pointQueue ++ added →
        ∀ e ∈ added,
          (pt.m_pathInRange = true → e.m_pathInRange = true) ∧
          (pointInRange data pt.m_point = true → e.m_pathInRange = true)) ∧
      (∀ a b : PointTTL, Relation.ReflTransGen (EnqueuedBy fsqrt data) a b →
        a.m_pathInRange = true → b.m_pathInRange = true) := by
  have step : ∀ (s : FillState) (pt : PointTTL) (added : List PointTTL),
      (processEntry fsqrt data pt s).pointQueue = s.pointQueue ++ added →
      ∀ e ∈ added,
        (pt.m_pathInRange = true → e.m_pathInRange = true) ∧
        (pointInRange data pt.m_point = true → e.m_pathInRange = true) := by
    intro s pt added h e he
    have hf := (processEntry_added_flag fsqrt data pt s added h e he).1
    constructor
    · intro hp; rw [hf, hp]; simp
    · intro hr; rw [hf, hr]; simp
  refine ⟨step, fun a b hab ha => ?_⟩
  induction hab with
  | refl => exact ha
  | tail _ hbc ih =>
    obtain ⟨s, added, hQ, hmem⟩ := hbc
    exact (step s _ added hQ _ hmem).1 ih

/-! ## Termination of the flood fill within the frame -/

theorem floodLoop_of_queue_nil (fsqrt : ℚ → ℚ) (data : TrackingData) (n : Nat)
    (s : FillState) (h : s.pointQueue = []) : floodLoop fsqrt data n s = s := by
  cases n with
  | zero => rfl
  | succ n => unfold floodLoop; rw [h]

theorem floodLoop_cons (fsqrt : ℚ → ℚ) (data : TrackingData) (n : Nat) (s : FillState)
    (pt : PointTTL) (rest : List PointTTL) (h : s.pointQueue = pt :: rest) :
    floodLoop fsqrt data (n + 1) s =
      floodLoop fsqrt data n (processEntry fsqrt data pt { s with pointQueue := rest }) := by
  conv_lhs => unfold floodLoop
  simp only [h]

theorem floodLoop_add (fsqrt : ℚ → ℚ) (data : TrackingData) (a b : Nat) (s : FillState) :
    floodLoop fsqrt data (a + b) s = floodLoop fsqrt data b (floodLoop fsqrt data a s) := by
  induction a generalizing s with
  | zero => simp [floodLoop]
  | succ a ih =>
    cases hq : s.pointQueue with
    | nil =>
      rw [floodLoop_of_queue_nil fsqrt data _ s hq, floodLoop_of_queue_nil fsqrt data _ s hq,
        floodLoop_of_queue_nil fsqrt data _ s hq]
    | cons pt rest =>
      rw [Nat.add_right_comm, floodLoop_cons fsqrt data _ s pt rest hq,
        floodLoop_cons fsqrt data _ s pt rest hq]
      exact ih _

theorem dequeued_length_le (fsqrt : ℚ → ℚ) (data : TrackingData) (n m : Nat) (s : FillState)
    (hq : ∀ e ∈ s.pointQueue, inBounds data.matDepth.cols data.matDepth.rows e.m_point = true)
    (hm : s.pointQueue.length + unvisitedCount data s.matVisited ≤ m) :
    (dequeued fsqrt data n s).length ≤ m := by
  induction n generalizing s m with
  | zero => simp [dequeued]
  | succ n ih =>
    unfold dequeued
    split
    · simp
    · rename_i pt rest hs
      have hpt : inBounds data.matDepth.cols data.matDepth.rows pt.m_point = true :=
        hq pt (by rw [hs]; exact List.mem_cons_self _ _)
      have hrest : ∀ e ∈ rest,
          inBounds data.matDepth.cols data.matDepth.rows e.m_point = true :=
        fun e he => hq e (by rw [hs]; exact List.mem_cons_of_mem _ he)
      have hmeas := processEntry_measure fsqrt data pt { s with pointQueue := rest } hpt
      rw [hs] at hm
      simp only [List.length_cons] at hm hmeas ⊢
      have h1 : rest.length + unvisitedCount data s.matVisited ≤ m - 1 := by omega
      have := ih (m - 1) _ (processEntry_queue_inBounds fsqrt data pt _ hpt hrest)
        (le_trans hmeas h1)
      omega

/-- Claim C20: for every input with the seed inside the frame, whatever the depth, area and
pixel-state buffers, the square-root function and the point type, `segmentForeground`
terminates with a result: after `width * height` iterations the queue is empty, further
iterations change nothing, and the loop never dequeues more than `width * height` entries. -/
theorem segmentForeground_terminates (fsqrt : ℚ → ℚ) (data : TrackingData)
    (hseed : inBounds data.matDepth.cols data.matDepth.rows data.seedPosition = true) :
    (∃ out, segmentForeground fsqrt data = some out) ∧
      (floodLoop fsqrt data (data.matDepth.cols * data.matDepth.rows)
        (initFill data)).pointQueue = [] ∧
      (∀ n, data.matDepth.cols * data.matDepth.rows ≤ n →
        floodLoop fsqrt data n (initFill data) =
          floodLoop fsqrt data (data.matDepth.cols * data.matDepth.rows) (initFill data)) ∧
      (∀ n, (dequeued fsqrt data n (initFill data)).length ≤
        data.matDepth.cols * data.matDepth.rows) := by
  have hq := fillResult_queue_empty fsqrt data hseed
  unfold fillResult at hq
  refine ⟨⟨_, segmentForeground_eq_some fsqrt data hseed⟩, hq, fun n hn => ?_, fun n => ?_⟩
  · obtain ⟨k, rfl⟩ := Nat.exists_eq_add_of_le hn
    rw [floodLoop_add, floodLoop_of_queue_nil fsqrt data k _ hq]
  · exact dequeued_length_le fsqrt data n _ _ (initFill_frameInv data hseed).1
      (initFill_measure data hseed)

theorem segmentForeground_terminates_witness :
    inBounds 5 5 ⟨0, 0⟩ = true ∧
    (∃ out, segmentForeground (fun a => a)
        (sampleData 5 5 cornerDepth ⟨0, 0⟩ .ActivePoint) = some out) ∧
      (floodLoop (fun a => a) (sampleData 5 5 cornerDepth ⟨0, 0⟩ .ActivePoint) (5 * 5)
        (initFill (sampleData 5 5 cornerDepth ⟨0, 0⟩ .ActivePoint))).pointQueue = [] ∧
      (∀ n, 5 * 5 ≤ n →
        floodLoop (fun a => a) (sampleData 5 5 cornerDepth ⟨0, 0⟩ .ActivePoint) n
            (initFill (sampleData 5 5 cornerDepth ⟨0, 0⟩ .ActivePoint)) =
          floodLoop (fun a => a) (sampleData 5 5 cornerDepth ⟨0, 0⟩ .ActivePoint) (5 * 5)
            (initFill (sampleData 5 5 cornerDepth ⟨0, 0⟩ .ActivePoint))) ∧
      (∀ n, (dequeued (fun a => a) (sampleData 5 5 cornerDepth ⟨0, 0⟩ .ActivePoint) n
        (initFill (sampleData 5 5 cornerDepth ⟨0, 0⟩ .ActivePoint))).length ≤ 5 * 5) :=
  ⟨by decide, segmentForeground_terminates (fun a => a)
    (sampleData 5 5 cornerDepth ⟨0, 0⟩ .ActivePoint) (by decide)⟩

/-! ## Area field and score field -/

theorem writeRow_cell {α : Type} (f : Nat → Nat → α) (y n x : Nat) (m : Mat α) (p : Point) :
    (writeRow f y n x m).cell p =
      if p.y = (y : Int) ∧ (x : Int) ≤ p.x ∧ p.x < (x : Int) + n then f p.x.toNat y
      else m.cell p := by
  induction n generalizing x m with
  | zero =>
    have : ¬ (p.y = (y : Int) ∧ (x : Int) ≤ p.x ∧ p.x < (x : Int) + (0 : Nat)) := by
      push_cast; omega
    rw [if_neg this]; rfl
  | succ n ih =>
    rw [writeRow, ih]
    by_cases h1 : p.y = (y : Int) ∧ ((x + 1 : Nat) : Int) ≤ p.x ∧
        p.x < ((x + 1 : Nat) : Int) + n
    · have h2 : p.y = (y : Int) ∧ (x : Int) ≤ p.x ∧ p.x < (x : Int) + (n + 1 : Nat) := by
        push_cast at h1 ⊢; omega
      rw [if_pos h1, if_pos h2]
    · rw [if_neg h1]
      by_cases h3 : p = ⟨(x : Int), (y : Int)⟩
      · have h2 : p.y = (y : Int) ∧ (x : Int) ≤ p.x ∧ p.x < (x : Int) + (n + 1 : Nat) := by
          subst h3; push_cast; simp
        rw [if_pos h2]
        subst h3
        simp [Mat.set]
      · have h2 : ¬ (p.y = (y : Int) ∧ (x : Int) ≤ p.x ∧ p.x < (x : Int) + (n + 1 : Nat)) := by
          intro hc
          apply h3
          have hx : p.x = (x : Int) := by push_cast at h1 hc; omega
          cases p
          simp only [Point.mk.injEq]
          exact ⟨hx, hc.1⟩
        rw [if_neg h2]
        simp [Mat.set, h3]

theorem writeRows_cell {α : Type} (f : Nat → Nat → α) (width n y : Nat) (m : Mat α)
    (p : Point) :
    (writeRows f width n y m).cell p =
      if (0 ≤ p.x ∧ p.x < (width : Int)) ∧ (y : Int) ≤ p.y ∧ p.y < (y : Int) + n then
        f p.x.toNat p.y.toNat
      else m.cell p := by
  induction n generalizing y m with
  | zero =>
    have : ¬ ((0 ≤ p.x ∧ p.x < (width : Int)) ∧ (y : Int) ≤ p.y ∧
        p.y < (y : Int) + (0 : Nat)) := by push_cast; omega
    rw [if_neg this]; rfl
  | succ n ih =>
    rw [writeRows, ih, writeRow_cell]
    by_cases h1 : (0 ≤ p.x ∧ p.x < (width : Int)) ∧ ((y + 1 : Nat) : Int) ≤ p.y ∧
        p.y < ((y + 1 : Nat) : Int) + n
    · have h2 : (0 ≤ p.x ∧ p.x < (width : Int)) ∧ (y : Int) ≤ p.y ∧
          p.y < (y : Int) + (n + 1 : Nat) := by push_cast at h1 ⊢; omega
      rw [if_pos h1, if_pos h2]
    · rw [if_neg h1]
      by_cases h3 : p.y = (y : Int) ∧ ((0 : Nat) : Int) ≤ p.x ∧ p.x < ((0 : Nat) : Int) + width
      · have h2 : (0 ≤ p.x ∧ p.x < (width : Int)) ∧ (y : Int) ≤ p.y ∧
            p.y < (y : Int) + (n + 1 : Nat) := by push_cast at h3 ⊢; omega
        rw [if_pos h3, if_pos h2]
        have : p.y.toNat = y := by omega
        rw [this]
      · have h2 : ¬ ((0 ≤ p.x ∧ p.x < (width : Int)) ∧ (y : Int) ≤ p.y ∧
            p.y < (y : Int) + (n + 1 : Nat)) := by push_cast at h1 h3 ⊢; omega
        rw [if_neg h3, if_neg h2]

theorem calculateSegmentArea_cell (toWorld : Point3f → ℚ → Point3f) (fnorm : Point3f → ℚ)
    (matDepth : Mat ℚ) (resizeFactor : ℚ) (x y : Nat) :
    (calculateSegmentArea toWorld fnorm matDepth resizeFactor).cell ⟨(x : Int), (y : Int)⟩ =
      if x < matDepth.cols - 1 ∧ y < matDepth.rows - 1 then
        segmentAreaAt toWorld fnorm matDepth resizeFactor x y
      else 0 := by
  unfold calculateSegmentArea
  rw [writeRows_cell]
  by_cases h : x < matDepth.cols - 1 ∧ y < matDepth.rows - 1
  · have h2 : (0 ≤ (x : Int) ∧ (x : Int) < ((matDepth.cols - 1 : Nat) : Int)) ∧
        ((0 : Nat) : Int) ≤ (y : Int) ∧
        (y : Int) < ((0 : Nat) : Int) + ((matDepth.rows - 1 : Nat) : Int) := by omega
    rw [if_pos h, if_pos h2]
    simp
  · have h2 : ¬ ((0 ≤ (x : Int) ∧ (x : Int) < ((matDepth.cols - 1 : Nat) : Int)) ∧
        ((0 : Nat) : Int) ≤ (y : Int) ∧
        (y : Int) < ((0 : Nat) : Int) + ((matDepth.rows - 1 : Nat) : Int)) := by omega
    rw [if_neg h, if_neg h2]
    rfl

theorem getDepthArea_nonneg (toWorld : Point3f → ℚ → Point3f) (fnorm : Point3f → ℚ)
    (hnorm : ∀ v, 0 ≤ fnorm v) (p1 p2 p3 : Point3f) (resizeFactor : ℚ) :
    0 ≤ getDepthArea toWorld fnorm p1 p2 p3 resizeFactor := by
  unfold getDepthArea
  exact mul_nonneg (by norm_num) (hnorm _)

theorem calculateBasicScore_cell (toWorld : Point3f → ℚ → Point3f) (matDepth matScore : Mat ℚ)
    (heightFactor depthFactor resizeFactor : ℚ) (x y : Nat)
    (hx : x < matDepth.cols) (hy : y < matDepth.rows) :
    (calculateBasicScore toWorld matDepth matScore heightFactor depthFactor
        resizeFactor).cell ⟨(x : Int), (y : Int)⟩ =
      basicScoreAt toWorld matDepth heightFactor depthFactor resizeFactor x y := by
  unfold calculateBasicScore
  rw [writeRows_cell]
  have h2 : (0 ≤ (x : Int) ∧ (x : Int) < (matDepth.cols : Int)) ∧
      ((0 : Nat) : Int) ≤ (y : Int) ∧
      (y : Int) < ((0 : Nat) : Int) + (matDepth.rows : Int) := by omega
  rw [if_pos h2]
  simp

/-- Claim C14, on a concrete input: with a conversion that leaves the sample unchanged (so
that `worldZ` is the depth), a 1 by 1 depth buffer holding 20000, height factor 1 and depth
factor 1, the depth at pixel `(0, 0)` is not 0 and the score there is `-10000`, a negative
value. -/
theorem calculateBasicScore_negative :
    (⟨1, 1, fun _ => 20000⟩ : Mat ℚ).cell ⟨0, 0⟩ ≠ 0 ∧
      (calculateBasicScore (fun p _ => p) ⟨1, 1, fun _ => 20000⟩ (Mat.zeros 1 1) 1 1 1).cell
        ⟨0, 0⟩ = -10000 ∧
      ¬ 0 ≤ (calculateBasicScore (fun p _ => p) ⟨1, 1, fun _ => 20000⟩ (Mat.zeros 1 1)
        1 1 1).cell ⟨0, 0⟩ := by
  have h := calculateBasicScore_cell (fun p _ => p) ⟨1, 1, fun _ => 20000⟩ (Mat.zeros 1 1)
    1 1 1 0 0 (by decide) (by decide)
  have hv : (calculateBasicScore (fun p _ => p) ⟨1, 1, fun _ => 20000⟩ (Mat.zeros 1 1)
      1 1 1).cell ⟨0, 0⟩ = -10000 := by
    have h' : (calculateBasicScore (fun p _ => p) ⟨1, 1, fun _ => 20000⟩ (Mat.zeros 1 1)
      1 1 1).cell ⟨0, 0⟩ = basicScoreAt (fun p _ => p) ⟨1, 1, fun _ => 20000⟩ 1 1 1 0 0 := h
    rw [h']
    norm_num [basicScoreAt, MAX_DEPTH]
  refine ⟨by norm_num, hv, ?_⟩
  rw [hv]
  norm_num

/-- Claim C14, amended: for every depth buffer, height factor, depth factor and resize factor
(and every conversion to world coordinates), the score that `calculateBasicScore` stores at a
pixel of the frame is 0 when the depth there is 0; otherwise it is
`worldY * heightFactor + (10000 - worldZ) * depthFactor` for the world point of the
conversion, which is non-negative when both summands are. -/
theorem calculateBasicScore_spec (toWorld : Point3f → ℚ → Point3f) (matDepth matScore : Mat ℚ)
    (heightFactor depthFactor resizeFactor : ℚ) (x y : Nat)
    (hx : x < matDepth.cols) (hy : y < matDepth.rows) :
    (matDepth.cell ⟨x, y⟩ = 0 →
        (calculateBasicScore toWorld matDepth matScore heightFactor depthFactor
          resizeFactor).cell ⟨x, y⟩ = 0) ∧
      (matDepth.cell ⟨x, y⟩ ≠ 0 →
        (calculateBasicScore toWorld matDepth matScore heightFactor depthFactor
          resizeFactor).cell ⟨x, y⟩ =
          (toWorld ⟨x, y, matDepth.cell ⟨x, y⟩⟩ resizeFactor).y * heightFactor +
            (10000 - (toWorld ⟨x, y, matDepth.cell ⟨x, y⟩⟩ resizeFactor).z) * depthFactor) ∧
      (matDepth.cell ⟨x, y⟩ ≠ 0 →
        0 ≤ (toWorld ⟨x, y, matDepth.cell ⟨x, y⟩⟩ resizeFactor).y * heightFactor →
        0 ≤ (10000 - (toWorld ⟨x, y, matDepth.cell ⟨x, y⟩⟩ resizeFactor).z) * depthFactor →
        0 ≤ (calculateBasicScore toWorld matDepth matScore heightFactor depthFactor
          resizeFactor).cell ⟨x, y⟩) := by
  rw [calculateBasicScore_cell toWorld matDepth matScore heightFactor depthFactor
    resizeFactor x y hx hy]
  refine ⟨fun h0 => ?_, fun hd => ?_, fun hd h1 h2 => ?_⟩
  · simp [basicScoreAt, h0]
  · simp [basicScoreAt, hd, MAX_DEPTH]
  · simp only [basicScoreAt, hd, ne_eq, not_false_eq_true, if_true, MAX_DEPTH]
    exact add_nonneg h1 h2

theorem calculateBasicScore_spec_witness :
    0 < 2 ∧ 1 < 2 ∧
    ((⟨2, 2, fun _ => 500⟩ : Mat ℚ).cell ⟨(0 : Nat), (1 : Nat)⟩ = 0 →
        (calculateBasicScore (fun p _ => p) ⟨2, 2, fun _ => 500⟩ (Mat.zeros 2 2) 1 1 1).cell
          ⟨(0 : Nat), (1 : Nat)⟩ = 0) ∧
      ((⟨2, 2, fun _ => 500⟩ : Mat ℚ).cell ⟨(0 : Nat), (1 : Nat)⟩ ≠ 0 →
        (calculateBasicScore (fun p _ => p) ⟨2, 2, fun _ => 500⟩ (Mat.zeros 2 2) 1 1 1).cell
          ⟨(0 : Nat), (1 : Nat)⟩ =
          ((fun (p : Point3f) (_ : ℚ) => p) ⟨(0 : Nat), (1 : Nat),
              (⟨2, 2, fun _ => 500⟩ : Mat ℚ).cell ⟨(0 : Nat), (1 : Nat)⟩⟩ 1).y * 1 +
            (10000 - ((fun (p : Point3f) (_ : ℚ) => p) ⟨(0 : Nat), (1 : Nat),
              (⟨2, 2, fun _ => 500⟩ : Mat ℚ).cell ⟨(0 : Nat), (1 : Nat)⟩⟩ 1).z) * 1) ∧
      ((⟨2, 2, fun _ => 500⟩ : Mat ℚ).cell ⟨(0 : Nat), (1 : Nat)⟩ ≠ 0 →
        0 ≤ ((fun (p : Point3f) (_ : ℚ) => p) ⟨(0 : Nat), (1 : Nat),
              (⟨2, 2, fun _ => 500⟩ : Mat ℚ).cell ⟨(0 : Nat), (1 : Nat)⟩⟩ 1).y * 1 →
        0 ≤ (10000 - ((fun (p : Point3f) (_ : ℚ) => p) ⟨(0 : Nat), (1 : Nat),
              (⟨2, 2, fun _ => 500⟩ : Mat ℚ).cell ⟨(0 : Nat), (1 : Nat)⟩⟩ 1).z) * 1 →
        0 ≤ (calculateBasicScore (fun p _ => p) ⟨2, 2, fun _ => 500⟩ (Mat.zeros 2 2)
          1 1 1).cell ⟨(0 : Nat), (1 : Nat)⟩) :=
  ⟨by decide, by decide,
    calculateBasicScore_spec (fun p _ => p) ⟨2, 2, fun _ => 500⟩ (Mat.zeros 2 2) 1 1 1 0 1
      (by decide) (by decide)⟩

/-! ## The budget handed to the neighbours -/

theorem processEntry_anyInRange (fsqrt : ℚ → ℚ) (data : TrackingData) (pt : PointTTL)
    (s : FillState) :
    (processEntry fsqrt data pt s).anyInRange =
      (s.anyInRange || (decide (entryTtl pt s > 0) && pointInRange data pt.m_point)) := by
  rw [processEntry_eq]
  by_cases h1 : entryTtl pt s > 0
  · by_cases h2 : pointInRange data pt.m_point = true
    · simp [h1, h2, markInRange]
    · simp only [Bool.not_eq_true] at h2
      by_cases h3 : pt.m_pathInRange = true
      · simp [h1, h2, h3]
      · simp [h1, h2, h3, markInRange]
  · simp [h1]

/-- A neighbour that passes its bound test and is unvisited is pushed with the given budget
and flag. -/
theorem pushAll_pushes (cands : List (Bool × Point)) (t : ℚ) (r : Bool) (s : FillState)
    (q : Point) (hmem : (true, q) ∈ cands) (hv : s.matVisited.cell q = 0) :
    (⟨q, t, r⟩ : PointTTL) ∈ (pushAll cands t r s).pointQueue := by
  induction cands generalizing s with
  | nil => simp at hmem
  | cons c cs ih =>
    rw [pushAll_cons]
    by_cases hc : c = (true, q)
    · apply pushAll_queue_sub
      rw [pushNeighbour_queue, hc]
      simp [hv]
    · have hmem2 : (true, q) ∈ cs := by
        rcases List.mem_cons.mp hmem with h | h
        · exact absurd h.symm hc
        · exact h
      apply ih _ hmem2
      rw [pushNeighbour_visited_cell]
      have : ¬ (c.1 = true ∧ s.matVisited.cell c.2 = 0 ∧ q = c.2) := by
        rintro ⟨h1, -, h3⟩
        apply hc
        rw [Prod.ext_iff]
        exact ⟨h1, h3.symm⟩
      rw [if_neg this]
      exact hv

theorem flagInv_step (fsqrt : ℚ → ℚ) (data : TrackingData)
    (hact : data.pointType = TrackedPointType.ActivePoint) (s : FillState) (hist : List Point)
    (pt : PointTTL) (rest : List PointTTL) (inv : FlagInv data s hist)
    (hs : s.pointQueue = pt :: rest) :
    FlagInv data (processEntry fsqrt data pt { s with pointQueue := rest })
      (hist ++ [pt.m_point]) := by
  obtain ⟨hflag, hfull⟩ := inv
  have hany := processEntry_anyInRange fsqrt data pt { s with pointQueue := rest }
  simp only at hany
  by_cases ha : s.anyInRange = true
  · constructor
    · rw [hany, ha]
      simp only [Bool.true_or, true_iff]
      rcases hflag.mp ha with h | ⟨q, hq, hqr⟩
      · exact Or.inl h
      · exact Or.inr ⟨q, List.mem_append_left _ hq, hqr⟩
    · intro hf
      rw [hany, ha] at hf
      simp at hf
  · simp only [Bool.not_eq_true] at ha
    have hpt : pt.m_ttl = maxTTL := hfull ha pt (by rw [hs]; exact List.mem_cons_self _ _)
    have httl : entryTtl pt { s with pointQueue := rest } = maxTTL := by
      unfold entryTtl; split
      · rfl
      · exact hpt
    have hpos : entryTtl pt { s with pointQueue := rest } > 0 := by
      rw [httl]; exact maxTTL_pos
    have hnot : ¬ (pointInRange data data.seedPosition = true ∨
        ∃ q ∈ hist, pointInRange data q = true) := by
      intro hc
      have := hflag.mpr hc
      rw [ha] at this
      exact absurd this (by decide)
    have hany2 : (processEntry fsqrt data pt { s with pointQueue := rest }).anyInRange =
        pointInRange data pt.m_point := by
      rw [hany, decide_eq_true hpos, ha]; simp
    constructor
    · rw [hany2]
      constructor
      · intro hr
        exact Or.inr ⟨pt.m_point, by simp, hr⟩
      · rintro (h | ⟨q, hq, hqr⟩)
        · exact absurd (Or.inl h) hnot
        · rcases List.mem_append.mp hq with h | h
          · exact absurd (Or.inr ⟨q, h, hqr⟩) hnot
          · simp only [List.mem_singleton] at h
            rw [← h]; exact hqr
    · intro _ e he
      obtain ⟨-, added, hQ, -, hadd⟩ :=
        processEntry_added fsqrt data pt { s with pointQueue := rest }
      simp only at hQ
      rw [hQ] at he
      rcases List.mem_append.mp he with h | h
      · exact hfull ha e (by rw [hs]; exact List.mem_cons_of_mem _ h)
      · rw [(hadd e h).1]
        unfold childTtl
        rw [if_neg (by simp [hact, ha])]
        exact httl

theorem flagInv_loop (fsqrt : ℚ → ℚ) (data : TrackingData)
    (hact : data.pointType = TrackedPointType.ActivePoint) (n : Nat) (s : FillState)
    (hist : List Point) (inv : FlagInv data s hist) :
    FlagInv data (floodLoop fsqrt data n s) (hist ++ dequeued fsqrt data n s) := by
  induction n generalizing s hist with
  | zero => simpa [floodLoop, dequeued] using inv
  | succ n ih =>
    cases hq : s.pointQueue with
    | nil =>
      rw [floodLoop_of_queue_nil fsqrt data _ s hq]
      unfold dequeued
      simpa [hq] using inv
    | cons pt rest =>
      rw [floodLoop_cons fsqrt data n s pt rest hq]
      have h := ih _ _ (flagInv_step fsqrt data hact s hist pt rest inv hq)
      unfold dequeued
      simp only [hq]
      simpa using h

theorem flagInv_init (data : TrackingData) : FlagInv data (initFill data) [] := by
  constructor
  · simp [initFill]
  · intro _ e he
    simp only [initFill, List.mem_singleton] at he
    rw [he]

theorem dequeued_succ (fsqrt : ℚ → ℚ) (data : TrackingData) (n : Nat) (s : FillState)
    (pt : PointTTL) (rest : List PointTTL)
    (hq : (floodLoop fsqrt data n s).pointQueue = pt :: rest) :
    dequeued fsqrt data (n + 1) s = dequeued fsqrt data n s ++ [pt.m_point] := by
  induction n generalizing s with
  | zero =>
    have hq0 : s.pointQueue = pt :: rest := hq
    simp [dequeued, hq0]
  | succ n ih =>
    cases hs : s.pointQueue with
    | nil =>
      rw [floodLoop_of_queue_nil fsqrt data _ s hs, hs] at hq
      simp at hq
    | cons a as =>
      rw [floodLoop_cons fsqrt data n s a as hs] at hq
      have h := ih _ hq
      conv_lhs => unfold dequeued
      conv_rhs => unfold dequeued
      simp only [hs]
      rw [h]
      rfl

/-- The budget rule of the loop body along a run: when `pt` heads the queue after `n`
iterations it is the next pixel dequeued, and the entries pushed while it is processed carry
its budget, unchanged when the point is active, the seed is out of range and no pixel
dequeued before was in range, and reduced by the square root of the processed pixel's area
value otherwise. -/
theorem budget_rule (fsqrt : ℚ → ℚ) (data : TrackingData) (n : Nat) (pt : PointTTL)
    (rest : List PointTTL)
    (hq : (floodLoop fsqrt data n (initFill data)).pointQueue = pt :: rest) :
    dequeued fsqrt data (n + 1) (initFill data) =
      dequeued fsqrt data n (initFill data) ++ [pt.m_point] ∧
    ∃ added,
      (processEntry fsqrt data pt
        { floodLoop fsqrt data n (initFill data) with pointQueue := rest }).pointQueue =
          rest ++ added ∧
      ∀ e ∈ added,
        ((data.pointType = TrackedPointType.ActivePoint ∧
            pointInRange data data.seedPosition = false ∧
            ∀ q ∈ dequeued fsqrt data n (initFill data), pointInRange data q = false) →
          e.m_ttl = entryTtl pt (floodLoop fsqrt data n (initFill data))) ∧
        (¬ (data.pointType = TrackedPointType.ActivePoint ∧
            pointInRange data data.seedPosition = false ∧
            ∀ q ∈ dequeued fsqrt data n (initFill data), pointInRange data q = false) →
          e.m_ttl = entryTtl pt (floodLoop fsqrt data n (initFill data)) -
            fsqrt (data.matArea.cell pt.m_point)) := by
  refine ⟨dequeued_succ fsqrt data n _ pt rest hq, ?_⟩
  obtain ⟨-, added, hQ, -, hadd⟩ := processEntry_added fsqrt data pt
    { floodLoop fsqrt data n (initFill data) with pointQueue := rest }
  refine ⟨added, hQ, fun e he => ?_⟩
  have httl := (hadd e he).1
  have hchild : childTtl fsqrt data pt
      { floodLoop fsqrt data n (initFill data) with pointQueue := rest } =
      if data.pointType ≠ TrackedPointType.ActivePoint ∨
          (floodLoop fsqrt data n (initFill data)).anyInRange = true then
        entryTtl pt (floodLoop fsqrt data n (initFill data)) -
          fsqrt (data.matArea.cell pt.m_point)
      else entryTtl pt (floodLoop fsqrt data n (initFill data)) := rfl
  rw [httl, hchild]
  by_cases hact : data.pointType = TrackedPointType.ActivePoint
  · have inv := flagInv_loop fsqrt data hact n _ _ (flagInv_init data)
    simp only [List.nil_append] at inv
    constructor
    · rintro ⟨-, h2, h3⟩
      have hf : ¬ (floodLoop fsqrt data n (initFill data)).anyInRange = true := by
        intro hc
        rcases inv.1.mp hc with h | ⟨q, hq1, hq2⟩
        · rw [h2] at h; exact absurd h (by decide)
        · rw [h3 q hq1] at hq2; exact absurd hq2 (by decide)
      rw [if_neg (by simp [hact, hf])]
    · intro hnot
      have ht : (floodLoop fsqrt data n (initFill data)).anyInRange = true := by
        by_contra hc
        apply hnot
        refine ⟨hact, ?_, ?_⟩
        · by_contra h
          exact hc (inv.1.mpr (Or.inl (by simpa using h)))
        · intro q hq1
          by_contra h
          exact hc (inv.1.mpr (Or.inr ⟨q, hq1, by simpa using h⟩))
      rw [if_pos (Or.inr ht)]
  · constructor
    · rintro ⟨h1, -⟩; exact absurd h1 hact
    · intro _; rw [if_pos (Or.inl hact)]

theorem activeData_inRange (p : Point) : pointInRange activeData p = true := by
  norm_num [pointInRange, maxDepth, activeData, flatData, sampleData]

/-- Claim C17, on a concrete input: an active point on the 5 by 5 all-500 frame with area 1
at every pixel (the square root of 1 is 1) and the in-range seed `(2, 2)`. The seed is the
first entry processed, so no pixel was processed before it, and it is processed with budget
250; yet its right neighbour `(3, 2)` is pushed with budget 249: the budget has decayed, where
the claim says it is handed on unchanged. -/
theorem budget_decays_at_inRange_seed :
    activeData.pointType = TrackedPointType.ActivePoint ∧
      (initFill activeData).pointQueue = [⟨⟨2, 2⟩, 250, true⟩] ∧
      dequeued (fun a => a) activeData 0 (initFill activeData) = [] ∧
      entryTtl ⟨⟨2, 2⟩, 250, true⟩ (initFill activeData) = 250 ∧
      (⟨⟨3, 2⟩, 249, true⟩ : PointTTL) ∈
        (processEntry (fun a => a) activeData ⟨⟨2, 2⟩, 250, true⟩
          { initFill activeData with pointQueue := [] }).pointQueue := by
  have hin := activeData_inRange ⟨2, 2⟩
  have hq : (initFill activeData).pointQueue = [⟨⟨2, 2⟩, 250, true⟩] := by
    show [(⟨activeData.seedPosition, maxTTL, pointInRange activeData activeData.seedPosition⟩ :
      PointTTL)] = _
    have hs : activeData.seedPosition = ⟨2, 2⟩ := rfl
    rw [hs, hin]
    rfl
  have he : ∀ s : FillState, s.matForeground = (initFill activeData).matForeground →
      entryTtl ⟨⟨2, 2⟩, 250, true⟩ s = 250 := by
    intro s hs
    unfold entryTtl
    rw [hs]
    rw [if_neg (by decide)]
  have he0 := he { initFill activeData with pointQueue := [] } rfl
  refine ⟨rfl, hq, rfl, he _ rfl, ?_⟩
  rw [processEntry_eq, he0]
  have hchild : childTtl (fun a => a) activeData ⟨⟨2, 2⟩, 250, true⟩
      { initFill activeData with pointQueue := [] } = 249 := by
    unfold childTtl
    rw [he0]
    have hany : (initFill activeData).anyInRange = true := hin
    rw [if_pos (Or.inr hany)]
    show (250 : ℚ) - 1 = 249
    norm_num
  rw [hchild]
  simp only [hin, Bool.or_true, if_true]
  rw [if_pos (by norm_num)]
  apply pushAll_pushes
  · simp only [neighbourTests, List.mem_cons, Prod.mk.injEq]
    left
    exact ⟨by decide, rfl⟩
  · simp only [markInRange_matVisited, markSearched_matVisited]
    decide

/-- Claim C17, amended: in `segmentForeground`, when `pt` heads the queue after `n`
iterations it is the next pixel dequeued, and every entry pushed while it is processed carries
the budget `pt` is processed with (after the reset to 250 when its pixel state is Foreground)
if the point is active, the seed is not in range and no pixel dequeued before `pt` was in
range; in every other case it carries that budget minus the square root of the area value at
`pt`. The flag consulted is the one from before `pt` is tested and starts as the seed's own
in-range test, so for an active point the first in-range pixel found does not decay the
budget unless it is the seed. -/
theorem segmentForeground_budget_rule (fsqrt : ℚ → ℚ) (data : TrackingData) (n : Nat)
    (pt : PointTTL) (rest : List PointTTL)
    (hq : (floodLoop fsqrt data n (initFill data)).pointQueue = pt :: rest) :
    dequeued fsqrt data (n + 1) (initFill data) =
      dequeued fsqrt data n (initFill data) ++ [pt.m_point] ∧
    ∃ added,
      (processEntry fsqrt data pt
        { floodLoop fsqrt data n (initFill data) with pointQueue := rest }).pointQueue =
          rest ++ added ∧
      ∀ e ∈ added,
        ((data.pointType = TrackedPointType.ActivePoint ∧
            pointInRange data data.seedPosition = false ∧
            ∀ q ∈ dequeued fsqrt data n (initFill data), pointInRange data q = false) →
          e.m_ttl = entryTtl pt (floodLoop fsqrt data n (initFill data))) ∧
        (¬ (data.pointType = TrackedPointType.ActivePoint ∧
            pointInRange data data.seedPosition = false ∧
            ∀ q ∈ dequeued fsqrt data n (initFill data), pointInRange data q = false) →
          e.m_ttl = entryTtl pt (floodLoop fsqrt data n (initFill data)) -
            fsqrt (data.matArea.cell pt.m_point)) :=
  budget_rule fsqrt data n pt rest hq

theorem segmentForeground_budget_rule_witness :
    (floodLoop (fun a => a) activeData 0 (initFill activeData)).pointQueue =
      ⟨⟨2, 2⟩, maxTTL, pointInRange activeData ⟨2, 2⟩⟩ :: [] ∧
    dequeued (fun a => a) activeData (0 + 1) (initFill activeData) =
      dequeued (fun a => a) activeData 0 (initFill activeData) ++ [⟨2, 2⟩] ∧
    ∃ added,
      (processEntry (fun a => a) activeData ⟨⟨2, 2⟩, maxTTL, pointInRange activeData ⟨2, 2⟩⟩
        { floodLoop (fun a => a) activeData 0 (initFill activeData) with
          pointQueue := [] }).pointQueue = [] ++ added ∧
      ∀ e ∈ added,
        ((activeData.pointType = TrackedPointType.ActivePoint ∧
            pointInRange activeData activeData.seedPosition = false ∧
            ∀ q ∈ dequeued (fun a => a) activeData 0 (initFill activeData),
              pointInRange activeData q = false) →
          e.m_ttl = entryTtl ⟨⟨2, 2⟩, maxTTL, pointInRange activeData ⟨2, 2⟩⟩
            (floodLoop (fun a => a) activeData 0 (initFill activeData))) ∧
        (¬ (activeData.pointType = TrackedPointType.ActivePoint ∧
            pointInRange activeData activeData.seedPosition = false ∧
            ∀ q ∈ dequeued (fun a => a) activeData 0 (initFill activeData),
              pointInRange activeData q = false) →
          e.m_ttl = entryTtl ⟨⟨2, 2⟩, maxTTL, pointInRange activeData ⟨2, 2⟩⟩
              (floodLoop (fun a => a) activeData 0 (initFill activeData)) -
            (fun a => a) (activeData.matArea.cell ⟨2, 2⟩)) :=
  ⟨rfl, segmentForeground_budget_rule (fun a => a) activeData 0
    ⟨⟨2, 2⟩, maxTTL, pointInRange activeData ⟨2, 2⟩⟩ [] rfl⟩

/-! ## Budget decay of a passive search outside the depth range -/

theorem processEntry_of_not_pos (fsqrt : ℚ → ℚ) (data : TrackingData) (pt : PointTTL)
    (s : FillState) (h : ¬ entryTtl pt s > 0) : processEntry fsqrt data pt s = s := by
  rw [processEntry_eq, if_neg h]

theorem processEntry_matForeground_cell (fsqrt : ℚ → ℚ) (data : TrackingData) (pt : PointTTL)
    (s : FillState) (x : Point) :
    (processEntry fsqrt data pt s).matForeground.cell x = s.matForeground.cell x ∨
      (processEntry fsqrt data pt s).matForeground.cell x = PixelType.Searched := by
  rw [processEntry_eq]
  split
  · by_cases hx : x = pt.m_point
    · right; split <;> simp [markSearched, Mat.set, hx]
    · left; split <;> simp [markSearched, Mat.set, hx]
  · left; rfl

theorem manhattan_neighbour (c p q : Point) (h : q ∈ neighbours p) :
    manhattan c q ≤ manhattan c p + 1 := by
  simp only [neighbours, List.mem_cons, List.mem_singleton, List.not_mem_nil, or_false] at h
  unfold manhattan
  rcases h with h | h | h | h <;> subst h <;> simp only <;> omega

/-- A list of distinct pixels inside a square of half-width `r` around `c` has at most
`(2 r + 1) ^ 2` entries. -/
theorem length_le_of_square (l : List Point) (hnd : l.Nodup) (c : Point) (r : Nat)
    (h : ∀ p ∈ l, manhattan c p ≤ r) : l.length ≤ (2 * r + 1) ^ 2 := by
  have hinj : Function.Injective (fun p : Point => (p.x, p.y)) := by
    intro a b hab
    cases a; cases b
    simp only [Prod.mk.injEq] at hab
    simp [hab.1, hab.2]
  have hnd2 : (l.map (fun p : Point => (p.x, p.y))).Nodup := hnd.map hinj
  have hsub : (l.map (fun p : Point => (p.x, p.y))).toFinset ⊆
      Finset.Icc (c.x - r) (c.x + r) ×ˢ Finset.Icc (c.y - r) (c.y + r) := by
    intro a ha
    rw [List.mem_toFinset] at ha
    obtain ⟨p, hp, hpa⟩ := List.mem_map.mp ha
    have hd := h p hp
    unfold manhattan at hd
    rw [← hpa]
    simp only [Finset.mem_product, Finset.mem_Icc]
    omega
  have hcard := Finset.card_le_card hsub
  rw [List.toFinset_card_of_nodup hnd2, List.length_map, Finset.card_product,
    Int.card_Icc, Int.card_Icc] at hcard
  have e1 : (c.x + r + 1 - (c.x - r)).toNat = 2 * r + 1 := by omega
  have e2 : (c.y + r + 1 - (c.y - r)).toNat = 2 * r + 1 := by omega
  rw [e1, e2] at hcard
  calc l.length ≤ (2 * r + 1) * (2 * r + 1) := hcard
    _ = (2 * r + 1) ^ 2 := by ring

theorem processEntry_matForeground (fsqrt : ℚ → ℚ) (data : TrackingData) (pt : PointTTL)
    (s : FillState) :
    (processEntry fsqrt data pt s).matForeground =
      if entryTtl pt s > 0 then s.matForeground.set pt.m_point PixelType.Searched
      else s.matForeground := by
  rw [processEntry_eq]
  split
  · split
    · rw [pushAll_matForeground, markInRange_matForeground]; rfl
    · rfl
  · rfl

theorem blankData_not_inRange (p : Point) : pointInRange blankData p = false := by
  simp [pointInRange, blankData, sampleData]

theorem resetData_not_inRange (p : Point) : pointInRange resetData p = false := by
  simp [pointInRange, resetData, blankData, sampleData]

theorem resetData_first_step :
    (floodLoop (fun a => a) resetData 1 (initFill resetData)).pointQueue =
      [⟨⟨3, 2⟩, 249, false⟩, ⟨⟨1, 2⟩, 249, false⟩, ⟨⟨2, 3⟩, 249, false⟩,
        ⟨⟨2, 1⟩, 249, false⟩] := by
  have hq : (initFill resetData).pointQueue = [⟨⟨2, 2⟩, maxTTL, false⟩] := by
    show [(⟨resetData.seedPosition, maxTTL, pointInRange resetData resetData.seedPosition⟩ :
      PointTTL)] = _
    rw [resetData_not_inRange]; rfl
  rw [floodLoop_cons _ _ 0 _ _ _ hq]
  show (processEntry (fun a => a) resetData ⟨⟨2, 2⟩, maxTTL, false⟩
    { initFill resetData with pointQueue := [] }).pointQueue = _
  have he : entryTtl ⟨⟨2, 2⟩, maxTTL, false⟩ { initFill resetData with pointQueue := [] } =
      maxTTL := by
    unfold entryTtl; split <;> rfl
  have hchild : childTtl (fun a => a) resetData ⟨⟨2, 2⟩, maxTTL, false⟩
      { initFill resetData with pointQueue := [] } = 249 := by
    unfold childTtl
    rw [he, if_pos (Or.inl (by decide))]
    show maxTTL - 1 = 249
    norm_num [maxTTL]
  rw [processEntry_eq, he, if_pos maxTTL_pos, hchild]
  simp only [resetData_not_inRange, Bool.not_false, Bool.or_false, Bool.false_eq_true,
    if_true, if_false]
  simp only [markInRange, resetData_not_inRange, Bool.false_eq_true, if_false]
  simp [pushAll, neighbourTests, pushNeighbour, markSearched, initFill, Mat.set,
    Mat.zeros, resetData, blankData, sampleData]

theorem blankData_first_push :
    (⟨⟨3, 2⟩, 250, false⟩ : PointTTL) ∈
      (processEntry (fun a => a) blankData ⟨⟨2, 2⟩, 250, false⟩
        { initFill blankData with pointQueue := [] }).pointQueue := by
  have he : entryTtl ⟨⟨2, 2⟩, 250, false⟩ { initFill blankData with pointQueue := [] } =
      250 := by
    unfold entryTtl; rw [if_neg (by decide)]
  have hchild : childTtl (fun a => a) blankData ⟨⟨2, 2⟩, 250, false⟩
      { initFill blankData with pointQueue := [] } = 250 := by
    unfold childTtl
    rw [he, if_pos (Or.inl (by decide))]
    show (250 : ℚ) - 0 = 250
    norm_num
  rw [processEntry_eq, he, if_pos (by norm_num), hchild]
  simp only [blankData_not_inRange, Bool.not_false, Bool.or_false, Bool.false_eq_true,
    if_true, if_false]
  apply pushAll_pushes
  · simp only [neighbourTests, List.mem_cons, Prod.mk.injEq]
    left
    exact ⟨by decide, rfl⟩
  · simp only [markInRange_matVisited, markSearched_matVisited]
    decide

theorem resetData_state_one :
    floodLoop (fun a => a) resetData 1 (initFill resetData) =
      processEntry (fun a => a) resetData ⟨⟨2, 2⟩, maxTTL, false⟩
        { initFill resetData with pointQueue := [] } := by
  have hq : (initFill resetData).pointQueue = [⟨⟨2, 2⟩, maxTTL, false⟩] := by
    show [(⟨resetData.seedPosition, maxTTL, pointInRange resetData resetData.seedPosition⟩ :
      PointTTL)] = _
    rw [resetData_not_inRange]; rfl
  rw [floodLoop_cons _ _ 0 _ _ _ hq]
  rfl

theorem resetData_second_push :
    (⟨⟨4, 2⟩, 249, false⟩ : PointTTL) ∈
      (processEntry (fun a => a) resetData ⟨⟨3, 2⟩, 249, false⟩
        { floodLoop (fun a => a) resetData 1 (initFill resetData) with
          pointQueue := [⟨⟨1, 2⟩, 249, false⟩, ⟨⟨2, 3⟩, 249, false⟩,
            ⟨⟨2, 1⟩, 249, false⟩] }).pointQueue := by
  have hseedTtl : entryTtl ⟨⟨2, 2⟩, maxTTL, false⟩
      { initFill resetData with pointQueue := [] } > 0 := by
    have : entryTtl ⟨⟨2, 2⟩, maxTTL, false⟩ { initFill resetData with pointQueue := [] } =
        maxTTL := by unfold entryTtl; split <;> rfl
    rw [this]; exact maxTTL_pos
  have hF : (floodLoop (fun a => a) resetData 1 (initFill resetData)).matForeground.cell
      ⟨3, 2⟩ = PixelType.Foreground := by
    rw [resetData_state_one, processEntry_matForeground, if_pos hseedTtl]
    simp [Mat.set, initFill, resetData]
  have hV : (floodLoop (fun a => a) resetData 1 (initFill resetData)).matVisited.cell
      ⟨4, 2⟩ = 0 := by
    by_contra hc
    rw [resetData_state_one] at hc
    rcases processEntry_visited_origin _ _ _ _ _ hc with h | h
    · exact h (by simp [initFill, Mat.set, Mat.zeros, resetData, blankData, sampleData])
    · simp [neighbourTests] at h
  have he : entryTtl ⟨⟨3, 2⟩, 249, false⟩
      { floodLoop (fun a => a) resetData 1 (initFill resetData) with
        pointQueue := [⟨⟨1, 2⟩, 249, false⟩, ⟨⟨2, 3⟩, 249, false⟩,
          ⟨⟨2, 1⟩, 249, false⟩] } = 250 := by
    unfold entryTtl
    rw [if_pos hF]; rfl
  have hchild : childTtl (fun a => a) resetData ⟨⟨3, 2⟩, 249, false⟩
      { floodLoop (fun a => a) resetData 1 (initFill resetData) with
        pointQueue := [⟨⟨1, 2⟩, 249, false⟩, ⟨⟨2, 3⟩, 249, false⟩,
          ⟨⟨2, 1⟩, 249, false⟩] } = 249 := by
    unfold childTtl
    rw [he, if_pos (Or.inl (by decide))]
    show (250 : ℚ) - 1 = 249
    norm_num
  rw [processEntry_eq, he, if_pos (by norm_num), hchild]
  simp only [resetData_not_inRange, Bool.not_false, Bool.or_false, Bool.false_eq_true,
    if_true, if_false]
  apply pushAll_pushes
  · simp only [neighbourTests, List.mem_cons, Prod.mk.injEq]
    left
    exact ⟨by decide, rfl⟩
  · simp only [markInRange_matVisited, markSearched_matVisited]
    exact hV

theorem edgeLoop_spec (erode : Mat Nat → Mat Nat) (matArea : Mat ℚ) (L M : Int) :
    ∀ (fuel : Nat) (eroded : Mat Nat) (edge : Mat ℚ) (k : Nat) (rounds : List (Mat Nat)),
      1 ≤ fuel → max 1 M ≤ (k : Int) + fuel → (k = 0 ∨ (k : Int) < M) →
      ∃ run new, edgeLoop erode matArea L M fuel eroded edge (k : Int) rounds = some run ∧
        run.rounds = rounds ++ new ∧ 1 ≤ new.length ∧
        ((k + new.length : Nat) : Int) ≤ max 1 M ∧
        (∀ j e, new[j]? = some e → e = erode^[j + 1] eroded ∧
          (j + 1 = new.length ↔
            (countNonZero e = 0 ∨ L ≤ (countNonZero e : Int) ∨
              M ≤ ((k + j + 1 : Nat) : Int)))) ∧
        (∀ p, run.matEdgeDistance.cell p =
          edge.cell p + matArea.cell p * (new.countP (fun e => decide (e.cell p ≠ 0)) : ℚ)) := by
  intro fuel
  induction fuel with
  | zero => intro _ _ _ _ h; omega
  | succ fuel ih =>
    intro eroded edge k rounds _ hfuel hk
    unfold edgeLoop
    simp only
    by_cases hc : (!decide ((countNonZero (erode eroded) : Int) = 0) &&
        decide ((countNonZero (erode eroded) : Int) < L)) = true
    · have hc' : (countNonZero (erode eroded) : Int) ≠ 0 ∧
          (countNonZero (erode eroded) : Int) < L := by simpa using hc
      by_cases hit : (k : Int) + 1 < M
      · rw [if_pos hc, if_pos hit]
        obtain ⟨run, new, hrun, hr, hlen, hle, hjs, hedge⟩ :=
          ih (erode eroded) (maskedAdd matArea edge edge (erode eroded)) (k + 1)
            (rounds ++ [erode eroded]) (by omega) (by push_cast; omega)
            (Or.inr (by push_cast; exact hit))
        refine ⟨run, erode eroded :: new, ?_, ?_, ?_, ?_, ?_, ?_⟩
        · rw [← hrun]; push_cast; rfl
        · rw [hr]; simp
        · simp
        · simp only [List.length_cons]
          have : k + (new.length + 1) = k + 1 + new.length := by omega
          rw [this]; exact hle
        · intro j e hj
          cases j with
          | zero =>
            simp only [List.getElem?_cons_zero, Option.some.injEq] at hj
            subst hj
            refine ⟨rfl, ?_⟩
            simp only [List.length_cons]
            constructor
            · intro h; omega
            · rintro (h | h | h)
              · exact absurd (by exact_mod_cast h) hc'.1
              · omega
              · push_cast at h; omega
          | succ j =>
            simp only [List.getElem?_cons_succ] at hj
            obtain ⟨h1, h2⟩ := hjs j e hj
            refine ⟨by rw [h1]; rfl, ?_⟩
            simp only [List.length_cons]
            have e1 : k + 1 + j + 1 = k + (j + 1) + 1 := by omega
            rw [e1] at h2
            constructor
            · intro h; exact h2.mp (by omega)
            · intro h; have := h2.mpr h; omega
        · intro p
          rw [hedge p, List.countP_cons]
          by_cases hp : (erode eroded).cell p ≠ 0
          · simp only [maskedAdd, hp, ne_eq, not_false_eq_true, if_true, decide_True]
            push_cast; ring
          · simp only [maskedAdd, hp, if_false, decide_False]
            simp
      · rw [if_pos hc, if_neg hit]
        refine ⟨_, [erode eroded], rfl, rfl, by simp, ?_, ?_, ?_⟩
        · simp only [List.length_singleton]
          rcases hk with h | h
          · subst h; simp
          · have : ((k + 1 : Nat) : Int) ≤ M := by push_cast; omega
            exact le_trans this (le_max_right _ _)
        · intro j e hj
          cases j with
          | zero =>
            simp only [List.getElem?_cons_zero, Option.some.injEq] at hj
            subst hj
            refine ⟨rfl, ?_⟩
            simp only [List.length_singleton, zero_add, true_iff]
            right; right; push_cast; omega
          | succ j => simp at hj
        · intro p
          by_cases hp : (erode eroded).cell p ≠ 0
          · simp [maskedAdd, hp]; ring
          · simp [maskedAdd, hp]
    · rw [if_neg hc]
      have hc' : (countNonZero (erode eroded) : Int) = 0 ∨
          L ≤ (countNonZero (erode eroded) : Int) := by
        by_contra hn
        push_neg at hn
        apply hc
        simp only [Bool.and_eq_true, Bool.not_eq_true', decide_eq_false_iff_not,
          decide_eq_true_eq]
        exact ⟨hn.1, hn.2⟩
      refine ⟨_, [erode eroded], rfl, rfl, by simp, ?_, ?_, ?_⟩
      · simp only [List.length_singleton]
        rcases hk with h | h
        · subst h; simp
        · have : ((k + 1 : Nat) : Int) ≤ M := by push_cast; omega
          exact le_trans this (le_max_right _ _)
      · intro j e hj
        cases j with
        | zero =>
          simp only [List.getElem?_cons_zero, Option.some.injEq] at hj
          subst hj
          refine ⟨rfl, ?_⟩
          simp only [List.length_singleton, zero_add, true_iff]
          rcases hc' with h | h
          · left; exact_mod_cast h
          · right; left; exact h
        | succ j => simp at hj
      · intro p
        by_cases hp : (erode eroded).cell p ≠ 0
        · simp [maskedAdd, hp]; ring
        · simp [maskedAdd, hp]

theorem iterate_dims (erode : Mat Nat → Mat Nat)
    (hdims : ∀ m, (erode m).cols = m.cols ∧ (erode m).rows = m.rows) (n : Nat) (m : Mat Nat) :
    (erode^[n] m).cols = m.cols ∧ (erode^[n] m).rows = m.rows := by
  induction n generalizing m with
  | zero => exact ⟨rfl, rfl⟩
  | succ n ih =>
    rw [Function.iterate_succ_apply]
    exact ⟨(ih _).1.trans (hdims m).1, (ih _).2.trans (hdims m).2⟩

theorem countNonZero_eq_zero (e : Mat Nat) :
    countNonZero e = 0 ↔ ∀ p, inBounds e.cols e.rows p = true → e.cell p = 0 := by
  unfold countNonZero
  rw [List.countP_eq_zero]
  constructor
  · intro h p hp
    have := h p ((mem_allPixels _ _ _).mpr hp)
    simpa using this
  · intro h p hp
    have := h p ((mem_allPixels _ _ _).mp hp)
    simp [this]

theorem countNonZero_full (e : Mat Nat) :
    ((e.cols : Int) * e.rows ≤ (countNonZero e : Int)) ↔
      ∀ p, inBounds e.cols e.rows p = true → e.cell p ≠ 0 := by
  have hle : countNonZero e ≤ e.cols * e.rows := by
    unfold countNonZero
    rw [← length_allPixels]
    exact List.countP_le_length _
  have hiff : ((e.cols : Int) * e.rows ≤ (countNonZero e : Int)) ↔
      countNonZero e = (allPixels e.cols e.rows).length := by
    rw [length_allPixels]
    constructor
    · intro h
      have : e.cols * e.rows ≤ countNonZero e := by exact_mod_cast h
      omega
    · intro h; rw [h]; push_cast; exact le_refl _
  rw [hiff]
  unfold countNonZero
  rw [List.countP_eq_length]
  constructor
  · intro h p hp
    have := h p ((mem_allPixels _ _ _).mpr hp)
    simpa using this
  · intro h p hp
    have := h p ((mem_allPixels _ _ _).mp hp)
    simpa using this

theorem processEntryRounded_eq (fsub : ℚ → ℚ → ℚ) (fsqrt : ℚ → ℚ) (data : TrackingData)
    (pt : PointTTL) (s : FillState) :
    processEntryRounded fsub fsqrt data pt s =
      if entryTtl pt s > 0 then
        if (!pt.m_pathInRange || pointInRange data pt.m_point) = true then
          pushAll (neighbourTests data pt.m_point) (childTtlRounded fsub fsqrt data pt s)
            (if pointInRange data pt.m_point then true else pt.m_pathInRange)
            (markInRange data pt (markSearched pt s))
        else markSearched pt s
      else s := by
  unfold processEntryRounded entryTtl
  by_cases h : (if s.matForeground.cell pt.m_point = PixelType.Foreground then maxTTL
      else pt.m_ttl) > 0
  · simp only [h, if_true, decide_True, Bool.true_and]
    by_cases h2 : (!pt.m_pathInRange || pointInRange data pt.m_point) = true
    · simp only [h2, if_true]
      by_cases h3 : pointInRange data pt.m_point = true <;>
        simp [h3, pushAll, neighbourTests, childTtlRounded, entryTtl, markInRange, markSearched]
    · simp only [h2, markSearched]
      simp
  · simp only [h, if_false]

/-- With the exact subtraction the rounded loop body is the loop body `processEntry`. -/
theorem processEntryRounded_exact (fsqrt : ℚ → ℚ) (data : TrackingData) (pt : PointTTL)
    (s : FillState) :
    processEntryRounded (fun x y => x - y) fsqrt data pt s = processEntry fsqrt data pt s :=
  rfl

/-- With the exact subtraction the rounded loop is the loop `floodLoop`. -/
theorem floodLoopRounded_exact (fsqrt : ℚ → ℚ) (data : TrackingData) (n : Nat)
    (s : FillState) :
    floodLoopRounded (fun x y => x - y) fsqrt data n s = floodLoop fsqrt data n s := by
  induction n generalizing s with
  | zero => rfl
  | succ n ih =>
    unfold floodLoopRounded floodLoop
    split
    · rfl
    · rw [processEntryRounded_exact]; exact ih _

theorem floodLoopRounded_induct (fsub : ℚ → ℚ → ℚ) (fsqrt : ℚ → ℚ) (data : TrackingData)
    (P : FillState → Prop)
    (hstep : ∀ (s : FillState) (pt : PointTTL) (rest : List PointTTL), P s →
      s.pointQueue = pt :: rest →
      P (processEntryRounded fsub fsqrt data pt { s with pointQueue := rest }))
    (fuel : Nat) (s : FillState) (h : P s) : P (floodLoopRounded fsub fsqrt data fuel s) := by
  induction fuel generalizing s with
  | zero => exact h
  | succ n ih =>
    unfold floodLoopRounded
    split
    · exact h
    · rename_i pt rest hq
      exact ih _ (hstep s pt rest h hq)

theorem processEntryRounded_added (fsub : ℚ → ℚ → ℚ) (fsqrt : ℚ → ℚ) (data : TrackingData)
    (pt : PointTTL) (s : FillState) :
    (∀ x, (processEntryRounded fsub fsqrt data pt s).matVisited.cell x = s.matVisited.cell x ∨
        (s.matVisited.cell x = 0 ∧
          (processEntryRounded fsub fsqrt data pt s).matVisited.cell x = 1)) ∧
      ∃ added, (processEntryRounded fsub fsqrt data pt s).pointQueue = s.pointQueue ++ added ∧
        (added.map (fun e => e.m_point)).Nodup ∧
        ∀ e ∈ added, e.m_ttl = childTtlRounded fsub fsqrt data pt s ∧
          (true, e.m_point) ∈ neighbourTests data pt.m_point ∧
          s.matVisited.cell e.m_point = 0 ∧
          (processEntryRounded fsub fsqrt data pt s).matVisited.cell e.m_point = 1 := by
  rw [processEntryRounded_eq]
  split
  · split
    · obtain ⟨h1, added, h2, h3, h4⟩ := pushAll_added (neighbourTests data pt.m_point)
        (childTtlRounded fsub fsqrt data pt s)
        (if pointInRange data pt.m_point then true else pt.m_pathInRange)
        (markInRange data pt (markSearched pt s))
      refine ⟨by simpa using h1, added, by simpa using h2, h3, fun e he => ?_⟩
      obtain ⟨a, -, c, d, e'⟩ := h4 e he
      exact ⟨a, c, by simpa using d, e'⟩
    · exact ⟨fun _ => Or.inl rfl, [], by simp, by simp, by simp⟩
  · exact ⟨fun _ => Or.inl rfl, [], by simp, by simp, by simp⟩

theorem processEntryRounded_of_not_pos (fsub : ℚ → ℚ → ℚ) (fsqrt : ℚ → ℚ)
    (data : TrackingData) (pt : PointTTL) (s : FillState) (h : ¬ entryTtl pt s > 0) :
    processEntryRounded fsub fsqrt data pt s = s := by
  rw [processEntryRounded_eq, if_neg h]

theorem processEntryRounded_matForeground_cell (fsub : ℚ → ℚ → ℚ) (fsqrt : ℚ → ℚ)
    (data : TrackingData) (pt : PointTTL) (s : FillState) (x : Point) :
    (processEntryRounded fsub fsqrt data pt s).matForeground.cell x = s.matForeground.cell x ∨
      (processEntryRounded fsub fsqrt data pt s).matForeground.cell x =
        PixelType.Searched := by
  rw [processEntryRounded_eq]
  split
  · by_cases hx : x = pt.m_point
    · right; split <;> simp [markSearched, Mat.set, hx]
    · left; split <;> simp [markSearched, Mat.set, hx]
  · left; rfl

theorem processEntryRounded_segmentation (fsub : ℚ → ℚ → ℚ) (fsqrt : ℚ → ℚ)
    (data : TrackingData) (pt : PointTTL) (s : FillState) (q : Point) :
    (processEntryRounded fsub fsqrt data pt s).matSegmentation.cell q =
        s.matSegmentation.cell q ∨
      pointInRange data q = true := by
  rw [processEntryRounded_eq]
  split
  · split
    · rw [pushAll_matSegmentation]
      unfold markInRange
      split
      · rename_i hr
        by_cases hq : q = pt.m_point
        · right; rw [hq]; exact hr
        · left; simp [Mat.set, hq, markSearched]
      · left; rfl
    · left; rfl
  · left; rfl

theorem processEntryRounded_measure (fsub : ℚ → ℚ → ℚ) (fsqrt : ℚ → ℚ) (data : TrackingData)
    (pt : PointTTL) (s : FillState)
    (hp : inBounds data.matDepth.cols data.matDepth.rows pt.m_point = true) :
    (processEntryRounded fsub fsqrt data pt s).pointQueue.length +
        unvisitedCount data (processEntryRounded fsub fsqrt data pt s).matVisited ≤
      s.pointQueue.length + unvisitedCount data s.matVisited := by
  rw [processEntryRounded_eq]
  split
  · split
    · have := pushAll_measure data (neighbourTests data pt.m_point)
        (childTtlRounded fsub fsqrt data pt s)
        (if pointInRange data pt.m_point then true else pt.m_pathInRange)
        (markInRange data pt (markSearched pt s)) (neighbourTests_inBounds data pt.m_point hp)
      simpa using this
    · simp
  · exact le_refl _

theorem processEntryRounded_queue_inBounds (fsub : ℚ → ℚ → ℚ) (fsqrt : ℚ → ℚ)
    (data : TrackingData) (pt : PointTTL) (s : FillState)
    (hp : inBounds data.matDepth.cols data.matDepth.rows pt.m_point = true)
    (hq : ∀ e ∈ s.pointQueue, inBounds data.matDepth.cols data.matDepth.rows e.m_point = true) :
    ∀ e ∈ (processEntryRounded fsub fsqrt data pt s).pointQueue,
      inBounds data.matDepth.cols data.matDepth.rows e.m_point = true := by
  rw [processEntryRounded_eq]
  split
  · split
    · intro e he
      rcases pushAll_queue_mem _ _ _ _ e he with h | ⟨h, -⟩
      · exact hq e (by simpa using h)
      · exact neighbourTests_inBounds data pt.m_point hp _ h rfl
    · simpa using hq
  · exact hq

theorem floodLoopRounded_queue_empty (fsub : ℚ → ℚ → ℚ) (fsqrt : ℚ → ℚ) (data : TrackingData)
    (fuel : Nat) (s : FillState)
    (hq : ∀ e ∈ s.pointQueue, inBounds data.matDepth.cols data.matDepth.rows e.m_point = true)
    (hm : s.pointQueue.length + unvisitedCount data s.matVisited ≤ fuel) :
    (floodLoopRounded fsub fsqrt data fuel s).pointQueue = [] := by
  induction fuel generalizing s with
  | zero =>
    unfold floodLoopRounded
    exact List.eq_nil_of_length_eq_zero (by omega)
  | succ n ih =>
    unfold floodLoopRounded
    split
    · assumption
    · rename_i pt rest hs
      have hpt : inBounds data.matDepth.cols data.matDepth.rows pt.m_point = true :=
        hq pt (by rw [hs]; exact List.mem_cons_self _ _)
      have hrest : ∀ e ∈ rest,
          inBounds data.matDepth.cols data.matDepth.rows e.m_point = true :=
        fun e he => hq e (by rw [hs]; exact List.mem_cons_of_mem _ he)
      apply ih
      · exact processEntryRounded_queue_inBounds fsub fsqrt data pt _ hpt hrest
      · have := processEntryRounded_measure fsub fsqrt data pt { s with pointQueue := rest } hpt
        rw [hs] at hm
        simp only [List.length_cons] at hm this ⊢
        omega

theorem dequeuedRounded_length_le (fsub : ℚ → ℚ → ℚ) (fsqrt : ℚ → ℚ) (data : TrackingData)
    (n m : Nat) (s : FillState)
    (hq : ∀ e ∈ s.pointQueue, inBounds data.matDepth.cols data.matDepth.rows e.m_point = true)
    (hm : s.pointQueue.length + unvisitedCount data s.matVisited ≤ m) :
    (dequeuedRounded fsub fsqrt data n s).length ≤ m := by
  induction n generalizing s m with
  | zero => simp [dequeuedRounded]
  | succ n ih =>
    unfold dequeuedRounded
    split
    · simp
    · rename_i pt rest hs
      have hpt : inBounds data.matDepth.cols data.matDepth.rows pt.m_point = true :=
        hq pt (by rw [hs]; exact List.mem_cons_self _ _)
      have hrest : ∀ e ∈ rest,
          inBounds data.matDepth.cols data.matDepth.rows e.m_point = true :=
        fun e he => hq e (by rw [hs]; exact List.mem_cons_of_mem _ he)
      have hmeas := processEntryRounded_measure fsub fsqrt data pt
        { s with pointQueue := rest } hpt
      rw [hs] at hm
      simp only [List.length_cons] at hm hmeas ⊢
      have h1 : rest.length + unvisitedCount data s.matVisited ≤ m - 1 := by omega
      have := ih (m - 1) _ (processEntryRounded_queue_inBounds fsub fsqrt data pt _ hpt hrest)
        (le_trans hmeas h1)
      omega

theorem enqueuedRounded_nodup (fsub : ℚ → ℚ → ℚ) (fsqrt : ℚ → ℚ) (data : TrackingData)
    (n : Nat) (s : FillState) (hist : List Point)
    (hvis : ∀ p ∈ hist, s.matVisited.cell p ≠ 0) (hnd : hist.Nodup) :
    (hist ++ (enqueuedRounded fsub fsqrt data n s).map (fun e => e.m_point)).Nodup := by
  induction n generalizing s hist with
  | zero => simpa [enqueuedRounded] using hnd
  | succ n ih =>
    unfold enqueuedRounded
    split
    · simpa using hnd
    · rename_i pt rest hs
      obtain ⟨hV, added, hQ, hndA, hadd⟩ :=
        processEntryRounded_added fsub fsqrt data pt { s with pointQueue := rest }
      simp only at hQ
      rw [hQ, List.drop_left, List.map_append, ← List.append_assoc]
      apply ih
      · intro p hp
        rcases List.mem_append.mp hp with h | h
        · rcases hV p with h1 | ⟨_, h1⟩
          · rw [h1]; exact hvis p h
          · rw [h1]; exact one_ne_zero
        · obtain ⟨e, he, hep⟩ := List.mem_map.mp h
          rw [← hep, (hadd e he).2.2.2]
          exact one_ne_zero
      · rw [List.nodup_append]
        refine ⟨hnd, hndA, ?_⟩
        intro p hp1 hp2
        obtain ⟨e, he, hep⟩ := List.mem_map.mp hp2
        have h0 := (hadd e he).2.2.1
        simp only at hep h0
        rw [hep] at h0
        exact hvis p hp1 h0

theorem dequeuedRounded_length_le_enqueued (fsub : ℚ → ℚ → ℚ) (fsqrt : ℚ → ℚ)
    (data : TrackingData) (n : Nat) (s : FillState) :
    (dequeuedRounded fsub fsqrt data n s).length ≤
      s.pointQueue.length + (enqueuedRounded fsub fsqrt data n s).length := by
  induction n generalizing s with
  | zero => simp [dequeuedRounded]
  | succ n ih =>
    unfold dequeuedRounded enqueuedRounded
    split
    · simp
    · rename_i pt rest hs
      obtain ⟨-, added, hQ, -, -⟩ :=
        processEntryRounded_added fsub fsqrt data pt { s with pointQueue := rest }
      simp only at hQ
      have h := ih (processEntryRounded fsub fsqrt data pt { s with pointQueue := rest })
      rw [hQ] at h
      have hl : s.pointQueue.length = rest.length + 1 := by rw [hs]; rfl
      rw [hQ, List.drop_left]
      simp only [List.length_cons, List.length_append] at h ⊢
      omega

/-- One iteration of a passive search with a rounded subtraction of relative error at most
`eps`, whose pixel states are never Foreground and whose area square roots are at least `m`,
with `250 * eps < m`: the invariant is kept for `mu = m - 250 * eps`, and each pushed entry
carries the rounded difference of its parent's budget and the square root of the parent's
area value, which is strictly smaller than the parent's budget, and lies within distance
`floor (250 / mu) + 1` of the seed. -/
theorem decayInv_step (fsub : ℚ → ℚ → ℚ) (fsqrt : ℚ → ℚ) (data : TrackingData) (m eps : ℚ)
    (heps0 : 0 ≤ eps) (heps1 : eps ≤ 1) (hm : 250 * eps < m)
    (herr : ∀ x s, |fsub x s - (x - s)| ≤ eps * |x - s|)
    (hpassive : data.pointType ≠ TrackedPointType.ActivePoint)
    (harea : ∀ p, inBounds data.matDepth.cols data.matDepth.rows p = true →
      m ≤ fsqrt (data.matArea.cell p))
    (s : FillState) (pt : PointTTL) (rest : List PointTTL)
    (inv : DecayInv data (m - 250 * eps) s) (hs : s.pointQueue = pt :: rest) :
    DecayInv data (m - 250 * eps)
        (processEntryRounded fsub fsqrt data pt { s with pointQueue := rest }) ∧
      ∃ added, (processEntryRounded fsub fsqrt data pt
          { s with pointQueue := rest }).pointQueue = rest ++ added ∧
        ∀ e ∈ added, e.m_ttl = fsub pt.m_ttl (fsqrt (data.matArea.cell pt.m_point)) ∧
          e.m_ttl < pt.m_ttl ∧
          (e.m_ttl ≤ 0 ∨ e.m_ttl ≤ pt.m_ttl - (m - 250 * eps)) ∧
          manhattan data.seedPosition e.m_point ≤ ⌊maxTTL / (m - 250 * eps)⌋₊ + 1 := by
  obtain ⟨hq, hF⟩ := inv
  obtain ⟨hpin, hpd⟩ := hq pt (by rw [hs]; exact List.mem_cons_self _ _)
  have hmu : 0 < m - 250 * eps := by linarith
  have hrest : ∀ e ∈ rest, e ∈ s.pointQueue := fun e he => by
    rw [hs]; exact List.mem_cons_of_mem _ he
  have httl : entryTtl pt { s with pointQueue := rest } = pt.m_ttl := by
    unfold entryTtl
    rw [if_neg (hF pt.m_point hpin)]
  have hchild : childTtlRounded fsub fsqrt data pt { s with pointQueue := rest } =
      fsub pt.m_ttl (fsqrt (data.matArea.cell pt.m_point)) := by
    unfold childTtlRounded
    rw [if_pos (Or.inl hpassive), httl]
  obtain ⟨-, added, hQ, -, hadd⟩ :=
    processEntryRounded_added fsub fsqrt data pt { s with pointQueue := rest }
  simp only at hQ
  have hprops : ∀ e ∈ added, e.m_ttl = fsub pt.m_ttl (fsqrt (data.matArea.cell pt.m_point)) ∧
      e.m_ttl < pt.m_ttl ∧
      (e.m_ttl ≤ 0 ∨ e.m_ttl ≤ pt.m_ttl - (m - 250 * eps)) ∧
      manhattan data.seedPosition e.m_point ≤ ⌊maxTTL / (m - 250 * eps)⌋₊ + 1 ∧
      inBounds data.matDepth.cols data.matDepth.rows e.m_point = true ∧
      (e.m_ttl ≤ 0 ∨
        e.m_ttl + (m - 250 * eps) * (manhattan data.seedPosition e.m_point : ℚ) ≤ maxTTL) := by
    intro e he
    obtain ⟨h1, h3, -, -⟩ := hadd e he
    have hpos : pt.m_ttl > 0 := by
      by_contra hc
      have hsame := processEntryRounded_of_not_pos fsub fsqrt data pt
        { s with pointQueue := rest } (by rw [httl]; exact hc)
      rw [hsame] at hQ
      have : added = [] := by
        have := congrArg List.length hQ
        simp only [List.length_append] at this
        exact List.eq_nil_of_length_eq_zero (by omega)
      rw [this] at he
      simp at he
    have hbud : pt.m_ttl + (m - 250 * eps) *
        (manhattan data.seedPosition pt.m_point : ℚ) ≤ maxTTL := by
      rcases hpd with h | h
      · linarith
      · exact h
    have hdnn : (0 : ℚ) ≤ (manhattan data.seedPosition pt.m_point : ℚ) := Nat.cast_nonneg _
    have hx250 : pt.m_ttl ≤ 250 := by
      have : 0 ≤ (m - 250 * eps) * (manhattan data.seedPosition pt.m_point : ℚ) :=
        mul_nonneg (le_of_lt hmu) hdnn
      unfold maxTTL at hbud
      linarith
    have hdist := manhattan_neighbour data.seedPosition pt.m_point e.m_point
      (neighbour_of_mem_neighbourTests data _ _ _ h3)
    have hdistq : (manhattan data.seedPosition e.m_point : ℚ) ≤
        (manhattan data.seedPosition pt.m_point : ℚ) + 1 := by exact_mod_cast hdist
    have hle := harea pt.m_point hpin
    have hfloor : manhattan data.seedPosition pt.m_point ≤ ⌊maxTTL / (m - 250 * eps)⌋₊ := by
      apply Nat.le_floor
      rw [le_div_iff₀ hmu]
      nlinarith
    have hround := herr pt.m_ttl (fsqrt (data.matArea.cell pt.m_point))
    have hup : fsub pt.m_ttl (fsqrt (data.matArea.cell pt.m_point)) -
        (pt.m_ttl - fsqrt (data.matArea.cell pt.m_point)) ≤
        eps * |pt.m_ttl - fsqrt (data.matArea.cell pt.m_point)| :=
      le_trans (le_abs_self _) hround
    have hcases : fsub pt.m_ttl (fsqrt (data.matArea.cell pt.m_point)) ≤ 0 ∨
        fsub pt.m_ttl (fsqrt (data.matArea.cell pt.m_point)) ≤
          pt.m_ttl - (m - 250 * eps) := by
      by_cases hsign : pt.m_ttl - fsqrt (data.matArea.cell pt.m_point) ≤ 0
      · left
        rw [abs_of_nonpos hsign] at hup
        nlinarith
      · right
        push_neg at hsign
        rw [abs_of_pos hsign] at hup
        nlinarith
    rw [h1, hchild]
    refine ⟨rfl, ?_, hcases, by omega,
      neighbourTests_inBounds data pt.m_point hpin _ h3 rfl, ?_⟩
    · rcases hcases with h | h
      · linarith
      · linarith
    · rcases hcases with h | h
      · exact Or.inl h
      · right
        nlinarith
  refine ⟨⟨?_, ?_⟩, added, hQ, fun e he => ⟨(hprops e he).1, (hprops e he).2.1,
    (hprops e he).2.2.1, (hprops e he).2.2.2.1⟩⟩
  · intro e he
    rw [hQ] at he
    rcases List.mem_append.mp he with h | h
    · exact hq e (hrest e h)
    · exact ⟨(hprops e h).2.2.2.2.1, (hprops e h).2.2.2.2.2⟩
  · intro p hp
    rcases processEntryRounded_matForeground_cell fsub fsqrt data pt
      { s with pointQueue := rest } p with h | h
    · rw [h]; exact hF p hp
    · rw [h]; decide

theorem decayInv_init (data : TrackingData) (mu : ℚ)
    (hseed : inBounds data.matDepth.cols data.matDepth.rows data.seedPosition = true)
    (hstate : ∀ p, inBounds data.matDepth.cols data.matDepth.rows p = true →
      data.matForegroundSearched.cell p ≠ PixelType.Foreground) :
    DecayInv data mu (initFill data) := by
  refine ⟨fun e he => ?_, hstate⟩
  simp only [initFill, List.mem_singleton] at he
  subst he
  refine ⟨hseed, Or.inr ?_⟩
  simp [manhattan]

theorem decay_enqueued (fsub : ℚ → ℚ → ℚ) (fsqrt : ℚ → ℚ) (data : TrackingData) (m eps : ℚ)
    (heps0 : 0 ≤ eps) (heps1 : eps ≤ 1) (hm : 250 * eps < m)
    (herr : ∀ x s, |fsub x s - (x - s)| ≤ eps * |x - s|)
    (hpassive : data.pointType ≠ TrackedPointType.ActivePoint)
    (harea : ∀ p, inBounds data.matDepth.cols data.matDepth.rows p = true →
      m ≤ fsqrt (data.matArea.cell p))
    (n : Nat) (s : FillState) (inv : DecayInv data (m - 250 * eps) s) :
    ∀ e ∈ enqueuedRounded fsub fsqrt data n s,
      manhattan data.seedPosition e.m_point ≤ ⌊maxTTL / (m - 250 * eps)⌋₊ + 1 := by
  induction n generalizing s with
  | zero => intro e he; simp [enqueuedRounded] at he
  | succ n ih =>
    intro e he
    unfold enqueuedRounded at he
    split at he
    · simp at he
    · rename_i pt rest hs
      obtain ⟨inv2, added, hQ, hadd⟩ :=
        decayInv_step fsub fsqrt data m eps heps0 heps1 hm herr hpassive harea s pt rest inv hs
      rw [hQ, List.drop_left] at he
      rcases List.mem_append.mp he with h | h
      · exact (hadd e h).2.2.2
      · exact ih _ inv2 e h

/-- The number of dequeues of a passive search whose budget drops by at least
`mu = m - 250 * eps > 0` at every pixel and is never reset is at most
`(2 (floor (250 / mu) + 1) + 1) ^ 2`. -/
theorem decay_dequeued_le (fsub : ℚ → ℚ → ℚ) (fsqrt : ℚ → ℚ) (data : TrackingData)
    (m eps : ℚ) (heps0 : 0 ≤ eps) (heps1 : eps ≤ 1) (hm : 250 * eps < m)
    (herr : ∀ x s, |fsub x s - (x - s)| ≤ eps * |x - s|)
    (hpassive : data.pointType ≠ TrackedPointType.ActivePoint)
    (harea : ∀ p, inBounds data.matDepth.cols data.matDepth.rows p = true →
      m ≤ fsqrt (data.matArea.cell p))
    (hseed : inBounds data.matDepth.cols data.matDepth.rows data.seedPosition = true)
    (hstate : ∀ p, inBounds data.matDepth.cols data.matDepth.rows p = true →
      data.matForegroundSearched.cell p ≠ PixelType.Foreground)
    (n : Nat) :
    (dequeuedRounded fsub fsqrt data n (initFill data)).length ≤
      (2 * (⌊maxTTL / (m - 250 * eps)⌋₊ + 1) + 1) ^ 2 := by
  have hnd := enqueuedRounded_nodup fsub fsqrt data n (initFill data) [data.seedPosition]
    (by intro p hp; simp only [List.mem_singleton] at hp; subst hp
        simp [initFill, Mat.set]) (by simp)
  have hin : ∀ p ∈ [data.seedPosition] ++
      (enqueuedRounded fsub fsqrt data n (initFill data)).map (fun e => e.m_point),
      manhattan data.seedPosition p ≤ ⌊maxTTL / (m - 250 * eps)⌋₊ + 1 := by
    intro p hp
    rcases List.mem_append.mp hp with h | h
    · simp only [List.mem_singleton] at h
      subst h
      simp [manhattan]
    · obtain ⟨e, he, hep⟩ := List.mem_map.mp h
      rw [← hep]
      exact decay_enqueued fsub fsqrt data m eps heps0 heps1 hm herr hpassive harea n _
        (decayInv_init data _ hseed hstate) e he
  have hlen := length_le_of_square _ hnd data.seedPosition _ hin
  have hd := dequeuedRounded_length_le_enqueued fsub fsqrt data n (initFill data)
  simp only [List.length_append, List.length_singleton, List.length_map] at hlen
  have hq1 : (initFill data).pointQueue.length = 1 := rfl
  omega

theorem decayData_not_inRange (p : Point) : pointInRange decayData p = false := by
  simp [pointInRange, decayData, blankData, sampleData]

theorem decayData_state (p : Point) :
    decayData.matForegroundSearched.cell p ≠ PixelType.Foreground := by
  show (0 : Nat) ≠ 1
  decide

theorem sampleSub_error (x s : ℚ) :
    |sampleSub x s - (x - s)| ≤ (1 / 16777216 : ℚ) * |x - s| := by
  have h : sampleSub x s - (x - s) = (1 / 16777216 : ℚ) * (x - s) := by
    unfold sampleSub; ring
  rw [h, abs_mul, abs_of_pos (by norm_num : (0 : ℚ) < 1 / 16777216)]

end Astra
